import Mathlib

/-!
# ded: lexer (`src/lexer.c`) and arena allocator (`src/arena.h`)

A shallow embedding of the C sources and the properties proved about it.

Conventions of the embedding

* A byte (`char`) is a `Nat`; the borrowed buffer `content`/`content_len` is a
  `List Nat` whose length is `content_len`.
* A pointer into the buffer is the offset from `content`.
* The `<ctype.h>` predicates are those of the "C" locale: a byte from 128 on
  is in none of the classes.
* C code that can abort or read out of bounds lives in `Except Fault`: a failed
  `assert` and a read outside the buffer are explicit results, and so is a loop
  that exhausts the iteration budget given to it.
* `Lexer.x` and the advance widths are floats in C.  The embedding keeps them in
  an arbitrary type `F` with a zero and an addition of which no law is assumed.
-/

namespace Ded

/-! ## Lexer: data model -/

/-- Ways a C execution can go wrong. -/
inductive Fault where
  | assert_failed
  | out_of_bounds
  | out_of_fuel
  deriving DecidableEq, Repr

/-- Modelled from the spec: the `Token_Kind` enumeration of `lexer.h`, which is
not among the sources; the order is the one of the spec (section 3), `END` is
the enumerator of value 0. -/
inductive Token_Kind where
  | END | INVALID | PREPROC | SYMBOL | OPEN_PAREN | CLOSE_PAREN | OPEN_CURLY
  | CLOSE_CURLY | SEMICOLON | KEYWORD | OPERATOR | NUMBER | STRING | COMMENT
  deriving DecidableEq, Repr

/-- Modelled from the spec: the glyph metrics source (`Free_Glyph_Atlas` of
`free_glyph.h`, not among the sources). `capacity` is `GLYPH_METRICS_CAPACITY`
and `metrics i` is `metrics[i].ax`. -/
structure Free_Glyph_Atlas (F : Type) where
  capacity : Nat
  metrics : Nat → F

/-- Modelled from the spec: the `Lexer` record of `lexer.h` (not among the
sources), with the fields `lexer.c` uses. `atlas = none` is the null pointer. -/
structure Lexer (F : Type) where
  atlas : Option (Free_Glyph_Atlas F)
  content : List Nat
  cursor : Nat
  line : Nat
  bol : Nat
  x : F

/-- Modelled from the spec: the `Token` record of `lexer.h` (not among the
sources). `text` is the offset of the span in the buffer. `position.y` is
`-(float)line * FREE_GLYPH_FONT_SIZE * LINE_SPACING_FACTOR`, a function of the
line alone whose two constants are not among the sources: the embedding records
the line it is computed from in `position_line`. -/
structure Token (F : Type) where
  kind : Token_Kind
  text : Nat
  text_len : Nat
  position_x : F
  position_line : Nat

set_option linter.unusedSectionVars false

variable {F : Type} [Zero F] [Add F]

/-- The `content_len` field. -/
def Lexer.content_len (lex : Lexer F) : Nat := lex.content.length

/-! ## `<ctype.h>` in the "C" locale -/

/-- Space, `\t`, `\n`, `\v`, `\f`, `\r`. -/
def isspace (c : Nat) : Bool := c == 32 || (9 ≤ c && c ≤ 13)

/-- Decimal digits `0`..`9`. -/
def isdigit (c : Nat) : Bool := 48 ≤ c && c ≤ 57

/-- Letters `A`..`Z` and `a`..`z`. -/
def isalpha (c : Nat) : Bool := (65 ≤ c && c ≤ 90) || (97 ≤ c && c ≤ 122)

/-- Letters and digits. -/
def isalnum (c : Nat) : Bool := isalpha c || isdigit c

/-- The bytes of a C string literal (ASCII), without the terminating NUL. -/
def cstr (s : String) : List Nat := s.toList.map Char.toNat

/-! ## Lexer: tables -/

/-- The `literal_tokens` table, lexer.c:13-19. -/
def literal_tokens : List (Token_Kind × List Nat) :=
  [ (Token_Kind.OPEN_PAREN, cstr "("),
    (Token_Kind.CLOSE_PAREN, cstr ")"),
    (Token_Kind.OPEN_CURLY, cstr "\x7b"),
    (Token_Kind.CLOSE_CURLY, cstr "\x7d"),
    (Token_Kind.SEMICOLON, cstr ";") ]

/-- The `keywords` table, lexer.c:23-84. -/
def keywords : List (List Nat) :=
  [ "int", "short", "long", "float", "double",
    "char", "wchar_t", "char8_t", "char16_t", "char32_t",
    "int8_t", "int16_t", "int32_t", "int64_t",
    "uint8_t", "uint16_t", "uint32_t", "uint64_t",
    "bool", "void",
    "if", "else", "while", "for",
    "do", "switch", "case", "break",
    "goto", "default", "return", "continue",
    "const", "auto", "register", "static",
    "extern", "thread_local", "mutable",
    "signed", "unsigned", "volatile", "inline",
    "new", "delete",
    "false", "true", "nullptr",
    "typeid", "typename", "decltype",
    "try", "catch", "throw",
    "class", "struct", "union", "enum",
    "public", "private", "protected", "virtual",
    "friend", "explicit", "operator", "template",
    "namespace", "using", "static_assert", "concept",
    "requires", "consteval", "constexpr", "constinit",
    "alignas", "alignof",
    "co_await", "co_return", "co_yield",
    "dynamic_cast", "static_cast", "reinterpret_cast", "const_cast",
    "atomic_cancel", "atomic_commit", "atomic_noexcept",
    "sizeof", "typedef", "asm", "noexcept", "this", "reflexpr", "synchronized",
    "and", "or", "not",
    "and_eq", "or_eq", "not_eq",
    "bitand", "bitor",
    "xor", "xor_eq",
    "import", "module", "concepts", "final", "override" ].map cstr

/-! ## Lexer: operations -/

/-- `lexer_new`, lexer.c:120-127: every field zero except the three given. -/
def lexer_new (atlas : Option (Free_Glyph_Atlas F)) (content : List Nat) : Lexer F :=
  { atlas := atlas, content := content, cursor := 0, line := 0, bol := 0, x := 0 }

/-- A read `lex->content[i]`; outside the buffer it is a fault. -/
def content_at (lex : Lexer F) (i : Nat) : Except Fault Nat :=
  match lex.content[i]? with
  | some c => .ok c
  | none => .error Fault.out_of_bounds

/-- The loop of `lexer_starts_with`, lexer.c:140-146, from index `i` with `n`
iterations left. -/
def lexer_starts_with_loop (lex : Lexer F) (pfx : List Nat) : Nat → Nat → Except Fault Bool
  | 0, _ => .ok true
  | n + 1, i =>
    match content_at lex (lex.cursor + i) with
    | .error e => .error e
    | .ok c => if pfx.getD i 0 != c then .ok false else lexer_starts_with_loop lex pfx n (i + 1)

/-- `lexer_starts_with`, lexer.c:129-148. -/
def lexer_starts_with (lex : Lexer F) (pfx : List Nat) : Except Fault Bool :=
  if pfx.length = 0 then .ok true
  else if lex.cursor + pfx.length - 1 ≥ lex.content_len then .ok false
  else lexer_starts_with_loop lex pfx pfx.length 0

/-- The conversion `size_t glyph_index = x` of a `char` (lexer.c:168) where
`char` is signed and `size_t` has 64 bits: bytes from 128 on are negative
`char` values and wrap around. -/
def char_to_size_t (c : Nat) : Nat := if c < 128 then c else 2 ^ 64 - 256 + c

/-- The body of the loop of `lexer_chop_char` after the assertion and the read
of `x = c`, lexer.c:157-177. -/
def lexer_chop_byte (lex : Lexer F) (c : Nat) : Lexer F :=
  if c = 10 then
    { lex with cursor := lex.cursor + 1, line := lex.line + 1, bol := lex.cursor + 1, x := 0 }
  else
    match lex.atlas with
    | some atlas =>
      let glyph_index := char_to_size_t c
      let glyph_index := if glyph_index ≥ atlas.capacity then 63 else glyph_index
      { lex with cursor := lex.cursor + 1, x := lex.x + atlas.metrics glyph_index }
    | none => { lex with cursor := lex.cursor + 1 }

/-- `lexer_chop_char`, lexer.c:150-179. -/
def lexer_chop_char : Lexer F → Nat → Except Fault (Lexer F)
  | lex, 0 => .ok lex
  | lex, len + 1 =>
    if lex.cursor < lex.content_len then
      match content_at lex lex.cursor with
      | .error e => .error e
      | .ok c => lexer_chop_char (lexer_chop_byte lex c) len
    else .error Fault.assert_failed

/-- A C `while (cond) body` over the lexer state, with an iteration budget. -/
def while_loop (cond : Lexer F → Except Fault Bool) (body : Lexer F → Except Fault (Lexer F)) :
    Nat → Lexer F → Except Fault (Lexer F)
  | 0, _ => .error Fault.out_of_fuel
  | fuel + 1, lex =>
    match cond lex with
    | .error e => .error e
    | .ok false => .ok lex
    | .ok true =>
      match body lex with
      | .error e => .error e
      | .ok lex' => while_loop cond body fuel lex'

/-- The loop guard `lex->cursor < lex->content_len && p(lex->content[lex->cursor])`. -/
def cursor_is (p : Nat → Bool) (lex : Lexer F) : Except Fault Bool :=
  if lex.cursor < lex.content_len then
    match content_at lex lex.cursor with
    | .error e => .error e
    | .ok c => .ok (p c)
  else .ok false

/-- The loop `while (cursor < content_len && p(content[cursor])) lexer_chop_char(lex, 1)`.
One iteration consumes a byte, so `content_len + 1` iterations always suffice. -/
def chop_while (p : Nat → Bool) (lex : Lexer F) : Except Fault (Lexer F) :=
  while_loop (cursor_is p) (fun l => lexer_chop_char l 1) (lex.content_len + 1) lex

/-- `lexer_trim_left`, lexer.c:181-187. -/
def lexer_trim_left (lex : Lexer F) : Except Fault (Lexer F) :=
  chop_while isspace lex

/-- `is_symbol_start`, lexer.c:189-192. -/
def is_symbol_start (x : Nat) : Bool := isalpha x || x == 95

/-- `is_symbol`, lexer.c:194-197. -/
def is_symbol (x : Nat) : Bool := isalnum x || x == 95

/-- `is_operator`, lexer.c:199-205. -/
def is_operator (x : Nat) : Bool :=
  x == 43 || x == 45 || x == 42 || x == 47 || x == 37 ||
  x == 60 || x == 62 || x == 61 || x == 33 || x == 38 ||
  x == 124 || x == 94 || x == 126 || x == 91 || x == 93 ||
  x == 44 || x == 46 || x == 58 || x == 63

/-- `handle_sequence`, lexer.c:207-226. -/
def handle_sequence (lex : Lexer F) : Except Fault (Lexer F) :=
  match content_at lex lex.cursor with
  | .error e => .error e
  | .ok ch =>
    if ch = 92 then
      match lexer_chop_char lex 1 with
      | .error e => .error e
      | .ok lex =>
        if lex.cursor < lex.content_len then
          match content_at lex lex.cursor with
          | .error e => .error e
          | .ok next =>
            if next = 110 ∨ next = 116 ∨ next = 92 ∨ next = 34 ∨ next = 39 then
              lexer_chop_char lex 1
            else .ok lex
        else .ok lex
    else lexer_chop_char lex 1

/-- The pointer difference `&lex->content[lex->cursor] - token.text`. -/
def span_len (lex : Lexer F) (token : Token F) : Nat := lex.cursor - token.text

/-- The digit branch of `lexer_next`, lexer.c:244-251. -/
def scan_number (lex : Lexer F) (token : Token F) : Except Fault (Token F × Lexer F) :=
  match chop_while isdigit lex with
  | .error e => .error e
  | .ok lex => .ok ({ token with kind := Token_Kind.NUMBER, text_len := span_len lex token }, lex)

/-- The body of the string loop, lexer.c:260-267. -/
def string_body (lex : Lexer F) : Except Fault (Lexer F) :=
  match content_at lex lex.cursor with
  | .error e => .error e
  | .ok c => if c = 92 then handle_sequence lex else lexer_chop_char lex 1

/-- The string branch of `lexer_next`, lexer.c:256-274. -/
def scan_string (lex : Lexer F) (token : Token F) : Except Fault (Token F × Lexer F) :=
  match lexer_chop_char lex 1 with
  | .error e => .error e
  | .ok lex =>
    match while_loop (cursor_is (fun c => c != 34 && c != 10)) string_body
        (lex.content_len + 1) lex with
    | .error e => .error e
    | .ok lex =>
      match cursor_is (fun c => c == 34) lex with
      | .error e => .error e
      | .ok closing =>
        match (if closing then lexer_chop_char lex 1 else .ok lex) with
        | .error e => .error e
        | .ok lex =>
          .ok ({ token with kind := Token_Kind.STRING, text_len := span_len lex token }, lex)

/-- The tail shared by the directive and the comment branch: one more byte is
chopped when the cursor is inside the buffer (lexer.c:284-288, 299-303). -/
def chop_terminator (kind : Token_Kind) (lex : Lexer F) (token : Token F) :
    Except Fault (Token F × Lexer F) :=
  match (if lex.cursor < lex.content_len then lexer_chop_char lex 1 else .ok lex) with
  | .error e => .error e
  | .ok lex => .ok ({ token with kind := kind, text_len := span_len lex token }, lex)

/-- The `#` branch of `lexer_next`, lexer.c:279-289. -/
def scan_preproc (lex : Lexer F) (token : Token F) : Except Fault (Token F × Lexer F) :=
  match chop_while (fun c => c != 32) lex with
  | .error e => .error e
  | .ok lex => chop_terminator Token_Kind.PREPROC lex token

/-- The `//` branch of `lexer_next`, lexer.c:294-304. -/
def scan_comment (lex : Lexer F) (token : Token F) : Except Fault (Token F × Lexer F) :=
  match chop_while (fun c => c != 10) lex with
  | .error e => .error e
  | .ok lex => chop_terminator Token_Kind.COMMENT lex token

/-- The loop over `literal_tokens`, lexer.c:315-325; `none` when no entry
matches. -/
def scan_literal (lex : Lexer F) (token : Token F) :
    List (Token_Kind × List Nat) → Except Fault (Option (Token F × Lexer F))
  | [] => .ok none
  | (kind, text) :: rest =>
    match lexer_starts_with lex text with
    | .error e => .error e
    | .ok true =>
      match lexer_chop_char lex text.length with
      | .error e => .error e
      | .ok lex' => .ok (some ({ token with kind := kind, text_len := text.length }, lex'))
    | .ok false => scan_literal lex token rest

/-- The call `memcmp(keyword, token.text, n) == 0`: all `n` bytes at `token.text`
have to be readable. -/
def memcmp_eq (lex : Lexer F) (keyword : List Nat) (text n : Nat) : Except Fault Bool :=
  if text + n ≤ lex.content_len then
    .ok (decide (keyword.take n = (lex.content.drop text).take n))
  else .error Fault.out_of_bounds

/-- The loop over `keywords`, lexer.c:336-344: the kind the token ends with. -/
def scan_keyword (lex : Lexer F) (token : Token F) : List (List Nat) → Except Fault Token_Kind
  | [] => .ok token.kind
  | keyword :: rest =>
    if keyword.length = token.text_len then
      match memcmp_eq lex keyword token.text keyword.length with
      | .error e => .error e
      | .ok true => .ok Token_Kind.KEYWORD
      | .ok false => scan_keyword lex token rest
    else scan_keyword lex token rest

/-- The identifier branch of `lexer_next`, lexer.c:329-346. -/
def scan_symbol (lex : Lexer F) (token : Token F) : Except Fault (Token F × Lexer F) :=
  match chop_while is_symbol lex with
  | .error e => .error e
  | .ok lex =>
    let token := { token with kind := Token_Kind.SYMBOL, text_len := span_len lex token }
    match scan_keyword lex token keywords with
    | .error e => .error e
    | .ok kind => .ok ({ token with kind := kind }, lex)

/-- The last two statements of `lexer_next`, lexer.c:327-352: the identifier
branch, else one byte as `INVALID`. -/
def scan_fallback (lex : Lexer F) (token : Token F) : Except Fault (Token F × Lexer F) :=
  match content_at lex lex.cursor with
  | .error e => .error e
  | .ok c =>
    if is_symbol_start c then scan_symbol lex token
    else
      match lexer_chop_char lex 1 with
      | .error e => .error e
      | .ok lex => .ok ({ token with kind := Token_Kind.INVALID, text_len := 1 }, lex)

/-- The dispatch of `lexer_next` once the buffer is known not to be exhausted,
lexer.c:242-352. -/
def lexer_dispatch (lex : Lexer F) (token : Token F) : Except Fault (Token F × Lexer F) :=
  match content_at lex lex.cursor with
  | .error e => .error e
  | .ok c =>
    if isdigit c then scan_number lex token
    else if c = 34 then scan_string lex token
    else if c = 35 then scan_preproc lex token
    else
      match lexer_starts_with lex (cstr "//") with
      | .error e => .error e
      | .ok true => scan_comment lex token
      | .ok false =>
        if is_operator c then
          match lexer_chop_char lex 1 with
          | .error e => .error e
          | .ok lex' => .ok ({ token with kind := Token_Kind.OPERATOR, text_len := 1 }, lex')
        else
          match scan_literal lex token literal_tokens with
          | .error e => .error e
          | .ok (some r) => .ok r
          | .ok none => scan_fallback lex token

/-- The token as `lexer_next` initialises it, lexer.c:232-237: zero-initialised
(kind `END`, length 0) with `text` at the cursor and the position of the lexer. -/
def token_init (lex : Lexer F) : Token F :=
  { kind := Token_Kind.END, text := lex.cursor, text_len := 0,
    position_x := lex.x, position_line := lex.line }

/-- `lexer_next`, lexer.c:228-353. -/
def lexer_next (lex : Lexer F) : Except Fault (Token F × Lexer F) :=
  match lexer_trim_left lex with
  | .error e => .error e
  | .ok lex =>
    let token := token_init lex
    if lex.cursor ≥ lex.content_len then .ok (token, lex)
    else lexer_dispatch lex token

/-! ## Lexer: specification vocabulary -/

/-- The byte at offset `i` of a buffer (0 outside of it). -/
def byte_at (content : List Nat) (i : Nat) : Nat := content.getD i 0

/-- The state after `k` iterations of the loop of `lexer_chop_char`, assertion
set aside. -/
def advance : Lexer F → Nat → Lexer F
  | lex, 0 => lex
  | lex, k + 1 => advance (lexer_chop_byte lex (byte_at lex.content lex.cursor)) k

/-- Calls `lexer_next` until it returns `END`, at most `calls` times: the tokens
returned before `END`, the `END` token and the final state. -/
def lexer_scan : Nat → Lexer F → Except Fault (List (Token F) × Token F × Lexer F)
  | 0, _ => .error Fault.out_of_fuel
  | calls + 1, lex =>
    match lexer_next lex with
    | .error e => .error e
    | .ok (token, lex') =>
      if token.kind = Token_Kind.END then .ok ([], token, lex')
      else
        match lexer_scan calls lex' with
        | .error e => .error e
        | .ok (tokens, last, lex'') => .ok (token :: tokens, last, lex'')

/-- The bytes of a token: `text_len` bytes of the buffer from `text` on. -/
def token_text (content : List Nat) (token : Token F) : List Nat :=
  (content.drop token.text).take token.text_len

/-- The number of bytes the string loop (lexer.c:258-268) consumes when the
rest of the buffer after the opening quote is the given list: it stops at an
unescaped quote, at a newline or at the end; a backslash takes the next byte with
it when that byte is one of `n t \ " '`. -/
def string_run : List Nat → Nat
  | [] => 0
  | [c] => if c = 34 ∨ c = 10 then 0 else 1
  | c :: d :: rest =>
    if c = 34 ∨ c = 10 then 0
    else if c = 92 ∧ (d = 110 ∨ d = 116 ∨ d = 92 ∨ d = 34 ∨ d = 39) then 2 + string_run rest
    else 1 + string_run (d :: rest)

/-- The length of the `STRING` token that starts with the quote at `cursor`:
the quote, the run of the string loop, and the closing quote when the run stops
at one. -/
def string_span (content : List Nat) (cursor : Nat) : Nat :=
  let r := string_run (content.drop (cursor + 1))
  if cursor + 1 + r < content.length ∧ byte_at content (cursor + 1 + r) = 34 then 1 + r + 1
  else 1 + r

/-- The bytes `pfx` fit in the buffer at `cursor` and stand there. -/
def starts_here (content : List Nat) (cursor : Nat) (pfx : List Nat) : Bool :=
  decide (cursor + pfx.length ≤ content.length ∧
    ∀ j, j < pfx.length → pfx.getD j 0 = byte_at content (cursor + j))

/-- The call returned a token other than `END`, of `n ≥ 1` bytes inside the
buffer, and consumed exactly these bytes with `lexer_chop_char`. -/
def Emits (l : Lexer F) (token : Token F) (r : Except Fault (Token F × Lexer F)) : Prop :=
  ∃ n kind, 1 ≤ n ∧ l.cursor + n ≤ l.content.length ∧ kind ≠ Token_Kind.END ∧
    r = .ok ({ token with kind := kind, text_len := n }, advance l n)

/-- The tokens tile the buffer from offset `pos` on: each one has at least one
byte and lies inside the buffer, it starts at or after the end of the one before
(`pos` for the first), the bytes in between are whitespace, and so are the
bytes after the last one. -/
def Tiles (content : List Nat) : Nat → List (Token F) → Prop
  | pos, [] => ∀ j, pos ≤ j → j < content.length → isspace (byte_at content j) = true
  | pos, t :: ts =>
    pos ≤ t.text ∧ (∀ j, pos ≤ j → j < t.text → isspace (byte_at content j) = true) ∧
    1 ≤ t.text_len ∧ t.text + t.text_len ≤ content.length ∧
    Tiles content (t.text + t.text_len) ts

/-- Offset `j` lies in the span of the token. -/
def in_span (t : Token F) (j : Nat) : Prop := t.text ≤ j ∧ j < t.text + t.text_len

/-- The number of bytes equal to `c` among the `k` bytes from offset `i` on. -/
def count_from (content : List Nat) (c i k : Nat) : Nat :=
  ((content.drop i).take k).count c

/-- What a call returned, for statements about concrete buffers: kind, start
offset and length of the token and the cursor after the call; `none` for a
fault. -/
def token_view (r : Except Fault (Token F × Lexer F)) : Option (Token_Kind × Nat × Nat × Nat) :=
  match r with
  | .ok (t, l) => some (t.kind, t.text, t.text_len, l.cursor)
  | .error _ => none

/-- The result of call number `k + 1` of `lexer_next` from the given state on. -/
def lexer_next_nth : Nat → Lexer F → Except Fault (Token F × Lexer F)
  | 0, lex => lexer_next lex
  | k + 1, lex =>
    match lexer_next lex with
    | .error e => .error e
    | .ok (_, lex') => lexer_next_nth k lex'

/-- How `bol` follows the `k` bytes consumed from offset `i` on: it keeps its old
value `bol` when none of them is a newline, and otherwise it is the offset just
after the last newline among them. -/
def BolTracks (content : List Nat) (i k bol bol' : Nat) : Prop :=
  ((∀ j, j < k → byte_at content (i + j) ≠ 10) → bol' = bol) ∧
  (∀ j, j < k → byte_at content (i + j) = 10 →
    (∀ j', j < j' → j' < k → byte_at content (i + j') ≠ 10) → bol' = i + j + 1)

/-- An element of the body of a well-formed string literal: one byte other than
the quote, the backslash and the newline, or a backslash followed by one of
`n t \ " '`. -/
def is_string_piece : List Nat → Bool
  | [c] => c != 34 && c != 92 && c != 10
  | [c, e] => c == 92 && (e == 110 || e == 116 || e == 92 || e == 34 || e == 39)
  | _ => false

/-- The bytes of a quote, `ab\"c`, a quote: the literal the spec gives as an
example of a string token. -/
def spec_string_example : List Nat := [34, 97, 98, 92, 34, 99, 34]

/-- The lexer state without the glyph atlas and the pixel position: what the
kinds and spans of the tokens depend on. -/
def Lexer.plain (l : Lexer F) : Lexer Nat :=
  { atlas := none, content := l.content, cursor := l.cursor, line := l.line, bol := l.bol,
    x := 0 }

/-- A token without its pixel position. -/
def Token.plain (t : Token F) : Token Nat :=
  { kind := t.kind, text := t.text, text_len := t.text_len, position_x := 0,
    position_line := t.position_line }

/-- The result of a call without atlas and pixel positions. -/
def plain_result (r : Token F × Lexer F) : Token Nat × Lexer Nat := (r.1.plain, r.2.plain)

/-- What a scan returned, for statements about concrete buffers: kind, start
offset and length of every token before `END` and of the `END` token; `none` for
a fault. -/
def scan_view (r : Except Fault (List (Token F) × Token F × Lexer F)) :
    Option (List (Token_Kind × Nat × Nat) × (Token_Kind × Nat × Nat)) :=
  match r with
  | .ok (tokens, last, _) =>
    some (tokens.map (fun t => (t.kind, t.text, t.text_len)),
      (last.kind, last.text, last.text_len))
  | .error _ => none

/-- The lexer states a caller can get over a buffer: the one `lexer_new`
returns, and the one a call of `lexer_next` that returned leaves behind. -/
inductive LexerReachable (atlas : Option (Free_Glyph_Atlas F)) (content : List Nat) :
    Lexer F → Prop
  | new : LexerReachable atlas content (lexer_new atlas content)
  | next (l l' : Lexer F) (token : Token F) :
      LexerReachable atlas content l → lexer_next l = .ok (token, l') →
      LexerReachable atlas content l'

/-- The advance width of a byte as the position of a token accumulates it: the
entry of the metrics table for the value of the byte (the `char` converted to
`size_t`), and the entry of `?` when that value is outside the table. -/
def advance_width (atlas : Free_Glyph_Atlas F) (c : Nat) : F :=
  if char_to_size_t c < atlas.capacity then atlas.metrics (char_to_size_t c)
  else atlas.metrics 63

/-- The start of the line offset `i` lies on: offset 0, or the offset just after
the most recent newline before `i`. -/
def line_start (content : List Nat) : Nat → Nat
  | 0 => 0
  | i + 1 => if byte_at content i = 10 then i + 1 else line_start content i

/-- The left-to-right accumulation, starting from 0, of the advance widths of the
bytes from offset `start` up to, and without, offset `stop`. -/
def accumulated_x (atlas : Free_Glyph_Atlas F) (content : List Nat) (start stop : Nat) : F :=
  ((content.drop start).take (stop - start)).foldl (fun x c => x + advance_width atlas c) 0

/-- The positions a scan returned, for statements about concrete buffers: start
offset, `position.x` and the line of `position.y` of every token, `END`
included; `none` for a fault. -/
def position_view (r : Except Fault (List (Token F) × Token F × Lexer F)) :
    Option (List (Nat × F × Nat)) :=
  match r with
  | .ok (tokens, last, _) =>
    some ((tokens ++ [last]).map (fun t => (t.text, t.position_x, t.position_line)))
  | .error _ => none

/-! ## Arena: data model

The chain of regions `begin, begin->next, ...` is a list; `next` is the list
order (`r->next == NULL` for the last element) and a pointer to a region is its
index in the chain. `size_t` and `uintptr_t` have 64 bits. `malloc` is a
parameter of the model: for a request of `n` bytes, `malloc n` is `none` when it
returns `NULL`, and `some content` when it returns a block of `n` bytes with the
given content. -/

/-- The modulus of `size_t` arithmetic. -/
def SIZE_MOD : Nat := 2 ^ 64

/-- `REGION_DEFAULT_CAPACITY`, arena.h:57. -/
def REGION_DEFAULT_CAPACITY : Nat := 8 * 1024

/-- `struct Region`, arena.h:44-50, without `next`. `data i` is byte `i` of the
storage `data[]`; `size_bytes` records the size `new_region` asked `malloc`
for (the three words of the header included). -/
structure Region where
  count : Nat
  capacity : Nat
  size_bytes : Nat
  data : Nat → Nat

/-- `Arena`, arena.h:52-55: `regions` is the chain that starts at `begin`
(`begin == NULL` for the empty list), `end_` the index of `end` in it (`none` for
`NULL`). -/
structure Arena where
  regions : List Region
  end_ : Option Nat

/-- A pointer into the storage of region number `region` of the chain, `offset`
bytes after `data`. A number outside of the chain stands for a pointer that
does not point into the arena; reading or writing through it is a fault. -/
structure Ptr where
  region : Nat
  offset : Nat
  deriving DecidableEq, Repr

/-- The region the writes of `new_region` (arena.h:87-89) leave in a block with
the given content that `malloc` returned for `capacity` units. -/
def region_init (content : Nat → Nat) (capacity : Nat) : Region :=
  { count := 0, capacity := capacity, size_bytes := (24 + 8 * capacity) % SIZE_MOD,
    data := content }

/-- `new_region`, arena.h:81-91. The byte size is computed in `size_t`
arithmetic. `ARENA_ASSERT(reg)` fails when `malloc` returns `NULL`; the writes
of the three words of the header (24 bytes) are outside of a block of fewer
bytes. -/
def new_region (malloc : Nat → Option (Nat → Nat)) (capacity : Nat) : Except Fault Region :=
  let size_bytes := (24 + 8 * capacity) % SIZE_MOD
  match malloc size_bytes with
  | none => .error Fault.assert_failed
  | some content =>
    if size_bytes < 24 then .error Fault.out_of_bounds
    else .ok (region_init content capacity)

/-- The rounding of arena.h:115: the request in units of `sizeof(uintptr_t)`. -/
def size_units (size_bytes : Nat) : Nat := ((size_bytes + 8 - 1) % SIZE_MOD) / 8

/-- The capacity of a region created for `size` units, arena.h:120-122 and
135-137. -/
def region_capacity (size : Nat) : Nat :=
  if REGION_DEFAULT_CAPACITY < size then size else REGION_DEFAULT_CAPACITY

/-- The first statement of `arena_alloc`, arena.h:117-125: the chain and the
index of `end` after it. -/
def arena_alloc_begin (malloc : Nat → Option (Nat → Nat)) (arena : Arena) (size : Nat) :
    Except Fault (List Region × Nat) :=
  match arena.end_ with
  | none =>
    if arena.regions.isEmpty then
      match new_region malloc (region_capacity size) with
      | .error e => .error e
      | .ok r => .ok ([r], 0)
    else .error Fault.assert_failed
  | some e => .ok (arena.regions, e)

/-- The loop of `arena_alloc`, arena.h:127-130, from `end` at index `e`, with an
iteration budget: the index of `end` after it. -/
def arena_alloc_walk (regions : List Region) (size : Nat) : Nat → Nat → Except Fault Nat
  | 0, _ => .error Fault.out_of_fuel
  | fuel + 1, e =>
    match regions[e]? with
    | none => .error Fault.out_of_bounds
    | some r =>
      if (r.count + size) % SIZE_MOD > r.capacity ∧ e + 1 < regions.length then
        arena_alloc_walk regions size fuel (e + 1)
      else .ok e

/-- The growth step of `arena_alloc`, arena.h:132-140. -/
def arena_alloc_grow (malloc : Nat → Option (Nat → Nat)) (regions : List Region)
    (size e : Nat) : Except Fault (List Region × Nat) :=
  match regions[e]? with
  | none => .error Fault.out_of_bounds
  | some r =>
    if (r.count + size) % SIZE_MOD > r.capacity then
      if e + 1 < regions.length then .error Fault.assert_failed
      else
        match new_region malloc (region_capacity size) with
        | .error e => .error e
        | .ok r => .ok (regions ++ [r], e + 1)
    else .ok (regions, e)

/-- The bump of `arena_alloc`, arena.h:142-144. -/
def arena_alloc_bump (regions : List Region) (size e : Nat) : Except Fault (Ptr × Arena) :=
  match regions[e]? with
  | none => .error Fault.out_of_bounds
  | some r =>
    .ok ({ region := e, offset := 8 * r.count },
         { regions := regions.set e { r with count := (r.count + size) % SIZE_MOD },
           end_ := some e })

/-- `arena_alloc`, arena.h:113-145. The loop moves `end` one region forward per
iteration, so as many iterations as there are regions suffice. -/
def arena_alloc (malloc : Nat → Option (Nat → Nat)) (arena : Arena) (size_bytes : Nat) :
    Except Fault (Ptr × Arena) :=
  let size := size_units size_bytes
  match arena_alloc_begin malloc arena size with
  | .error e => .error e
  | .ok (regions, e) =>
    match arena_alloc_walk regions size regions.length e with
    | .error e => .error e
    | .ok e =>
      match arena_alloc_grow malloc regions size e with
      | .error e => .error e
      | .ok (regions, e) => arena_alloc_bump regions size e

/-- The read `oldptr_char[i]`. -/
def read_byte (regions : List Region) (p : Ptr) (i : Nat) : Except Fault Nat :=
  match regions[p.region]? with
  | none => .error Fault.out_of_bounds
  | some r =>
    if 24 + p.offset + i < r.size_bytes then .ok (r.data (p.offset + i))
    else .error Fault.out_of_bounds

/-- The write `newptr_char[i] = v`. -/
def write_byte (regions : List Region) (p : Ptr) (i v : Nat) : Except Fault (List Region) :=
  match regions[p.region]? with
  | none => .error Fault.out_of_bounds
  | some r =>
    if 24 + p.offset + i < r.size_bytes then
      .ok (regions.set p.region { r with data := Function.update r.data (p.offset + i) v })
    else .error Fault.out_of_bounds

/-- The copy loop of `arena_realloc`, arena.h:154-157, from index `i` with `n`
iterations left. -/
def copy_bytes (newptr oldptr : Ptr) : Nat → Nat → List Region → Except Fault (List Region)
  | 0, _, regions => .ok regions
  | n + 1, i, regions =>
    match read_byte regions oldptr i with
    | .error e => .error e
    | .ok v =>
      match write_byte regions newptr i v with
      | .error e => .error e
      | .ok regions => copy_bytes newptr oldptr n (i + 1) regions

/-- `arena_realloc`, arena.h:147-159. -/
def arena_realloc (malloc : Nat → Option (Nat → Nat)) (arena : Arena) (oldptr : Ptr)
    (oldsz newsz : Nat) : Except Fault (Ptr × Arena) :=
  if newsz ≤ oldsz then .ok (oldptr, arena)
  else
    match arena_alloc malloc arena newsz with
    | .error e => .error e
    | .ok (newptr, arena) =>
      match copy_bytes newptr oldptr oldsz 0 arena.regions with
      | .error e => .error e
      | .ok regions => .ok (newptr, { arena with regions := regions })

/-- `arena_reset`, arena.h:161-169: `end = begin`, which is `NULL` for the empty
chain. -/
def arena_reset (arena : Arena) : Arena :=
  { regions := arena.regions.map (fun r => { r with count := 0 }),
    end_ := if arena.regions.isEmpty then none else some 0 }

/-- `arena_free`, arena.h:171-182. -/
def arena_free (_arena : Arena) : Arena :=
  { regions := [], end_ := none }

/-! ## Arena: specification vocabulary -/

/-- The zero-initialised arena. -/
def arena_empty : Arena := { regions := [], end_ := none }

/-- Region number `k` of the chain has room for `u` more units. -/
def has_room (regions : List Region) (u k : Nat) : Prop :=
  ∃ r, regions[k]? = some r ∧ r.count + u ≤ r.capacity

/-- The region invariant the arithmetic of `arena_alloc` relies on: the count is
within the capacity, and the region with its header is the block `malloc`
was asked for, which fits in the address space. -/
def Region.sound (r : Region) : Prop :=
  r.count ≤ r.capacity ∧ r.size_bytes = 24 + 8 * r.capacity ∧ r.size_bytes < SIZE_MOD

/-- Region number `k` passes the test of `arena_alloc` for `size` more units,
in `size_t` arithmetic. -/
def has_room_mod (regions : List Region) (size k : Nat) : Prop :=
  ∃ r, regions[k]? = some r ∧ (r.count + size) % SIZE_MOD ≤ r.capacity

/-- The two pointers of the arena agree with the chain: `end` is `NULL` only
when the chain is empty, and otherwise it is a region of the chain. -/
def Arena.linked (a : Arena) : Prop :=
  match a.end_ with
  | none => a.regions = []
  | some e => e < a.regions.length

/-- The state of the regions when the copy loop of `arena_realloc` has copied
the first `i` bytes from `p` (in region `ro` of `regions`) to `q` (in region `rn`
of `regions`): only the storage of the region of `q` differs from `regions`, and
only at these `i` bytes, which hold what `ro` held at `p`. -/
def Copied (regions : List Region) (q p : Ptr) (rn ro : Region) (i : Nat)
    (regs : List Region) : Prop :=
  regs.length = regions.length ∧
  (∀ k : Nat, k ≠ q.region → regs[k]? = regions[k]?) ∧
  ∃ rn', regs[q.region]? = some rn' ∧ rn'.count = rn.count ∧ rn'.capacity = rn.capacity ∧
    rn'.size_bytes = rn.size_bytes ∧
    (∀ x, (x < q.offset ∨ q.offset + i ≤ x) → rn'.data x = rn.data x) ∧
    (∀ t, t < i → rn'.data (q.offset + t) = ro.data (p.offset + t))

/-- The shape of the chain: count and capacity of every region, in order. -/
def arena_shape (arena : Arena) : List (Nat × Nat) :=
  arena.regions.map (fun r => (r.count, r.capacity))

/-- Every region holds at most its capacity, and the capacity is below `2 ^ 61`
units (the largest request `arena_alloc` can compute). -/
def Arena.bounded (a : Arena) : Prop :=
  ∀ r ∈ a.regions, r.count ≤ r.capacity ∧ r.capacity < 2 ^ 61

/-- The arena states a caller can get: the zero-initialised arena, and what a
call of `arena_alloc` or `arena_realloc` that returned, of `arena_reset` or of
`arena_free` leaves behind. -/
inductive ArenaReachable : Arena → Prop
  | empty : ArenaReachable arena_empty
  | alloc (malloc : Nat → Option (Nat → Nat)) (a a' : Arena) (size_bytes : Nat) (p : Ptr) :
      ArenaReachable a → arena_alloc malloc a size_bytes = .ok (p, a') → ArenaReachable a'
  | realloc (malloc : Nat → Option (Nat → Nat)) (a a' : Arena) (oldptr newptr : Ptr)
      (oldsz newsz : Nat) :
      ArenaReachable a → arena_realloc malloc a oldptr oldsz newsz = .ok (newptr, a') →
      ArenaReachable a'
  | reset (a : Arena) : ArenaReachable a → ArenaReachable (arena_reset a)
  | free (a : Arena) : ArenaReachable a → ArenaReachable (arena_free a)

/-- The ranges of two allocations, each a pointer and a number of units, share
no byte: they lie in different regions or one ends before the other starts. -/
def ranges_disjoint (x y : Ptr × Nat) : Prop :=
  x.1.region ≠ y.1.region ∨ x.1.offset + 8 * x.2 ≤ y.1.offset ∨
    y.1.offset + 8 * y.2 ≤ x.1.offset

/-- A sequence of calls of `arena_alloc` and of growing `arena_realloc` on one
arena, from the state `a0` on, with no other call in between: the ranges
returned (pointer and units reserved), in call order, and the state reached. -/
inductive AllocTrace (a0 : Arena) : List (Ptr × Nat) → Arena → Prop
  | nil : AllocTrace a0 [] a0
  | alloc (malloc : Nat → Option (Nat → Nat)) (ranges : List (Ptr × Nat)) (a a' : Arena)
      (size_bytes : Nat) (p : Ptr) :
      AllocTrace a0 ranges a → arena_alloc malloc a size_bytes = .ok (p, a') →
      AllocTrace a0 (ranges ++ [(p, size_units size_bytes)]) a'
  | realloc (malloc : Nat → Option (Nat → Nat)) (ranges : List (Ptr × Nat)) (a a' : Arena)
      (oldptr newptr : Ptr) (oldsz newsz : Nat) :
      AllocTrace a0 ranges a → oldsz < newsz →
      arena_realloc malloc a oldptr oldsz newsz = .ok (newptr, a') →
      AllocTrace a0 (ranges ++ [(newptr, size_units newsz)]) a'

/-! ## Lexer: basic lemmas -/

theorem content_at_of_lt (lex : Lexer F) (i : Nat) (h : i < lex.content.length) :
    content_at lex i = .ok (byte_at lex.content i) := by
  simp [content_at, byte_at, List.getD, List.getElem?_eq_getElem h]

@[simp] theorem lexer_chop_byte_content (lex : Lexer F) (c : Nat) :
    (lexer_chop_byte lex c).content = lex.content := by
  unfold lexer_chop_byte
  split
  · rfl
  · split <;> rfl

@[simp] theorem lexer_chop_byte_atlas (lex : Lexer F) (c : Nat) :
    (lexer_chop_byte lex c).atlas = lex.atlas := by
  unfold lexer_chop_byte
  split
  · rfl
  · split <;> rfl

@[simp] theorem lexer_chop_byte_cursor (lex : Lexer F) (c : Nat) :
    (lexer_chop_byte lex c).cursor = lex.cursor + 1 := by
  unfold lexer_chop_byte
  split
  · rfl
  · split <;> rfl

@[simp] theorem advance_zero (lex : Lexer F) : advance lex 0 = lex := rfl

theorem advance_succ (lex : Lexer F) (k : Nat) :
    advance lex (k + 1) = advance (lexer_chop_byte lex (byte_at lex.content lex.cursor)) k := rfl

@[simp] theorem advance_content (lex : Lexer F) (k : Nat) :
    (advance lex k).content = lex.content := by
  induction k generalizing lex with
  | zero => rfl
  | succ k ih => rw [advance_succ, ih, lexer_chop_byte_content]

@[simp] theorem advance_atlas (lex : Lexer F) (k : Nat) :
    (advance lex k).atlas = lex.atlas := by
  induction k generalizing lex with
  | zero => rfl
  | succ k ih => rw [advance_succ, ih, lexer_chop_byte_atlas]

@[simp] theorem advance_cursor (lex : Lexer F) (k : Nat) :
    (advance lex k).cursor = lex.cursor + k := by
  induction k generalizing lex with
  | zero => rfl
  | succ k ih => rw [advance_succ, ih, lexer_chop_byte_cursor]; omega

@[simp] theorem advance_content_len (lex : Lexer F) (k : Nat) :
    (advance lex k).content_len = lex.content_len := by
  simp [Lexer.content_len]

theorem advance_add (lex : Lexer F) (a b : Nat) :
    advance lex (a + b) = advance (advance lex a) b := by
  induction a generalizing lex with
  | zero => simp
  | succ a ih => rw [Nat.succ_add, advance_succ, ih, advance_succ]

/-- Inside the buffer `lexer_chop_char` neither asserts nor reads out of bounds. -/
theorem lexer_chop_char_ok (lex : Lexer F) (k : Nat) (h : lex.cursor + k ≤ lex.content.length) :
    lexer_chop_char lex k = .ok (advance lex k) := by
  induction k generalizing lex with
  | zero => rfl
  | succ k ih =>
    have hlt : lex.cursor < lex.content.length := by omega
    rw [lexer_chop_char, if_pos (by simpa [Lexer.content_len] using hlt),
      content_at_of_lt lex _ hlt]
    simp only []
    rw [ih, advance_succ]
    simp; omega

/-- Invariant rule for `while_loop`: when the guard never faults, the body keeps
the invariant and moves the cursor forward, and the invariant bounds the cursor
by `N`, a budget above `N - cursor` is enough, and the loop ends in a state
that satisfies the invariant and falsifies the guard. -/
theorem while_loop_inv (cond : Lexer F → Except Fault Bool)
    (body : Lexer F → Except Fault (Lexer F)) (Inv : Lexer F → Prop) (N : Nat)
    (hcond : ∀ l, Inv l → ∃ b, cond l = .ok b)
    (hbody : ∀ l, Inv l → cond l = .ok true →
      ∃ l', body l = .ok l' ∧ Inv l' ∧ l.cursor < l'.cursor)
    (hN : ∀ l, Inv l → l.cursor ≤ N) :
    ∀ fuel l, Inv l → N - l.cursor < fuel →
      ∃ l', while_loop cond body fuel l = .ok l' ∧ Inv l' ∧ cond l' = .ok false := by
  intro fuel
  induction fuel with
  | zero => intro l _ h; omega
  | succ fuel ih =>
    intro l hl hfuel
    obtain ⟨b, hb⟩ := hcond l hl
    cases b with
    | false => exact ⟨l, by simp [while_loop, hb], hl, hb⟩
    | true =>
      obtain ⟨l', hl', hinv, hlt⟩ := hbody l hl hb
      have hle := hN l' hinv
      obtain ⟨l'', h1, h2, h3⟩ := ih l' hinv (by omega)
      exact ⟨l'', by simp [while_loop, hb, hl', h1], h2, h3⟩

/-- The loop guard never faults. -/
theorem cursor_is_eq (p : Nat → Bool) (l : Lexer F) :
    cursor_is p l =
      .ok (decide (l.cursor < l.content.length) && p (byte_at l.content l.cursor)) := by
  unfold cursor_is
  by_cases h : l.cursor < l.content.length
  · rw [if_pos (by simpa [Lexer.content_len] using h), content_at_of_lt l _ h]
    simp [h]
  · rw [if_neg (by simpa [Lexer.content_len] using h)]
    simp [h]

/-- The result of a scanning loop: it consumes the maximal run of bytes that
satisfy `p`, by `lexer_chop_char` alone. -/
theorem chop_while_spec (p : Nat → Bool) (l0 : Lexer F) (h0 : l0.cursor ≤ l0.content.length) :
    ∃ k, chop_while p l0 = .ok (advance l0 k) ∧ l0.cursor + k ≤ l0.content.length ∧
      (∀ j, j < k → p (byte_at l0.content (l0.cursor + j)) = true) ∧
      (l0.cursor + k < l0.content.length → p (byte_at l0.content (l0.cursor + k)) = false) := by
  have key := while_loop_inv (cursor_is p) (fun l => lexer_chop_char l 1)
    (fun l => ∃ k, l = advance l0 k ∧ l0.cursor + k ≤ l0.content.length ∧
      ∀ j, j < k → p (byte_at l0.content (l0.cursor + j)) = true)
    l0.content.length
    (fun l _ => ⟨_, cursor_is_eq p l⟩)
    (by
      rintro l ⟨k, rfl, hk, hp⟩ hc
      rw [cursor_is_eq] at hc
      simp only [Except.ok.injEq, Bool.and_eq_true, decide_eq_true_eq, advance_content,
        advance_cursor] at hc
      refine ⟨advance l0 (k + 1), ?_, ⟨k + 1, rfl, by omega, ?_⟩, by simp⟩
      · show lexer_chop_char (advance l0 k) 1 = _
        rw [lexer_chop_char_ok _ _ (by simp; omega), ← advance_add]
      · intro j hj
        rcases Nat.lt_succ_iff_lt_or_eq.mp hj with h | h
        · exact hp j h
        · rw [h]; exact hc.2)
    (by rintro l ⟨k, rfl, hk, _⟩; simp; omega)
    (l0.content_len + 1) l0 ⟨0, rfl, by omega, by intro j hj; omega⟩
    (by simp [Lexer.content_len]; omega)
  obtain ⟨l', h1, ⟨k, rfl, hk, hp⟩, h3⟩ := key
  refine ⟨k, h1, hk, hp, ?_⟩
  intro hlt
  rw [cursor_is_eq] at h3
  simpa [hlt] using h3

/-- The loop of `lexer_starts_with` stays inside the buffer when the prefix
fits, and compares byte by byte. -/
theorem lexer_starts_with_loop_spec (lex : Lexer F) (pfx : List Nat) (n i : Nat)
    (hfit : lex.cursor + i + n ≤ lex.content.length) :
    lexer_starts_with_loop lex pfx n i =
      .ok (decide (∀ j, j < n → pfx.getD (i + j) 0 = byte_at lex.content (lex.cursor + i + j))) := by
  induction n generalizing i with
  | zero => simp [lexer_starts_with_loop]
  | succ n ih =>
    rw [lexer_starts_with_loop, content_at_of_lt lex _ (by omega)]
    simp only []
    by_cases hc : pfx.getD i 0 = byte_at lex.content (lex.cursor + i)
    · rw [if_neg (by simpa using hc), ih (i + 1) (by omega)]
      congr 1
      apply decide_eq_decide.mpr
      constructor
      · intro h j hj
        rcases j with _ | j
        · simpa using hc
        · have := h j (by omega)
          rw [show i + (j + 1) = i + 1 + j by omega, show lex.cursor + i + (j + 1) = lex.cursor + (i + 1) + j by omega]
          exact this
      · intro h j hj
        have := h (j + 1) (by omega)
        rw [show i + (j + 1) = i + 1 + j by omega, show lex.cursor + i + (j + 1) = lex.cursor + (i + 1) + j by omega] at this
        exact this
    · rw [if_pos (by simpa using hc)]
      congr 1
      symm
      apply decide_eq_false
      intro h
      exact hc (by simpa using h 0 (by omega))

/-- `lexer_starts_with` never faults; for a non-empty prefix it answers whether
the prefix fits in the rest of the buffer and equals the bytes there. -/
theorem lexer_starts_with_spec (lex : Lexer F) (pfx : List Nat) (hp : pfx ≠ []) :
    lexer_starts_with lex pfx = .ok (starts_here lex.content lex.cursor pfx) := by
  unfold starts_here
  have hlen : 0 < pfx.length := List.length_pos.mpr hp
  unfold lexer_starts_with
  rw [if_neg (by omega)]
  by_cases hfit : lex.cursor + pfx.length ≤ lex.content.length
  · rw [if_neg (by simp [Lexer.content_len]; omega),
      lexer_starts_with_loop_spec lex pfx _ 0 (by omega)]
    simp [hfit]
  · rw [if_pos (by simp [Lexer.content_len]; omega)]
    simp [hfit]

theorem drop_cursor (content : List Nat) (i : Nat) (h : i < content.length) :
    content.drop i = byte_at content i :: content.drop (i + 1) := by
  rw [List.drop_eq_getElem_cons h]
  simp [byte_at, List.getD, List.getElem?_eq_getElem h]

theorem span_len_advance (l : Lexer F) (token : Token F) (n : Nat) (ht : token.text = l.cursor) :
    span_len (advance l n) token = n := by
  simp [span_len, ht]

/-- The digit branch: the token is the maximal run of digits at the cursor. -/
theorem scan_number_spec (l : Lexer F) (token : Token F) (ht : token.text = l.cursor)
    (h0 : l.cursor ≤ l.content.length) :
    ∃ n, scan_number l token =
        .ok ({ token with kind := Token_Kind.NUMBER, text_len := n }, advance l n) ∧
      l.cursor + n ≤ l.content.length ∧
      (∀ j, j < n → isdigit (byte_at l.content (l.cursor + j)) = true) ∧
      (l.cursor + n < l.content.length → isdigit (byte_at l.content (l.cursor + n)) = false) := by
  obtain ⟨n, h1, h2, h3, h4⟩ := chop_while_spec isdigit l h0
  refine ⟨n, ?_, h2, h3, h4⟩
  simp [scan_number, h1, span_len_advance l token n ht]

/-- One round of the string loop body never faults inside the buffer. -/
theorem string_body_spec (l : Lexer F) (h : l.cursor < l.content.length) :
    string_body l = .ok (advance l
      (if byte_at l.content l.cursor = 92 ∧ l.cursor + 1 < l.content.length ∧
          (byte_at l.content (l.cursor + 1) = 110 ∨ byte_at l.content (l.cursor + 1) = 116 ∨
           byte_at l.content (l.cursor + 1) = 92 ∨ byte_at l.content (l.cursor + 1) = 34 ∨
           byte_at l.content (l.cursor + 1) = 39) then 2 else 1)) := by
  unfold string_body
  rw [content_at_of_lt l _ h]
  simp only []
  by_cases hc : byte_at l.content l.cursor = 92
  · rw [if_pos hc]
    unfold handle_sequence
    rw [content_at_of_lt l _ h]
    simp only []
    rw [if_pos hc, lexer_chop_char_ok l 1 (by omega)]
    simp only []
    by_cases h1 : l.cursor + 1 < l.content.length
    · rw [if_pos (by simpa [Lexer.content_len] using h1),
        content_at_of_lt _ _ (by simpa using h1)]
      simp only [advance_content, advance_cursor]
      by_cases he : (byte_at l.content (l.cursor + 1) = 110 ∨ byte_at l.content (l.cursor + 1) = 116 ∨
           byte_at l.content (l.cursor + 1) = 92 ∨ byte_at l.content (l.cursor + 1) = 34 ∨
           byte_at l.content (l.cursor + 1) = 39)
      · rw [if_pos he, if_pos ⟨hc, h1, he⟩, lexer_chop_char_ok _ 1 (by simp; omega),
          ← advance_add]
      · rw [if_neg he, if_neg (fun h => he h.2.2)]
    · rw [if_neg (by simpa [Lexer.content_len] using h1), if_neg (fun h => h1 h.2.1)]
  · rw [if_neg hc, if_neg (fun h => hc h.1), lexer_chop_char_ok l 1 (by omega)]

/-- The string loop consumes `string_run` of the rest of the buffer. -/
theorem string_loop_spec (fuel : Nat) (l : Lexer F) (h0 : l.cursor ≤ l.content.length)
    (hfuel : l.content.length - l.cursor < fuel) :
    while_loop (cursor_is (fun c => c != 34 && c != 10)) string_body fuel l =
      .ok (advance l (string_run (l.content.drop l.cursor))) := by
  induction fuel generalizing l with
  | zero => omega
  | succ fuel ih =>
    rw [while_loop, cursor_is_eq]
    by_cases hlt : l.cursor < l.content.length
    · have hd := drop_cursor l.content l.cursor hlt
      by_cases hstop : byte_at l.content l.cursor = 34 ∨ byte_at l.content l.cursor = 10
      · have : string_run (l.content.drop l.cursor) = 0 := by
          rw [hd]
          cases hrest : l.content.drop (l.cursor + 1) with
          | nil => simp [string_run, hstop]
          | cons d rest => simp [string_run, hstop]
        rw [this]
        have hg : (decide (l.cursor < l.content.length) &&
            (fun c => c != 34 && c != 10) (byte_at l.content l.cursor)) = false := by
          rcases hstop with h | h <;> simp [h]
        rw [hg]
        rfl
      · have hg : (decide (l.cursor < l.content.length) &&
            (fun c => c != 34 && c != 10) (byte_at l.content l.cursor)) = true := by
          simp only [not_or] at hstop
          simp [hlt, hstop.1, hstop.2]
        rw [hg]
        simp only []
        rw [string_body_spec l hlt]
        simp only []
        by_cases h1 : l.cursor + 1 < l.content.length
        · have hd1 := drop_cursor l.content (l.cursor + 1) h1
          by_cases hesc : byte_at l.content l.cursor = 92 ∧
              (byte_at l.content (l.cursor + 1) = 110 ∨ byte_at l.content (l.cursor + 1) = 116 ∨
               byte_at l.content (l.cursor + 1) = 92 ∨ byte_at l.content (l.cursor + 1) = 34 ∨
               byte_at l.content (l.cursor + 1) = 39)
          · rw [if_pos ⟨hesc.1, h1, hesc.2⟩, ih _ (by simp; omega) (by simp; omega)]
            rw [hd, hd1, string_run, if_neg hstop, if_pos hesc, advance_add]
            simp
          · rw [if_neg (fun h => hesc ⟨h.1, h.2.2⟩), ih _ (by simp; omega) (by simp; omega)]
            rw [hd, hd1, string_run, if_neg hstop, if_neg hesc, advance_add]
            simp [hd1]
        · rw [if_neg (fun h => h1 h.2.1), ih _ (by simp; omega) (by simp; omega)]
          have hnil : l.content.drop (l.cursor + 1) = [] := List.drop_eq_nil_of_le (by omega)
          rw [hd, hnil, string_run, if_neg hstop]
          simp [hnil, string_run]
    · have hnil : l.content.drop l.cursor = [] := List.drop_eq_nil_of_le (by omega)
      rw [hnil]
      simp [hlt, string_run]

theorem string_run_le : ∀ (rest : List Nat), string_run rest ≤ rest.length
  | [] => by simp [string_run]
  | [c] => by simp [string_run]; split <;> omega
  | c :: d :: rest => by
    have h1 := string_run_le rest
    have h2 := string_run_le (d :: rest)
    simp only [string_run, List.length_cons] at *
    split
    · omega
    · split <;> omega

/-- The string branch: it never faults and the token has `string_span` bytes. -/
theorem scan_string_spec (l : Lexer F) (token : Token F) (ht : token.text = l.cursor)
    (h0 : l.cursor < l.content.length) :
    scan_string l token =
        .ok ({ token with kind := Token_Kind.STRING, text_len := string_span l.content l.cursor },
          advance l (string_span l.content l.cursor)) ∧
      l.cursor + string_span l.content l.cursor ≤ l.content.length := by
  have hr := string_run_le (l.content.drop (l.cursor + 1))
  rw [List.length_drop] at hr
  unfold scan_string
  rw [lexer_chop_char_ok l 1 (by omega)]
  simp only []
  rw [string_loop_spec _ _ (by simp; omega) (by simp [Lexer.content_len]; omega)]
  simp only [advance_content, advance_cursor]
  rw [cursor_is_eq]
  simp only [advance_content, advance_cursor, ← advance_add]
  unfold string_span
  simp only []
  by_cases hq : l.cursor + 1 + string_run (l.content.drop (l.cursor + 1)) < l.content.length ∧
      byte_at l.content (l.cursor + 1 + string_run (l.content.drop (l.cursor + 1))) = 34
  · rw [if_pos hq]
    have : (decide (l.cursor + (1 + string_run (l.content.drop (l.cursor + 1))) < l.content.length) &&
        (fun c => c == 34) (byte_at l.content (l.cursor + (1 + string_run (l.content.drop (l.cursor + 1)))))) = true := by
      rw [← Nat.add_assoc]; simp [hq.1, hq.2]
    rw [this]
    simp only [if_true]
    rw [lexer_chop_char_ok _ 1 (by simp; omega), ← advance_add]
    simp only []
    rw [span_len_advance l token _ ht]
    exact ⟨rfl, by omega⟩
  · rw [if_neg hq]
    have : (decide (l.cursor + (1 + string_run (l.content.drop (l.cursor + 1))) < l.content.length) &&
        (fun c => c == 34) (byte_at l.content (l.cursor + (1 + string_run (l.content.drop (l.cursor + 1)))))) = false := by
      rw [← Nat.add_assoc]
      by_cases h1 : l.cursor + 1 + string_run (l.content.drop (l.cursor + 1)) < l.content.length
      · have : ¬ byte_at l.content (l.cursor + 1 + string_run (l.content.drop (l.cursor + 1))) = 34 :=
          fun h => hq ⟨h1, h⟩
        simp [this]
      · simp [h1]
    rw [this]
    simp only [Bool.false_eq_true, if_false]
    rw [span_len_advance l token _ ht]
    exact ⟨rfl, by omega⟩

/-- The tail of the directive and comment branches. -/
theorem chop_terminator_spec (kind : Token_Kind) (l : Lexer F) (token : Token F) (k : Nat)
    (ht : token.text = l.cursor) :
    chop_terminator kind (advance l k) token =
      .ok ({ token with kind := kind,
                        text_len := if l.cursor + k < l.content.length then k + 1 else k },
        advance l (if l.cursor + k < l.content.length then k + 1 else k)) := by
  unfold chop_terminator
  by_cases h : l.cursor + k < l.content.length
  · rw [if_pos (by simpa [Lexer.content_len] using h), if_pos h,
      lexer_chop_char_ok _ 1 (by simp; omega), ← advance_add]
    simp only []
    rw [span_len_advance l token _ ht]
  · rw [if_neg (by simpa [Lexer.content_len] using h), if_neg h]
    simp only []
    rw [span_len_advance l token _ ht]

/-- A branch that scans up to a stop byte and then takes one more byte when
there is one (the directive branch with the space, the comment branch with the
newline): `k` bytes other than `stop` are consumed, then the byte after them. -/
theorem scan_until_spec (stop : Nat) (kind : Token_Kind) (l : Lexer F) (token : Token F)
    (ht : token.text = l.cursor) (h0 : l.cursor ≤ l.content.length) :
    ∃ k, l.cursor + k ≤ l.content.length ∧
      (∀ j, j < k → byte_at l.content (l.cursor + j) ≠ stop) ∧
      (l.cursor + k < l.content.length → byte_at l.content (l.cursor + k) = stop) ∧
      (match chop_while (fun c => c != stop) l with
        | Except.error e => Except.error e
        | Except.ok lex => chop_terminator kind lex token) =
      Except.ok
        ({ token with
            kind := kind
            text_len := if l.cursor + k < l.content.length then k + 1 else k },
          advance l (if l.cursor + k < l.content.length then k + 1 else k)) := by
  obtain ⟨k, h1, h2, h3, h4⟩ := chop_while_spec (fun c => c != stop) l h0
  refine ⟨k, h2, ?_, ?_, ?_⟩
  · intro j hj; simpa using h3 j hj
  · intro hlt; simpa using h4 hlt
  · rw [h1]
    exact chop_terminator_spec kind l token k ht

/-- The literal table loop: the first entry that stands at the cursor wins. -/
theorem scan_literal_spec (l : Lexer F) (token : Token F)
    (tbl : List (Token_Kind × List Nat)) (hne : ∀ e ∈ tbl, e.2 ≠ []) :
    scan_literal l token tbl =
      .ok (match tbl.find? (fun e => starts_here l.content l.cursor e.2) with
        | some e => some ({ token with kind := e.1, text_len := e.2.length },
            advance l e.2.length)
        | none => none) := by
  induction tbl with
  | nil => rfl
  | cons e tbl ih =>
    obtain ⟨kind, text⟩ := e
    rw [scan_literal, lexer_starts_with_spec l text (hne (kind, text) (by simp))]
    by_cases hs : starts_here l.content l.cursor text = true
    · rw [hs]
      simp only []
      have hfit : l.cursor + text.length ≤ l.content.length := by
        unfold starts_here at hs
        exact (of_decide_eq_true hs).1
      rw [lexer_chop_char_ok l _ hfit]
      simp [List.find?, hs]
    · have hs' : starts_here l.content l.cursor text = false := by simpa using hs
      rw [hs']
      simp only []
      rw [ih (fun e he => hne e (by simp [he]))]
      simp [List.find?, hs']

theorem token_text_length (content : List Nat) (token : Token F)
    (h : token.text + token.text_len ≤ content.length) :
    (token_text content token).length = token.text_len := by
  simp [token_text]; omega

/-- The keyword loop never faults on a span inside the buffer; the kind becomes
`KEYWORD` exactly when the token text is an entry of the table. -/
theorem scan_keyword_spec (l : Lexer F) (token : Token F) (kws : List (List Nat))
    (h : token.text + token.text_len ≤ l.content.length) :
    scan_keyword l token kws =
      .ok (if token_text l.content token ∈ kws then Token_Kind.KEYWORD else token.kind) := by
  induction kws with
  | nil => simp [scan_keyword]
  | cons kw kws ih =>
    rw [scan_keyword]
    by_cases hlen : kw.length = token.text_len
    · rw [if_pos hlen]
      unfold memcmp_eq
      rw [if_pos (by simp [Lexer.content_len]; omega)]
      simp only [List.take_length]
      by_cases heq : kw = (l.content.drop token.text).take kw.length
      · rw [decide_eq_true heq]
        simp only []
        have : token_text l.content token = kw := by
          unfold token_text; rw [← hlen]; exact heq.symm
        simp [this]
      · rw [decide_eq_false heq]
        simp only []
        rw [ih]
        have : token_text l.content token ≠ kw := by
          unfold token_text; rw [← hlen]; exact fun h => heq h.symm
        simp [this]
    · rw [if_neg hlen, ih]
      have : token_text l.content token ≠ kw := by
        intro h'
        apply hlen
        rw [← h', token_text_length _ _ h]
      simp [this]

/-- The identifier branch: the token is the maximal run of identifier bytes at
the cursor, a `KEYWORD` exactly when its text is in the table. -/
theorem scan_symbol_spec (l : Lexer F) (token : Token F) (ht : token.text = l.cursor)
    (h0 : l.cursor ≤ l.content.length) :
    ∃ n, l.cursor + n ≤ l.content.length ∧
      (∀ j, j < n → is_symbol (byte_at l.content (l.cursor + j)) = true) ∧
      (l.cursor + n < l.content.length → is_symbol (byte_at l.content (l.cursor + n)) = false) ∧
      scan_symbol l token =
        .ok ({ token with
                kind := if (l.content.drop l.cursor).take n ∈ keywords then Token_Kind.KEYWORD
                        else Token_Kind.SYMBOL
                text_len := n },
          advance l n) := by
  obtain ⟨n, h1, h2, h3, h4⟩ := chop_while_spec is_symbol l h0
  refine ⟨n, h2, h3, h4, ?_⟩
  unfold scan_symbol
  rw [h1]
  simp only []
  rw [scan_keyword_spec _ _ _ (by simp [span_len_advance l token n ht, ht]; omega)]
  simp [token_text, span_len_advance l token n ht, ht]

theorem cstr_slashes : cstr "//" = [47, 47] := by decide

theorem literal_tokens_shape :
    ∀ e ∈ literal_tokens, e.2.length = 1 ∧ e.1 ≠ Token_Kind.END := by decide

/-- Inside the buffer the dispatch of `lexer_next` never faults and returns a
token other than `END` of at least one byte, all of whose bytes it consumed. -/
theorem lexer_dispatch_emits (l : Lexer F) (token : Token F) (ht : token.text = l.cursor)
    (h0 : l.cursor < l.content.length) : Emits l token (lexer_dispatch l token) := by
  unfold lexer_dispatch
  rw [content_at_of_lt l _ h0]
  simp only []
  by_cases hd : isdigit (byte_at l.content l.cursor) = true
  · rw [if_pos hd]
    obtain ⟨n, h1, h2, _, h4⟩ := scan_number_spec l token ht (by omega)
    refine ⟨n, Token_Kind.NUMBER, ?_, h2, by decide, h1⟩
    rcases n with _ | n
    · have := h4 (by simpa using h0)
      simp [hd] at this
    · omega
  rw [if_neg hd]
  by_cases hq : byte_at l.content l.cursor = 34
  · rw [if_pos hq]
    obtain ⟨h1, h2⟩ := scan_string_spec l token ht h0
    refine ⟨_, Token_Kind.STRING, ?_, h2, by decide, h1⟩
    unfold string_span
    simp only []
    split <;> omega
  rw [if_neg hq]
  by_cases hp : byte_at l.content l.cursor = 35
  · rw [if_pos hp]
    obtain ⟨k, h1, _, _, h4⟩ := scan_until_spec 32 Token_Kind.PREPROC l token ht (by omega)
    refine ⟨_, Token_Kind.PREPROC, ?_, ?_, by decide, h4⟩ <;> split <;> omega
  rw [if_neg hp, lexer_starts_with_spec l _ (by decide)]
  by_cases hc : starts_here l.content l.cursor (cstr "//") = true
  · rw [hc]
    simp only []
    obtain ⟨k, h1, _, _, h4⟩ := scan_until_spec 10 Token_Kind.COMMENT l token ht (by omega)
    refine ⟨_, Token_Kind.COMMENT, ?_, ?_, by decide, h4⟩ <;> split <;> omega
  have hc' : starts_here l.content l.cursor (cstr "//") = false := by simpa using hc
  rw [hc']
  simp only []
  by_cases ho : is_operator (byte_at l.content l.cursor) = true
  · rw [if_pos ho, lexer_chop_char_ok l 1 (by omega)]
    exact ⟨1, Token_Kind.OPERATOR, by omega, by omega, by decide, rfl⟩
  rw [if_neg ho, scan_literal_spec l token literal_tokens (by decide)]
  cases hf : literal_tokens.find? (fun e => starts_here l.content l.cursor e.2) with
  | some e =>
    simp only []
    have hmem := List.mem_of_find?_eq_some hf
    have hst := List.find?_some hf
    obtain ⟨hl, hk⟩ := literal_tokens_shape e hmem
    have hfit : l.cursor + e.2.length ≤ l.content.length := by
      unfold starts_here at hst
      exact (of_decide_eq_true hst).1
    exact ⟨e.2.length, e.1, by omega, hfit, hk, rfl⟩
  | none =>
    simp only []
    unfold scan_fallback
    rw [content_at_of_lt l _ h0]
    simp only []
    by_cases hs : is_symbol_start (byte_at l.content l.cursor) = true
    · rw [if_pos hs]
      obtain ⟨n, h1, _, h3, h4⟩ := scan_symbol_spec l token ht (by omega)
      refine ⟨n, _, ?_, h1, ?_, h4⟩
      · rcases n with _ | n
        · have := h3 (by simpa using h0)
          simp [is_symbol_start, is_symbol, isalnum] at hs this
          rcases hs with hs | hs
          · simp [hs] at this
          · simp [hs] at this
        · omega
      · split <;> decide
    · rw [if_neg hs, lexer_chop_char_ok l 1 (by omega)]
      exact ⟨1, Token_Kind.INVALID, by omega, by omega, by decide, rfl⟩

/-- What a call of `lexer_next` does, for any state with the cursor inside
the buffer or at its end: it trims the maximal run `w` of whitespace, then
either the buffer is exhausted and the initial token (`END`, length 0) is
returned, or the dispatch returns a token other than `END`. -/
theorem lexer_next_spec (l : Lexer F) (h0 : l.cursor ≤ l.content.length) :
    ∃ w, l.cursor + w ≤ l.content.length ∧
      (∀ j, j < w → isspace (byte_at l.content (l.cursor + j)) = true) ∧
      (l.cursor + w < l.content.length → isspace (byte_at l.content (l.cursor + w)) = false) ∧
      lexer_trim_left l = .ok (advance l w) ∧
      ((l.cursor + w = l.content.length ∧
          lexer_next l = .ok (token_init (advance l w), advance l w)) ∨
       (l.cursor + w < l.content.length ∧
          lexer_next l = lexer_dispatch (advance l w) (token_init (advance l w)) ∧
          Emits (advance l w) (token_init (advance l w))
            (lexer_dispatch (advance l w) (token_init (advance l w))))) := by
  obtain ⟨w, h1, h2, h3, h4⟩ := chop_while_spec isspace l h0
  refine ⟨w, h2, h3, h4, h1, ?_⟩
  unfold lexer_next lexer_trim_left
  rw [h1]
  simp only []
  rcases Nat.lt_or_ge (l.cursor + w) l.content.length with hlt | hge
  · right
    refine ⟨hlt, ?_, lexer_dispatch_emits _ _ rfl (by simpa using hlt)⟩
    rw [if_neg (by simp [Lexer.content_len]; omega)]
  · left
    refine ⟨by omega, ?_⟩
    rw [if_pos (by simp [Lexer.content_len]; omega)]

theorem tiles_mem (content : List Nat) (tokens : List (Token F)) (pos : Nat)
    (h : Tiles content pos tokens) :
    ∀ t ∈ tokens, pos ≤ t.text ∧ 1 ≤ t.text_len ∧ t.text + t.text_len ≤ content.length := by
  induction tokens generalizing pos with
  | nil => simp
  | cons a ts ih =>
    obtain ⟨h1, _, h3, h4, h5⟩ := h
    intro t ht
    rcases List.mem_cons.mp ht with rfl | ht
    · exact ⟨h1, h3, h4⟩
    · have := ih _ h5 t ht
      exact ⟨by omega, this.2⟩

theorem tiles_length (content : List Nat) (tokens : List (Token F)) (pos : Nat)
    (h : Tiles content pos tokens) : tokens.length ≤ content.length - pos := by
  induction tokens generalizing pos with
  | nil => simp
  | cons a ts ih =>
    obtain ⟨h1, _, h3, h4, h5⟩ := h
    have := ih _ h5
    simp only [List.length_cons]
    omega

theorem tiles_pairwise (content : List Nat) (tokens : List (Token F)) (pos : Nat)
    (h : Tiles content pos tokens) :
    tokens.Pairwise (fun a b => a.text + a.text_len ≤ b.text) := by
  induction tokens generalizing pos with
  | nil => simp
  | cons a ts ih =>
    obtain ⟨_, _, _, _, h5⟩ := h
    rw [List.pairwise_cons]
    exact ⟨fun b hb => (tiles_mem content ts _ h5 b hb).1, ih _ h5⟩

theorem tiles_cover (content : List Nat) (tokens : List (Token F)) (pos : Nat)
    (h : Tiles content pos tokens) (j : Nat) (hj : pos ≤ j) (hlt : j < content.length) :
    isspace (byte_at content j) = true ∨ ∃ t ∈ tokens, in_span t j := by
  induction tokens generalizing pos with
  | nil => exact Or.inl (h j hj hlt)
  | cons a ts ih =>
    obtain ⟨_, h2, _, _, h5⟩ := h
    by_cases h1 : j < a.text
    · exact Or.inl (h2 j hj h1)
    · by_cases h3 : j < a.text + a.text_len
      · exact Or.inr ⟨a, by simp, by omega, h3⟩
      · rcases ih _ h5 (by omega) with h | ⟨t, ht, hs⟩
        · exact Or.inl h
        · exact Or.inr ⟨t, by simp [ht], hs⟩

/-- Scanning from any state with the cursor inside the buffer: within
`content_len - cursor + 1` calls `END` is returned; the tokens before it tile
the rest of the buffer, each carries the position the lexer had at its start,
and the final state is the one reached by chopping every remaining byte. -/
theorem lexer_scan_spec (fuel : Nat) (l : Lexer F) (h0 : l.cursor ≤ l.content.length)
    (hfuel : l.content.length - l.cursor < fuel) :
    ∃ tokens, lexer_scan fuel l =
        .ok (tokens, token_init (advance l (l.content.length - l.cursor)),
          advance l (l.content.length - l.cursor)) ∧
      Tiles l.content l.cursor tokens ∧
      ∀ t ∈ tokens, t.kind ≠ Token_Kind.END ∧
        t.position_x = (advance l (t.text - l.cursor)).x ∧
        t.position_line = (advance l (t.text - l.cursor)).line := by
  induction fuel generalizing l with
  | zero => omega
  | succ fuel ih =>
    obtain ⟨w, hw, hsp, _, _, hnext⟩ := lexer_next_spec l h0
    rcases hnext with ⟨hend, hn⟩ | ⟨hlt, hn, n, kind, hn1, hfit, hk, hd⟩
    · have hw' : l.content.length - l.cursor = w := by omega
      refine ⟨[], ?_, ?_, by simp⟩
      · rw [lexer_scan, hn, hw']
        simp [token_init]
      · intro j hj hlt
        have := hsp (j - l.cursor) (by omega)
        rwa [show l.cursor + (j - l.cursor) = j by omega] at this
    · simp only [advance_cursor, advance_content] at hfit
      obtain ⟨tokens, hs, htile, hpos⟩ := ih (advance (advance l w) n)
        (by simp; omega) (by simp; omega)
      simp only [advance_cursor, advance_content] at hs htile hpos
      have hfin : advance (advance (advance l w) n) (l.content.length - (l.cursor + w + n)) =
          advance l (l.content.length - l.cursor) := by
        rw [← advance_add, ← advance_add]
        congr 1; omega
      rw [hfin] at hs
      refine ⟨({ token_init (advance l w) with kind := kind, text_len := n } : Token F) :: tokens,
        ?_, ?_, ?_⟩
      · rw [lexer_scan, hn, hd]
        simp only []
        rw [if_neg hk, hs]
      · refine ⟨by simp [token_init], ?_, hn1, by simpa [token_init] using hfit, ?_⟩
        · intro j hj hlt'
          simp only [token_init, advance_cursor] at hlt'
          have := hsp (j - l.cursor) (by omega)
          rwa [show l.cursor + (j - l.cursor) = j by omega] at this
        · simpa [token_init] using htile
      · intro t ht
        rcases List.mem_cons.mp ht with rfl | ht
        · simp [token_init, hk]
        · obtain ⟨h1, h2, h3⟩ := hpos t ht
          have hge := (tiles_mem _ _ _ htile t ht).1
          have : advance (advance (advance l w) n) (t.text - (l.cursor + w + n)) =
              advance l (t.text - l.cursor) := by
            rw [← advance_add, ← advance_add]
            congr 1; omega
          rw [this] at h2 h3
          exact ⟨h1, h2, h3⟩

theorem starts_here_first (content : List Nat) (cursor : Nat) (pfx : List Nat)
    (hp : pfx ≠ []) (h : starts_here content cursor pfx = true) :
    cursor < content.length ∧ pfx.getD 0 0 = byte_at content cursor := by
  unfold starts_here at h
  have h' := of_decide_eq_true h
  have hlen : 0 < pfx.length := List.length_pos.mpr hp
  exact ⟨by omega, by simpa using h'.2 0 hlen⟩

theorem literal_first_bytes :
    ∀ e ∈ literal_tokens, e.2 ≠ [] ∧
      (e.2.getD 0 0 = 40 ∨ e.2.getD 0 0 = 41 ∨ e.2.getD 0 0 = 123 ∨ e.2.getD 0 0 = 125 ∨
        e.2.getD 0 0 = 59) := by decide

theorem is_symbol_start_cases (c : Nat) (h : is_symbol_start c = true) :
    (65 ≤ c ∧ c ≤ 90) ∨ (97 ≤ c ∧ c ≤ 122) ∨ c = 95 := by
  simp [is_symbol_start, isalpha] at h
  omega

/-- At an identifier start none of the earlier rules of the dispatch applies. -/
theorem lexer_dispatch_symbol (l : Lexer F) (token : Token F)
    (h0 : l.cursor < l.content.length)
    (hs : is_symbol_start (byte_at l.content l.cursor) = true) :
    lexer_dispatch l token = scan_symbol l token := by
  have hc := is_symbol_start_cases _ hs
  unfold lexer_dispatch
  rw [content_at_of_lt l _ h0]
  simp only []
  rw [if_neg (by simp [isdigit]; omega), if_neg (by omega), if_neg (by omega),
    lexer_starts_with_spec l _ (by decide)]
  have hsl : starts_here l.content l.cursor (cstr "//") = false := by
    cases hh : starts_here l.content l.cursor (cstr "//") with
    | false => rfl
    | true =>
      have := (starts_here_first _ _ _ (by decide) hh).2
      rw [cstr_slashes] at this
      simp at this
      omega
  rw [hsl]
  simp only []
  rw [if_neg (by simp [is_operator]; omega), scan_literal_spec l token literal_tokens (by decide)]
  have hnone : literal_tokens.find? (fun e => starts_here l.content l.cursor e.2) = none := by
    rw [List.find?_eq_none]
    intro e he hst
    obtain ⟨hne, hb⟩ := literal_first_bytes e he
    have := (starts_here_first _ _ _ hne hst).2
    omega
  rw [hnone]
  simp only []
  unfold scan_fallback
  rw [content_at_of_lt l _ h0]
  simp only []
  rw [if_pos hs]

/-- A maximal run is determined by the buffer. -/
theorem run_unique (p : Nat → Bool) (content : List Nat) (i n m : Nat)
    (hn : ∀ j, j < n → p (byte_at content (i + j)) = true)
    (hn' : i + n < content.length → p (byte_at content (i + n)) = false)
    (hnle : i + n ≤ content.length)
    (hm : ∀ j, j < m → p (byte_at content (i + j)) = true)
    (hm' : i + m < content.length → p (byte_at content (i + m)) = false)
    (hmle : i + m ≤ content.length) : n = m := by
  rcases Nat.lt_trichotomy n m with h | h | h
  · have h1 := hm n h
    have h2 := hn' (by omega)
    rw [h1] at h2; exact absurd h2 (by decide)
  · exact h
  · have h1 := hn m h
    have h2 := hm' (by omega)
    rw [h1] at h2; exact absurd h2 (by decide)

/-- In front of a byte that is not whitespace `lexer_trim_left` does nothing. -/
theorem lexer_trim_left_none (l : Lexer F) (h : l.cursor < l.content.length)
    (hns : isspace (byte_at l.content l.cursor) = false) : lexer_trim_left l = .ok l := by
  obtain ⟨k, h1, _, h3, _⟩ := chop_while_spec isspace l (by omega)
  rcases k with _ | k
  · exact h1
  · have := h3 0 (by omega)
    rw [Nat.add_zero, hns] at this
    exact absurd this (by decide)

/-- The call at an identifier start, `w` bytes of whitespace having been
trimmed. -/
theorem lexer_next_symbol_spec (l : Lexer F) (w : Nat)
    (htrim : lexer_trim_left l = .ok (advance l w))
    (hlt : l.cursor + w < l.content.length)
    (hs : is_symbol_start (byte_at l.content (l.cursor + w)) = true) :
    ∃ n, 1 ≤ n ∧ l.cursor + w + n ≤ l.content.length ∧
      (∀ j, j < n → is_symbol (byte_at l.content (l.cursor + w + j)) = true) ∧
      (l.cursor + w + n < l.content.length →
        is_symbol (byte_at l.content (l.cursor + w + n)) = false) ∧
      lexer_next l =
        .ok ({ token_init (advance l w) with
                kind := if (l.content.drop (l.cursor + w)).take n ∈ keywords
                        then Token_Kind.KEYWORD else Token_Kind.SYMBOL
                text_len := n },
          advance l (w + n)) := by
  obtain ⟨n, h1, h2, h3, h4⟩ := scan_symbol_spec (advance l w) (token_init (advance l w)) rfl
    (by simp; omega)
  simp only [advance_cursor, advance_content] at h1 h2 h3 h4
  refine ⟨n, ?_, h1, h2, h3, ?_⟩
  · rcases n with _ | n
    · have := h3 (by simpa using hlt)
      have hc := is_symbol_start_cases _ hs
      simp [is_symbol, isalnum, isalpha, isdigit] at this
      omega
    · omega
  · unfold lexer_next
    rw [htrim]
    simp only []
    rw [if_neg (by simp [Lexer.content_len]; omega),
      lexer_dispatch_symbol _ _ (by simpa using hlt) (by simpa using hs), h4, advance_add]

/-- A buffer that is one identifier, as `lexer_next` sees it from `lexer_new`. -/
theorem lexer_next_identifier (atlas : Option (Free_Glyph_Atlas F)) (content : List Nat)
    (hpos : 0 < content.length)
    (hstart : is_symbol_start (byte_at content 0) = true)
    (hall : ∀ j, j < content.length → is_symbol (byte_at content j) = true) :
    token_view (lexer_next (lexer_new atlas content : Lexer F)) =
      some (if content ∈ keywords then Token_Kind.KEYWORD else Token_Kind.SYMBOL,
        0, content.length, content.length) := by
  have hns : isspace (byte_at content 0) = false := by
    have hc := is_symbol_start_cases _ hstart
    simp [isspace]
    omega
  have htrim : lexer_trim_left (lexer_new atlas content : Lexer F) =
      .ok (advance (lexer_new atlas content) 0) :=
    lexer_trim_left_none _ (by simpa [lexer_new] using hpos) (by simpa [lexer_new] using hns)
  obtain ⟨n, _, h2, h3, h4, h5⟩ := lexer_next_symbol_spec _ 0 htrim
    (by simpa [lexer_new] using hpos) (by simpa [lexer_new] using hstart)
  simp only [lexer_new, Nat.add_zero, Nat.zero_add, List.drop_zero] at h2 h3 h4 h5
  have hn : n = content.length :=
    run_unique is_symbol content 0 n content.length
      (by simpa using h3) (by simpa using h4) (by simpa using h2)
      (by simpa using hall) (by simp) (by simp)
  subst hn
  simp only [lexer_new]
  rw [h5]
  simp [token_view, token_init]

/-- A successful `lexer_chop_char` is `advance`. -/
theorem lexer_chop_char_eq_ok (lex lex' : Lexer F) (k : Nat)
    (h : lexer_chop_char lex k = .ok lex') : lex' = advance lex k := by
  induction k generalizing lex with
  | zero =>
    simp only [lexer_chop_char, Except.ok.injEq] at h
    simp [h]
  | succ k ih =>
    rw [lexer_chop_char] at h
    by_cases hlt : lex.cursor < lex.content.length
    · rw [if_pos (by simpa [Lexer.content_len] using hlt), content_at_of_lt lex _ hlt] at h
      simp only [] at h
      rw [advance_succ]
      exact ih _ h
    · rw [if_neg (by simpa [Lexer.content_len] using hlt)] at h
      cases h

theorem byte_at_ne_zero_lt (content : List Nat) (i : Nat) (h : byte_at content i ≠ 0) :
    i < content.length := by
  by_contra hge
  apply h
  simp [byte_at, List.getD, List.getElem?_eq_none (Nat.le_of_not_lt hge)]

theorem lexer_chop_byte_line (lex : Lexer F) (c : Nat) :
    (lexer_chop_byte lex c).line = lex.line + (if c = 10 then 1 else 0) := by
  unfold lexer_chop_byte
  split
  · rfl
  · split <;> rfl

theorem lexer_chop_byte_bol (lex : Lexer F) (c : Nat) :
    (lexer_chop_byte lex c).bol = if c = 10 then lex.cursor + 1 else lex.bol := by
  unfold lexer_chop_byte
  split
  · rfl
  · split <;> rfl

theorem count_from_succ (content : List Nat) (c i k : Nat) :
    count_from content c i (k + 1) =
      (if i < content.length ∧ byte_at content i = c then 1 else 0) +
        count_from content c (i + 1) k := by
  unfold count_from
  by_cases h : i < content.length
  · rw [drop_cursor content i h, List.take_succ_cons, List.count_cons]
    by_cases hc : byte_at content i = c
    · simp [h, hc]; omega
    · simp [h, hc]
  · rw [List.drop_eq_nil_of_le (by omega), List.drop_eq_nil_of_le (by omega)]
    simp [h]

/-- `line` grows by the number of newlines among the bytes consumed. -/
theorem advance_line (l : Lexer F) (k : Nat) :
    (advance l k).line = l.line + count_from l.content 10 l.cursor k := by
  induction k generalizing l with
  | zero => simp [count_from]
  | succ k ih =>
    rw [advance_succ, ih, lexer_chop_byte_line, count_from_succ]
    simp only [lexer_chop_byte_content, lexer_chop_byte_cursor]
    by_cases hc : byte_at l.content l.cursor = 10
    · have hlt : l.cursor < l.content.length := byte_at_ne_zero_lt _ _ (by omega)
      simp [hc, hlt]; omega
    · simp [hc]

theorem advance_bol_keep (l : Lexer F) (k : Nat)
    (h : ∀ j, j < k → byte_at l.content (l.cursor + j) ≠ 10) : (advance l k).bol = l.bol := by
  induction k generalizing l with
  | zero => rfl
  | succ k ih =>
    rw [advance_succ, ih, lexer_chop_byte_bol, if_neg (by simpa using h 0 (by omega))]
    intro j hj
    simp only [lexer_chop_byte_content, lexer_chop_byte_cursor]
    have := h (j + 1) (by omega)
    rwa [show l.cursor + (j + 1) = l.cursor + 1 + j by omega] at this

/-- `bol` follows the last newline among the bytes consumed. -/
theorem advance_bol (l : Lexer F) (k : Nat) :
    BolTracks l.content l.cursor k l.bol (advance l k).bol := by
  refine ⟨advance_bol_keep l k, ?_⟩
  induction k generalizing l with
  | zero => intro j hj; omega
  | succ k ih =>
    intro j hj hnl hlast
    rw [advance_succ]
    rcases j with _ | j
    · rw [advance_bol_keep, lexer_chop_byte_bol, if_pos (by simpa using hnl)]
      intro j' hj'
      simp only [lexer_chop_byte_content, lexer_chop_byte_cursor]
      have := hlast (j' + 1) (by omega) (by omega)
      rwa [show l.cursor + (j' + 1) = l.cursor + 1 + j' by omega] at this
    · have := ih (lexer_chop_byte l (byte_at l.content l.cursor)) j (by omega)
        (by
          simp only [lexer_chop_byte_content, lexer_chop_byte_cursor]
          rwa [show l.cursor + (j + 1) = l.cursor + 1 + j by omega] at hnl)
        (by
          intro j' h1 h2
          simp only [lexer_chop_byte_content, lexer_chop_byte_cursor]
          have := hlast (j' + 1) (by omega) (by omega)
          rwa [show l.cursor + (j' + 1) = l.cursor + 1 + j' by omega] at this)
      rw [this]
      simp only [lexer_chop_byte_cursor]
      omega

/-- Every call of `lexer_next` on a valid state is an `advance`. -/
theorem lexer_next_advance (l : Lexer F) (h0 : l.cursor ≤ l.content.length) :
    ∃ token k, lexer_next l = .ok (token, advance l k) ∧ l.cursor + k ≤ l.content.length := by
  obtain ⟨w, hw, _, _, _, hn⟩ := lexer_next_spec l h0
  rcases hn with ⟨_, hn⟩ | ⟨_, hn, n, kind, _, hfit, _, hd⟩
  · exact ⟨_, w, hn, hw⟩
  · simp only [advance_cursor, advance_content] at hfit
    exact ⟨_, w + n, by rw [hn, hd, advance_add], by omega⟩

/-- At the end of the buffer `lexer_next` returns the initial token and leaves
the state as it is. -/
theorem lexer_next_at_end (l : Lexer F) (hl : l.cursor = l.content.length) :
    lexer_next l = .ok (token_init l, l) := by
  obtain ⟨w', hw', _, _, _, hn'⟩ := lexer_next_spec l (by omega)
  have : w' = 0 := by omega
  subst this
  rcases hn' with ⟨_, hn'⟩ | ⟨hlt, _⟩
  · simpa using hn'
  · omega

/-- At a quote the dispatch takes the string branch. -/
theorem lexer_dispatch_string (l : Lexer F) (token : Token F)
    (h0 : l.cursor < l.content.length) (hq : byte_at l.content l.cursor = 34) :
    lexer_dispatch l token = scan_string l token := by
  unfold lexer_dispatch
  rw [content_at_of_lt l _ h0]
  simp only []
  rw [hq, if_neg (by decide), if_pos rfl]

theorem string_run_stop (c : Nat) (rest : List Nat) (h : c = 34 ∨ c = 10) :
    string_run (c :: rest) = 0 := by
  cases rest with
  | nil => simp [string_run, h]
  | cons d rest => simp [string_run, h]

/-- The string loop runs through a body of well-formed pieces up to the quote
that follows it. -/
theorem string_run_pieces (pieces : List (List Nat)) (rest : List Nat)
    (h : ∀ p ∈ pieces, is_string_piece p = true) :
    string_run (pieces.flatten ++ 34 :: rest) = pieces.flatten.length := by
  induction pieces with
  | nil => simpa using string_run_stop 34 rest (Or.inl rfl)
  | cons p ps ih =>
    have ih' := ih (fun q hq => h q (by simp [hq]))
    have hp := h p (by simp)
    have hne : ps.flatten ++ 34 :: rest ≠ [] := by simp
    match p, hp with
    | [c], hp =>
      simp only [is_string_piece, Bool.and_eq_true, bne_iff_ne, ne_eq] at hp
      obtain ⟨⟨h1, h2⟩, h3⟩ := hp
      simp only [List.flatten_cons, List.singleton_append, List.cons_append, List.nil_append,
        List.length_cons]
      cases htail : ps.flatten ++ 34 :: rest with
      | nil => exact absurd htail hne
      | cons d r =>
        rw [string_run, if_neg (by omega), if_neg (by omega), ← htail, ih']
        simp [List.length_append]; omega
    | [c, e], hp =>
      simp only [is_string_piece, Bool.and_eq_true, beq_iff_eq, Bool.or_eq_true] at hp
      obtain ⟨h1, h2⟩ := hp
      simp only [List.flatten_cons, List.cons_append, List.nil_append, List.length_cons]
      rw [string_run, if_neg (by omega), if_pos ⟨h1, by omega⟩, ih']
      simp [List.length_append]; omega

/-! ## Lexer: the tokens do not depend on the atlas -/

theorem plain_content_at (l : Lexer F) (i : Nat) : content_at l.plain i = content_at l i := rfl

theorem plain_cursor (l : Lexer F) : l.plain.cursor = l.cursor := rfl

theorem plain_content (l : Lexer F) : l.plain.content = l.content := rfl

theorem plain_content_len (l : Lexer F) : l.plain.content_len = l.content_len := rfl

theorem plain_starts_with_loop (l : Lexer F) (pfx : List Nat) (n i : Nat) :
    lexer_starts_with_loop l.plain pfx n i = lexer_starts_with_loop l pfx n i := by
  induction n generalizing i with
  | zero => rfl
  | succ n ih =>
    simp only [lexer_starts_with_loop, plain_content_at, plain_cursor, ih]

theorem plain_starts_with (l : Lexer F) (pfx : List Nat) :
    lexer_starts_with l.plain pfx = lexer_starts_with l pfx := by
  unfold lexer_starts_with
  rw [plain_starts_with_loop]
  rfl

theorem plain_chop_byte (l : Lexer F) (c : Nat) :
    lexer_chop_byte l.plain c = (lexer_chop_byte l c).plain := by
  unfold lexer_chop_byte
  by_cases hc : c = 10
  · simp only [hc, if_true]; rfl
  · simp only [hc, if_false]
    cases h : l.atlas <;> simp [Lexer.plain, h]

theorem plain_chop_char (l : Lexer F) (k : Nat) :
    lexer_chop_char l.plain k = (lexer_chop_char l k).map Lexer.plain := by
  induction k generalizing l with
  | zero => rfl
  | succ k ih =>
    simp only [lexer_chop_char, plain_content_at, plain_cursor, plain_content_len]
    by_cases hlt : l.cursor < l.content_len
    · simp only [hlt, if_true]
      cases content_at l l.cursor with
      | error e => rfl
      | ok c => simp only [plain_chop_byte, ih]
    · simp only [hlt, if_false]; rfl

theorem plain_cursor_is (p : Nat → Bool) (l : Lexer F) :
    cursor_is p l.plain = cursor_is p l := rfl

/-- A loop over the plain state follows the loop over the full state. -/
theorem plain_while_loop (cond : Lexer F → Except Fault Bool)
    (body : Lexer F → Except Fault (Lexer F))
    (cond' : Lexer Nat → Except Fault Bool) (body' : Lexer Nat → Except Fault (Lexer Nat))
    (hc : ∀ l : Lexer F, cond' l.plain = cond l)
    (hb : ∀ l : Lexer F, body' l.plain = (body l).map Lexer.plain)
    (fuel : Nat) (l : Lexer F) :
    while_loop cond' body' fuel l.plain = (while_loop cond body fuel l).map Lexer.plain := by
  induction fuel generalizing l with
  | zero => rfl
  | succ fuel ih =>
    simp only [while_loop]
    rw [hc, hb]
    cases cond l with
    | error e => rfl
    | ok b =>
      cases b with
      | false => rfl
      | true =>
        cases body l with
        | error e => rfl
        | ok l' => exact ih l'

theorem plain_chop_while (p : Nat → Bool) (l : Lexer F) :
    chop_while p l.plain = (chop_while p l).map Lexer.plain :=
  plain_while_loop _ _ _ _ (plain_cursor_is p) (fun l => plain_chop_char l 1) _ l

theorem plain_trim_left (l : Lexer F) :
    lexer_trim_left l.plain = (lexer_trim_left l).map Lexer.plain :=
  plain_chop_while isspace l

theorem plain_handle_sequence (l : Lexer F) :
    handle_sequence l.plain = (handle_sequence l).map Lexer.plain := by
  simp only [handle_sequence, plain_content_at, plain_cursor, plain_chop_char]
  cases content_at l l.cursor with
  | error e => rfl
  | ok ch =>
    simp only []
    by_cases hch : ch = 92
    · simp only [hch, if_true]
      cases lexer_chop_char l 1 with
      | error e => rfl
      | ok l1 =>
        simp only [Except.map, plain_content_len, plain_cursor, plain_content_at,
          plain_chop_char]
        by_cases hlt : l1.cursor < l1.content_len
        · simp only [hlt, if_true]
          cases content_at l1 l1.cursor with
          | error e => rfl
          | ok next =>
            simp only []
            split
            · cases lexer_chop_char l1 1 <;> rfl
            · rfl
        · simp only [hlt, if_false]
    · simp only [hch, if_false]

theorem plain_string_body (l : Lexer F) :
    string_body l.plain = (string_body l).map Lexer.plain := by
  simp only [string_body, plain_content_at, plain_cursor, plain_chop_char,
    plain_handle_sequence]
  cases content_at l l.cursor with
  | error e => rfl
  | ok c =>
    simp only []
    split <;> rfl

theorem plain_scan_number (l : Lexer F) (t : Token F) :
    scan_number l.plain t.plain = (scan_number l t).map plain_result := by
  simp only [scan_number, plain_chop_while]
  cases chop_while isdigit l <;> rfl

theorem plain_scan_string (l : Lexer F) (t : Token F) :
    scan_string l.plain t.plain = (scan_string l t).map plain_result := by
  simp only [scan_string, plain_chop_char]
  cases lexer_chop_char l 1 with
  | error e => rfl
  | ok l1 =>
    simp only [Except.map, plain_content_len]
    rw [plain_while_loop _ _ _ _ (plain_cursor_is _) plain_string_body]
    cases while_loop (cursor_is fun c => c != 34 && c != 10) string_body
        (l1.content_len + 1) l1 with
    | error e => rfl
    | ok l2 =>
      simp only [Except.map, plain_cursor_is, plain_chop_char]
      cases cursor_is (fun c => c == 34) l2 with
      | error e => rfl
      | ok closing =>
        cases closing with
        | false => rfl
        | true =>
          simp only [if_true]
          cases lexer_chop_char l2 1 <;> rfl

theorem plain_chop_terminator (kind : Token_Kind) (l : Lexer F) (t : Token F) :
    chop_terminator kind l.plain t.plain = (chop_terminator kind l t).map plain_result := by
  simp only [chop_terminator, plain_cursor, plain_content_len, plain_chop_char]
  by_cases hlt : l.cursor < l.content_len
  · simp only [hlt, if_true]
    cases lexer_chop_char l 1 <;> rfl
  · simp only [hlt, if_false]
    rfl

theorem plain_scan_preproc (l : Lexer F) (t : Token F) :
    scan_preproc l.plain t.plain = (scan_preproc l t).map plain_result := by
  simp only [scan_preproc, plain_chop_while]
  cases chop_while (fun c => c != 32) l with
  | error e => rfl
  | ok l1 => exact plain_chop_terminator _ l1 t

theorem plain_scan_comment (l : Lexer F) (t : Token F) :
    scan_comment l.plain t.plain = (scan_comment l t).map plain_result := by
  simp only [scan_comment, plain_chop_while]
  cases chop_while (fun c => c != 10) l with
  | error e => rfl
  | ok l1 => exact plain_chop_terminator _ l1 t

theorem plain_scan_literal (l : Lexer F) (t : Token F) (tbl : List (Token_Kind × List Nat)) :
    scan_literal l.plain t.plain tbl = (scan_literal l t tbl).map (Option.map plain_result) := by
  induction tbl with
  | nil => rfl
  | cons e tbl ih =>
    obtain ⟨kind, text⟩ := e
    simp only [scan_literal, plain_starts_with, plain_chop_char]
    cases lexer_starts_with l text with
    | error e => rfl
    | ok b =>
      cases b with
      | false => exact ih
      | true =>
        simp only []
        cases lexer_chop_char l text.length <;> rfl

theorem plain_scan_keyword (l : Lexer F) (t : Token F) (kws : List (List Nat)) :
    scan_keyword l.plain t.plain kws = scan_keyword l t kws := by
  induction kws with
  | nil => rfl
  | cons kw kws ih =>
    simp only [scan_keyword]
    rw [ih]
    rfl

theorem plain_scan_symbol (l : Lexer F) (t : Token F) :
    scan_symbol l.plain t.plain = (scan_symbol l t).map plain_result := by
  simp only [scan_symbol, plain_chop_while]
  cases chop_while is_symbol l with
  | error e => rfl
  | ok l1 =>
    simp only [Except.map]
    have := plain_scan_keyword l1
      { t with kind := Token_Kind.SYMBOL, text_len := span_len l1 t } keywords
    simp only [Token.plain] at this
    simp only [Token.plain, span_len, plain_cursor] at this ⊢
    rw [this]
    cases scan_keyword l1
      { t with kind := Token_Kind.SYMBOL, text_len := l1.cursor - t.text } keywords <;> rfl

theorem plain_scan_fallback (l : Lexer F) (t : Token F) :
    scan_fallback l.plain t.plain = (scan_fallback l t).map plain_result := by
  simp only [scan_fallback, plain_content_at, plain_cursor, plain_scan_symbol, plain_chop_char]
  cases content_at l l.cursor with
  | error e => rfl
  | ok c =>
    simp only []
    split
    · rfl
    · cases lexer_chop_char l 1 <;> rfl

theorem plain_dispatch (l : Lexer F) (t : Token F) :
    lexer_dispatch l.plain t.plain = (lexer_dispatch l t).map plain_result := by
  simp only [lexer_dispatch, plain_content_at, plain_cursor, plain_scan_number,
    plain_scan_string, plain_scan_preproc, plain_starts_with, plain_scan_comment,
    plain_chop_char, plain_scan_literal, plain_scan_fallback]
  cases content_at l l.cursor with
  | error e => rfl
  | ok c =>
    simp only []
    split
    · rfl
    split
    · rfl
    split
    · rfl
    cases lexer_starts_with l (cstr "//") with
    | error e => rfl
    | ok b =>
      cases b with
      | true => rfl
      | false =>
        simp only []
        split
        · cases lexer_chop_char l 1 <;> rfl
        · cases scan_literal l t literal_tokens with
          | error e => rfl
          | ok r =>
            cases r with
            | none => rfl
            | some r => rfl

theorem plain_token_init (l : Lexer F) : token_init l.plain = (token_init l).plain := rfl

/-- The kinds and spans of the tokens, the cursor, `line` and `bol` do not depend
on the glyph atlas: a call on the plain state returns the plain result. -/
theorem plain_lexer_next (l : Lexer F) :
    lexer_next l.plain = (lexer_next l).map plain_result := by
  simp only [lexer_next, plain_trim_left]
  cases lexer_trim_left l with
  | error e => rfl
  | ok l1 =>
    simp only [Except.map, plain_cursor, plain_content_len, plain_token_init, plain_dispatch]
    split <;> rfl

theorem plain_lexer_next_nth (k : Nat) (l : Lexer F) :
    lexer_next_nth k l.plain = (lexer_next_nth k l).map plain_result := by
  induction k generalizing l with
  | zero => exact plain_lexer_next l
  | succ k ih =>
    simp only [lexer_next_nth, plain_lexer_next]
    cases lexer_next l with
    | error e => rfl
    | ok r => exact ih r.2

theorem plain_lexer_scan (calls : Nat) (l : Lexer F) :
    scan_view (lexer_scan calls l.plain) = scan_view (lexer_scan calls l) := by
  induction calls generalizing l with
  | zero => rfl
  | succ calls ih =>
    simp only [lexer_scan, plain_lexer_next]
    cases lexer_next l with
    | error e => rfl
    | ok r =>
      obtain ⟨t, l'⟩ := r
      simp only [Except.map, plain_result]
      by_cases hk : t.kind = Token_Kind.END
      · have hk' : t.plain.kind = Token_Kind.END := hk
        simp only [hk, hk', if_true]
        rfl
      · have hk' : ¬ t.plain.kind = Token_Kind.END := hk
        simp only [hk, hk', if_false]
        have := ih l'
        cases h1 : lexer_scan calls l'.plain with
        | error e =>
          rw [h1] at this
          cases h2 : lexer_scan calls l' with
          | error e' => rfl
          | ok r' => rw [h2] at this; simp [scan_view] at this
        | ok r1 =>
          rw [h1] at this
          cases h2 : lexer_scan calls l' with
          | error e' => rw [h2] at this; simp [scan_view] at this
          | ok r' =>
            rw [h2] at this
            obtain ⟨ts1, last1, l1⟩ := r1
            obtain ⟨ts2, last2, l2⟩ := r'
            simp only [scan_view, Option.some.injEq, Prod.mk.injEq] at this ⊢
            obtain ⟨h3, h4⟩ := this
            exact ⟨by simp [h3, Token.plain], h4⟩

theorem plain_token_view (r : Except Fault (Token F × Lexer F)) :
    token_view (r.map plain_result) = token_view r := by
  cases r <;> rfl

theorem plain_lexer_new (atlas : Option (Free_Glyph_Atlas F)) (content : List Nat) :
    (lexer_new atlas content).plain = lexer_new none content := rfl

/-- The view of a call from `lexer_new` is the one of the call without atlas. -/
theorem token_view_any_atlas (atlas : Option (Free_Glyph_Atlas F)) (content : List Nat)
    (k : Nat) :
    token_view (lexer_next_nth k (lexer_new atlas content)) =
      token_view (lexer_next_nth k (lexer_new none content : Lexer Nat)) := by
  rw [← plain_lexer_new atlas content, plain_lexer_next_nth, plain_token_view]

/-- The view of a scan from `lexer_new` is the one of the scan without atlas. -/
theorem scan_view_any_atlas (atlas : Option (Free_Glyph_Atlas F)) (content : List Nat)
    (calls : Nat) :
    scan_view (lexer_scan calls (lexer_new atlas content)) =
      scan_view (lexer_scan calls (lexer_new none content : Lexer Nat)) := by
  rw [← plain_lexer_new atlas content, plain_lexer_scan]

/-! ## Lexer: the branches of the dispatch -/

/-- After trimming, inside the buffer, `lexer_next` is the dispatch. -/
theorem lexer_next_trimmed (lex lex1 : Lexer F) (htrim : lexer_trim_left lex = .ok lex1)
    (hin : lex1.cursor < lex1.content.length) :
    lexer_next lex = lexer_dispatch lex1 (token_init lex1) := by
  unfold lexer_next
  rw [htrim]
  simp only []
  rw [if_neg (by simp [Lexer.content_len]; omega)]

/-- What `lexer_trim_left` returns is an `advance` of the state. -/
theorem lexer_trim_left_advance (lex lex1 : Lexer F) (h : lex.cursor ≤ lex.content.length)
    (htrim : lexer_trim_left lex = .ok lex1) :
    ∃ w, lex1 = advance lex w ∧ lex.cursor + w ≤ lex.content.length := by
  obtain ⟨w, h1, h2, _, _⟩ := chop_while_spec isspace lex h
  unfold lexer_trim_left at htrim
  rw [h1] at htrim
  exact ⟨w, (Except.ok.inj htrim).symm, h2⟩

/-- At a digit the dispatch takes the number branch. -/
theorem lexer_dispatch_number (l : Lexer F) (token : Token F)
    (h0 : l.cursor < l.content.length)
    (hd : isdigit (byte_at l.content l.cursor) = true) :
    lexer_dispatch l token = scan_number l token := by
  unfold lexer_dispatch
  rw [content_at_of_lt l _ h0]
  simp only []
  rw [if_pos hd]

theorem starts_here_slashes (content : List Nat) (cursor : Nat) :
    starts_here content cursor (cstr "//") =
      decide (cursor + 2 ≤ content.length ∧ byte_at content cursor = 47 ∧
        byte_at content (cursor + 1) = 47) := by
  rw [cstr_slashes]
  unfold starts_here
  apply decide_eq_decide.mpr
  simp only [List.length_cons, List.length_nil]
  constructor
  · rintro ⟨h1, h2⟩
    have a := h2 0 (by omega)
    have b := h2 1 (by omega)
    simp at a b
    exact ⟨h1, a.symm, b.symm⟩
  · rintro ⟨h1, h2, h3⟩
    refine ⟨h1, ?_⟩
    intro j hj
    rcases j with _ | _ | j
    · simpa using h2.symm
    · simpa using h3.symm
    · omega

/-- Where the buffer goes on with `//` the dispatch takes the comment branch. -/
theorem lexer_dispatch_comment (l : Lexer F) (token : Token F)
    (hfit : l.cursor + 2 ≤ l.content.length)
    (h0 : byte_at l.content l.cursor = 47) (h1 : byte_at l.content (l.cursor + 1) = 47) :
    lexer_dispatch l token = scan_comment l token := by
  unfold lexer_dispatch
  rw [content_at_of_lt l _ (by omega)]
  simp only []
  rw [h0, if_neg (by decide), if_neg (by decide), if_neg (by decide),
    lexer_starts_with_spec l _ (by decide), starts_here_slashes,
    decide_eq_true ⟨hfit, h0, h1⟩]

theorem is_operator_iff (c : Nat) :
    is_operator c = true ↔
      c = 43 ∨ c = 45 ∨ c = 42 ∨ c = 47 ∨ c = 37 ∨ c = 60 ∨ c = 62 ∨ c = 61 ∨ c = 33 ∨
      c = 38 ∨ c = 124 ∨ c = 94 ∨ c = 126 ∨ c = 91 ∨ c = 93 ∨ c = 44 ∨ c = 46 ∨ c = 58 ∨
      c = 63 := by
  simp [is_operator, or_assoc]

/-- At an operator byte that does not start `//` the dispatch returns one byte
as `OPERATOR`. -/
theorem lexer_dispatch_operator (l : Lexer F) (token : Token F)
    (h0 : l.cursor < l.content.length)
    (hop : is_operator (byte_at l.content l.cursor) = true)
    (hnc : ¬ (l.cursor + 2 ≤ l.content.length ∧ byte_at l.content l.cursor = 47 ∧
      byte_at l.content (l.cursor + 1) = 47)) :
    lexer_dispatch l token =
      .ok ({ token with kind := Token_Kind.OPERATOR, text_len := 1 }, advance l 1) := by
  have hc := (is_operator_iff _).mp hop
  unfold lexer_dispatch
  rw [content_at_of_lt l _ h0]
  simp only []
  rw [if_neg (by simp [isdigit]; omega), if_neg (by omega), if_neg (by omega),
    lexer_starts_with_spec l _ (by decide), starts_here_slashes, decide_eq_false hnc]
  simp only []
  rw [if_pos hop, lexer_chop_char_ok l 1 (by omega)]

theorem literal_tokens_eq :
    literal_tokens =
      [(Token_Kind.OPEN_PAREN, [40]), (Token_Kind.CLOSE_PAREN, [41]),
       (Token_Kind.OPEN_CURLY, [123]), (Token_Kind.CLOSE_CURLY, [125]),
       (Token_Kind.SEMICOLON, [59])] := by decide

theorem starts_here_single (content : List Nat) (cursor c : Nat) :
    starts_here content cursor [c] =
      decide (cursor < content.length ∧ byte_at content cursor = c) := by
  unfold starts_here
  apply decide_eq_decide.mpr
  simp only [List.length_cons, List.length_nil]
  constructor
  · rintro ⟨h1, h2⟩
    have a := h2 0 (by omega)
    simp at a
    exact ⟨by omega, a.symm⟩
  · rintro ⟨h1, h2⟩
    refine ⟨by omega, ?_⟩
    intro j hj
    have : j = 0 := by omega
    subst this
    simpa using h2.symm

/-- At a byte of the literal table the dispatch returns one byte with the kind
the table gives it. -/
theorem lexer_dispatch_literal (l : Lexer F) (token : Token F) (kind : Token_Kind)
    (h0 : l.cursor < l.content.length)
    (hmem : (kind, [byte_at l.content l.cursor]) ∈ literal_tokens) :
    lexer_dispatch l token = .ok ({ token with kind := kind, text_len := 1 }, advance l 1) := by
  have hc : byte_at l.content l.cursor = 40 ∨ byte_at l.content l.cursor = 41 ∨
      byte_at l.content l.cursor = 123 ∨ byte_at l.content l.cursor = 125 ∨
      byte_at l.content l.cursor = 59 := by
    rw [literal_tokens_eq] at hmem
    simp at hmem
    omega
  unfold lexer_dispatch
  rw [content_at_of_lt l _ h0]
  simp only []
  rw [if_neg (by simp [isdigit]; omega), if_neg (by omega), if_neg (by omega),
    lexer_starts_with_spec l _ (by decide), starts_here_slashes,
    decide_eq_false (by omega)]
  simp only []
  rw [if_neg (by rw [is_operator_iff]; omega), scan_literal_spec l token literal_tokens (by decide)]
  rw [literal_tokens_eq] at hmem ⊢
  simp only [List.mem_cons, Prod.mk.injEq, List.cons.injEq, and_true, List.mem_nil_iff,
    or_false] at hmem
  simp only [List.find?, starts_here_single, h0, true_and]
  rcases hmem with ⟨rfl, h⟩ | ⟨rfl, h⟩ | ⟨rfl, h⟩ | ⟨rfl, h⟩ | ⟨rfl, h⟩ <;> simp [h]

/-! ## Lexer: string tokens -/

theorem byte_at_cons_zero (c : Nat) (l : List Nat) : byte_at (c :: l) 0 = c := rfl

theorem byte_at_cons_succ (c : Nat) (l : List Nat) (j : Nat) :
    byte_at (c :: l) (j + 1) = byte_at l j := rfl

theorem byte_at_drop (content : List Nat) (i j : Nat) :
    byte_at (content.drop i) j = byte_at content (i + j) := by
  simp [byte_at, List.getD, List.getElem?_drop]

/-- Where the string loop stops: none of the bytes it runs over is a newline,
and the byte it stops at, if any, is a quote or a newline. -/
theorem string_run_spec : ∀ (rest : List Nat),
    (∀ j, j < string_run rest → byte_at rest j ≠ 10) ∧
    (string_run rest < rest.length →
      byte_at rest (string_run rest) = 34 ∨ byte_at rest (string_run rest) = 10)
  | [] => by simp [string_run]
  | [c] => by
    by_cases hstop : c = 34 ∨ c = 10
    · simp only [string_run, if_pos hstop]
      exact ⟨fun j hj => absurd hj (Nat.not_lt_zero j), fun _ => hstop⟩
    · simp only [string_run, if_neg hstop, List.length_singleton]
      refine ⟨?_, fun h => absurd h (Nat.lt_irrefl 1)⟩
      intro j hj
      have : j = 0 := by omega
      subst this
      rw [byte_at_cons_zero]
      omega
  | c :: d :: rest => by
    have h1 := string_run_spec rest
    have h2 := string_run_spec (d :: rest)
    by_cases hstop : c = 34 ∨ c = 10
    · rw [string_run, if_pos hstop]
      exact ⟨fun j hj => absurd hj (Nat.not_lt_zero j), fun _ => hstop⟩
    · by_cases hesc : c = 92 ∧ (d = 110 ∨ d = 116 ∨ d = 92 ∨ d = 34 ∨ d = 39)
      · rw [string_run, if_neg hstop, if_pos hesc]
        constructor
        · intro j hj
          rcases j with _ | _ | j
          · rw [byte_at_cons_zero]; omega
          · rw [byte_at_cons_succ, byte_at_cons_zero]; omega
          · rw [byte_at_cons_succ, byte_at_cons_succ]
            exact h1.1 j (by omega)
        · intro hlt
          simp only [List.length_cons] at hlt
          rw [Nat.add_comm 2, byte_at_cons_succ, byte_at_cons_succ]
          exact h1.2 (by omega)
      · rw [string_run, if_neg hstop, if_neg hesc]
        constructor
        · intro j hj
          rcases j with _ | j
          · rw [byte_at_cons_zero]; omega
          · rw [byte_at_cons_succ]
            exact h2.1 j (by omega)
        · intro hlt
          simp only [List.length_cons] at hlt
          rw [Nat.add_comm 1, byte_at_cons_succ]
          exact h2.2 (by simp only [List.length_cons]; omega)

/-- With no quote and no newline before offset `m`, where the rest ends or has
a newline, the string loop stops exactly at `m`. -/
theorem string_run_unterminated (rest : List Nat) (m : Nat) (hm : m ≤ rest.length)
    (hfree : ∀ j, j < m → byte_at rest j ≠ 34 ∧ byte_at rest j ≠ 10)
    (hend : m = rest.length ∨ byte_at rest m = 10) : string_run rest = m := by
  obtain ⟨h1, h2⟩ := string_run_spec rest
  have hle := string_run_le rest
  rcases Nat.lt_trichotomy (string_run rest) m with hlt | heq | hgt
  · have := h2 (by omega)
    have := hfree _ hlt
    omega
  · exact heq
  · rcases hend with hend | hend
    · omega
    · exact absurd hend (h1 m hgt)

/-- The span of a string token: no byte after the opening quote is a newline,
and the token ends at the end of the input, immediately before a newline, or
with a closing quote. -/
theorem string_span_spec (content : List Nat) (cursor : Nat) (hin : cursor < content.length) :
    1 ≤ string_span content cursor ∧ cursor + string_span content cursor ≤ content.length ∧
    (∀ j, cursor < j → j < cursor + string_span content cursor → byte_at content j ≠ 10) ∧
    (cursor + string_span content cursor = content.length ∨
      byte_at content (cursor + string_span content cursor) = 10 ∨
      (2 ≤ string_span content cursor ∧
        byte_at content (cursor + string_span content cursor - 1) = 34)) ∧
    ((cursor + 1 + string_run (content.drop (cursor + 1)) = content.length ∨
        byte_at content (cursor + 1 + string_run (content.drop (cursor + 1))) = 10) →
      string_span content cursor = 1 + string_run (content.drop (cursor + 1))) := by
  obtain ⟨h1, h2⟩ := string_run_spec (content.drop (cursor + 1))
  have hle := string_run_le (content.drop (cursor + 1))
  simp only [List.length_drop, byte_at_drop] at h1 h2 hle
  unfold string_span
  simp only []
  by_cases hq : cursor + 1 + string_run (content.drop (cursor + 1)) < content.length ∧
      byte_at content (cursor + 1 + string_run (content.drop (cursor + 1))) = 34
  · rw [if_pos hq]
    refine ⟨by omega, by omega, ?_, ?_, ?_⟩
    · intro j hj1 hj2
      by_cases hj : j < cursor + 1 + string_run (content.drop (cursor + 1))
      · have := h1 (j - (cursor + 1)) (by omega)
        rwa [show cursor + 1 + (j - (cursor + 1)) = j by omega] at this
      · have : j = cursor + 1 + string_run (content.drop (cursor + 1)) := by omega
        rw [this, hq.2]
        decide
    · right; right
      refine ⟨by omega, ?_⟩
      rw [show cursor + (1 + string_run (content.drop (cursor + 1)) + 1) - 1 =
        cursor + 1 + string_run (content.drop (cursor + 1)) by omega]
      exact hq.2
    · rintro (h | h)
      · omega
      · rw [hq.2] at h
        exact absurd h (by decide)
  · rw [if_neg hq]
    refine ⟨by omega, by omega, ?_, ?_, fun _ => rfl⟩
    · intro j hj1 hj2
      have := h1 (j - (cursor + 1)) (by omega)
      rwa [show cursor + 1 + (j - (cursor + 1)) = j by omega] at this
    · by_cases hlt : cursor + 1 + string_run (content.drop (cursor + 1)) < content.length
      · right; left
        rw [show cursor + (1 + string_run (content.drop (cursor + 1))) =
          cursor + 1 + string_run (content.drop (cursor + 1)) by omega]
        rcases h2 (by omega) with h | h
        · exact absurd ⟨hlt, h⟩ hq
        · exact h
      · left; omega

theorem advance_line_keep (l : Lexer F) (k : Nat)
    (h : ∀ j, j < k → byte_at l.content (l.cursor + j) ≠ 10) : (advance l k).line = l.line := by
  induction k generalizing l with
  | zero => rfl
  | succ k ih =>
    rw [advance_succ, ih, lexer_chop_byte_line, if_neg (by simpa using h 0 (by omega))]
    · rfl
    · intro j hj
      simp only [lexer_chop_byte_content, lexer_chop_byte_cursor]
      have := h (j + 1) (by omega)
      rwa [show l.cursor + (j + 1) = l.cursor + 1 + j by omega] at this

theorem literal_tokens_not_string : ∀ e ∈ literal_tokens, e.1 ≠ Token_Kind.STRING := by
  decide

/-- Away from a quote the dispatch returns a token of another kind than
`STRING`. -/
theorem lexer_dispatch_not_string (l : Lexer F) (token : Token F) (ht : token.text = l.cursor)
    (h0 : l.cursor < l.content.length) (hq : byte_at l.content l.cursor ≠ 34) :
    ∃ n kind, kind ≠ Token_Kind.STRING ∧
      lexer_dispatch l token = .ok ({ token with kind := kind, text_len := n }, advance l n) := by
  unfold lexer_dispatch
  rw [content_at_of_lt l _ h0]
  simp only []
  by_cases hd : isdigit (byte_at l.content l.cursor) = true
  · rw [if_pos hd]
    obtain ⟨n, h1, _⟩ := scan_number_spec l token ht (by omega)
    exact ⟨n, Token_Kind.NUMBER, by decide, h1⟩
  rw [if_neg hd, if_neg hq]
  by_cases hp : byte_at l.content l.cursor = 35
  · rw [if_pos hp]
    obtain ⟨k, _, _, _, h4⟩ := scan_until_spec 32 Token_Kind.PREPROC l token ht (by omega)
    exact ⟨_, Token_Kind.PREPROC, by decide, h4⟩
  rw [if_neg hp, lexer_starts_with_spec l _ (by decide)]
  by_cases hc : starts_here l.content l.cursor (cstr "//") = true
  · rw [hc]
    simp only []
    obtain ⟨k, _, _, _, h4⟩ := scan_until_spec 10 Token_Kind.COMMENT l token ht (by omega)
    exact ⟨_, Token_Kind.COMMENT, by decide, h4⟩
  have hc' : starts_here l.content l.cursor (cstr "//") = false := by simpa using hc
  rw [hc']
  simp only []
  by_cases ho : is_operator (byte_at l.content l.cursor) = true
  · rw [if_pos ho, lexer_chop_char_ok l 1 (by omega)]
    exact ⟨1, Token_Kind.OPERATOR, by decide, rfl⟩
  rw [if_neg ho, scan_literal_spec l token literal_tokens (by decide)]
  cases hf : literal_tokens.find? (fun e => starts_here l.content l.cursor e.2) with
  | some e =>
    simp only []
    exact ⟨e.2.length, e.1, literal_tokens_not_string e (List.mem_of_find?_eq_some hf), rfl⟩
  | none =>
    simp only []
    unfold scan_fallback
    rw [content_at_of_lt l _ h0]
    simp only []
    by_cases hs : is_symbol_start (byte_at l.content l.cursor) = true
    · rw [if_pos hs]
      obtain ⟨n, _, _, _, h4⟩ := scan_symbol_spec l token ht (by omega)
      exact ⟨n, _, by split <;> decide, h4⟩
    · rw [if_neg hs, lexer_chop_char_ok l 1 (by omega)]
      exact ⟨1, Token_Kind.INVALID, by decide, rfl⟩

/-- The call at a quote, `w` bytes of whitespace having been trimmed. -/
theorem lexer_next_string_spec (l : Lexer F) (w : Nat)
    (htrim : lexer_trim_left l = .ok (advance l w))
    (hlt : l.cursor + w < l.content.length)
    (hq : byte_at l.content (l.cursor + w) = 34) :
    lexer_next l =
      .ok ({ token_init (advance l w) with
              kind := Token_Kind.STRING
              text_len := string_span l.content (l.cursor + w) },
        advance l (w + string_span l.content (l.cursor + w))) := by
  obtain ⟨h1, _⟩ := scan_string_spec (advance l w) (token_init (advance l w)) rfl
    (by simpa using hlt)
  rw [lexer_next_trimmed l _ htrim (by simpa using hlt),
    lexer_dispatch_string _ _ (by simpa using hlt) (by simpa using hq), h1, ← advance_add]
  simp

/-- A `STRING` token, from whatever valid state it is returned, starts at a
quote left by trimming and is the one `lexer_next_string_spec` describes. -/
theorem lexer_next_string_inv (l l' : Lexer F) (token : Token F)
    (h : l.cursor ≤ l.content.length) (hn : lexer_next l = .ok (token, l'))
    (hk : token.kind = Token_Kind.STRING) :
    ∃ w, l.cursor + w < l.content.length ∧ byte_at l.content (l.cursor + w) = 34 ∧
      token = { token_init (advance l w) with
                  kind := Token_Kind.STRING
                  text_len := string_span l.content (l.cursor + w) } ∧
      l' = advance l (w + string_span l.content (l.cursor + w)) := by
  obtain ⟨w, hw, _, _, htrim, hnext⟩ := lexer_next_spec l h
  rcases hnext with ⟨_, hn'⟩ | ⟨hlt, hn', _⟩
  · rw [hn'] at hn
    obtain ⟨rfl, _⟩ := Prod.mk.inj (Except.ok.inj hn)
    exact absurd hk (by simp [token_init])
  · by_cases hq : byte_at l.content (l.cursor + w) = 34
    · have := lexer_next_string_spec l w htrim hlt hq
      rw [this] at hn
      obtain ⟨rfl, rfl⟩ := Prod.mk.inj (Except.ok.inj hn)
      exact ⟨w, hlt, hq, rfl, rfl⟩
    · obtain ⟨n, kind, hkind, hd⟩ := lexer_dispatch_not_string (advance l w)
        (token_init (advance l w)) rfl (by simpa using hlt) (by simpa using hq)
      rw [hn', hd] at hn
      obtain ⟨rfl, _⟩ := Prod.mk.inj (Except.ok.inj hn)
      exact absurd hk hkind

/-- A string token holds no newline, and scanning it leaves `line` and `bol` as
they are. -/
theorem string_token_no_newline (l : Lexer F) (w : Nat)
    (hlt : l.cursor + w < l.content.length)
    (hq : byte_at l.content (l.cursor + w) = 34) :
    (∀ j, l.cursor + w ≤ j → j < l.cursor + w + string_span l.content (l.cursor + w) →
      byte_at l.content j ≠ 10) ∧
    (advance l (w + string_span l.content (l.cursor + w))).line = (advance l w).line ∧
    (advance l (w + string_span l.content (l.cursor + w))).bol = (advance l w).bol := by
  obtain ⟨_, _, h3, _⟩ := string_span_spec l.content (l.cursor + w) hlt
  have hno : ∀ j, l.cursor + w ≤ j →
      j < l.cursor + w + string_span l.content (l.cursor + w) → byte_at l.content j ≠ 10 := by
    intro j hj1 hj2
    rcases Nat.eq_or_lt_of_le hj1 with heq | hgt
    · rw [← heq, hq]; decide
    · exact h3 j hgt hj2
  have hno' : ∀ j, j < string_span l.content (l.cursor + w) →
      byte_at (advance l w).content ((advance l w).cursor + j) ≠ 10 := by
    intro j hj
    simp only [advance_content, advance_cursor]
    exact hno _ (by omega) (by omega)
  refine ⟨hno, ?_, ?_⟩
  · rw [advance_add]; exact advance_line_keep _ _ hno'
  · rw [advance_add]; exact advance_bol_keep _ _ hno'

/-- Any number of calls from a valid state return, and leave a valid state. -/
theorem lexer_next_nth_ok (k : Nat) (l : Lexer F) (h : l.cursor ≤ l.content.length) :
    ∃ token l', lexer_next_nth k l = .ok (token, l') ∧ l'.content = l.content ∧
      l'.cursor ≤ l'.content.length := by
  induction k generalizing l with
  | zero =>
    obtain ⟨token, n, hn, hfit⟩ := lexer_next_advance l h
    exact ⟨token, _, hn, by simp, by simpa using hfit⟩
  | succ k ih =>
    obtain ⟨token, n, hn, hfit⟩ := lexer_next_advance l h
    obtain ⟨token', l', h1, h2, h3⟩ := ih (advance l n) (by simpa using hfit)
    refine ⟨token', l', ?_, by simpa using h2, h3⟩
    rw [lexer_next_nth, hn]
    exact h1

theorem lexer_reachable_valid (atlas : Option (Free_Glyph_Atlas F)) (content : List Nat)
    (l : Lexer F) (hr : LexerReachable atlas content l) :
    l.content = content ∧ l.atlas = atlas ∧ l.cursor ≤ l.content.length := by
  induction hr with
  | new => exact ⟨rfl, rfl, Nat.zero_le _⟩
  | next l l' token _ hn ih =>
    obtain ⟨token', n, hn', hfit⟩ := lexer_next_advance l ih.2.2
    rw [hn'] at hn
    obtain ⟨_, rfl⟩ := Prod.mk.inj (Except.ok.inj hn)
    exact ⟨by simpa using ih.1, by simpa using ih.2.1, by simpa using hfit⟩

/-! ## Lexer: the pixel position -/

theorem line_start_le (content : List Nat) (i : Nat) : line_start content i ≤ i := by
  induction i with
  | zero => exact Nat.le_refl 0
  | succ i ih =>
    rw [line_start]
    split
    · exact Nat.le_refl _
    · omega

/-- What one iteration of `lexer_chop_char` does to `x` when an atlas is
attached. -/
theorem lexer_chop_byte_x (lex : Lexer F) (a : Free_Glyph_Atlas F) (c : Nat)
    (hat : lex.atlas = some a) :
    (lexer_chop_byte lex c).x = if c = 10 then 0 else lex.x + advance_width a c := by
  unfold lexer_chop_byte
  split
  · rfl
  · rw [hat]
    simp only [advance_width]
    by_cases h : a.capacity ≤ char_to_size_t c
    · rw [if_pos h, if_neg (by omega)]
    · rw [if_neg h, if_pos (by omega)]

/-- What one iteration of `lexer_chop_char` does to `x` without an atlas. -/
theorem lexer_chop_byte_x_none (lex : Lexer F) (c : Nat) (hat : lex.atlas = none) :
    (lexer_chop_byte lex c).x = if c = 10 then 0 else lex.x := by
  unfold lexer_chop_byte
  split
  · rfl
  · rw [hat]

theorem accumulated_x_self (a : Free_Glyph_Atlas F) (content : List Nat) (i : Nat) :
    accumulated_x a content i i = 0 := by
  simp [accumulated_x]

theorem accumulated_x_succ (a : Free_Glyph_Atlas F) (content : List Nat) (start i : Nat)
    (h1 : start ≤ i) (h2 : i < content.length) :
    accumulated_x a content start (i + 1) =
      accumulated_x a content start i + advance_width a (byte_at content i) := by
  unfold accumulated_x
  have hsub : i + 1 - start = (i - start) + 1 := by omega
  have hget : (content.drop start)[i - start]? = some (byte_at content i) := by
    rw [List.getElem?_drop, show start + (i - start) = i by omega]
    unfold byte_at
    rw [List.getD_eq_getElem?_getD, List.getElem?_eq_getElem h2]
    rfl
  rw [hsub, List.take_succ, hget]
  simp [List.foldl_append]

/-- The field `bol` is the start of the line of the cursor. -/
theorem advance_line_start (l : Lexer F) (k : Nat)
    (h : l.bol = line_start l.content l.cursor) :
    (advance l k).bol = line_start l.content (l.cursor + k) := by
  induction k generalizing l with
  | zero => exact h
  | succ k ih =>
    rw [advance_succ, ih]
    · simp only [lexer_chop_byte_content, lexer_chop_byte_cursor]
      rw [show l.cursor + 1 + k = l.cursor + (k + 1) by omega]
    · rw [lexer_chop_byte_bol, lexer_chop_byte_content, lexer_chop_byte_cursor, line_start]
      by_cases hc : byte_at l.content l.cursor = 10
      · rw [if_pos hc, if_pos hc]
      · rw [if_neg hc, if_neg hc]
        exact h

/-- With an atlas, `x` is the accumulation of the advance widths of the bytes
from the start of the line to the cursor. -/
theorem advance_x (l : Lexer F) (a : Free_Glyph_Atlas F) (k : Nat) (hat : l.atlas = some a)
    (hbol : l.bol = line_start l.content l.cursor)
    (hx : l.x = accumulated_x a l.content l.bol l.cursor)
    (hk : l.cursor + k ≤ l.content.length) :
    (advance l k).x =
      accumulated_x a l.content (line_start l.content (l.cursor + k)) (l.cursor + k) := by
  induction k generalizing l with
  | zero =>
    rw [advance_zero, hx, hbol]
    rfl
  | succ k ih =>
    have hlt : l.cursor < l.content.length := by omega
    have hbol' : (lexer_chop_byte l (byte_at l.content l.cursor)).bol =
        line_start l.content (l.cursor + 1) := by
      have := advance_line_start l 1 hbol
      rw [advance_succ, advance_zero] at this
      exact this
    rw [advance_succ, ih]
    · simp only [lexer_chop_byte_content, lexer_chop_byte_cursor]
      rw [show l.cursor + 1 + k = l.cursor + (k + 1) by omega]
    · rw [lexer_chop_byte_atlas]
      exact hat
    · rw [lexer_chop_byte_content, lexer_chop_byte_cursor]
      exact hbol'
    · rw [hbol', lexer_chop_byte_x l a _ hat, lexer_chop_byte_content, lexer_chop_byte_cursor]
      by_cases hc : byte_at l.content l.cursor = 10
      · rw [if_pos hc, line_start, if_pos hc, accumulated_x_self]
      · rw [if_neg hc, line_start, if_neg hc,
          accumulated_x_succ a l.content _ l.cursor (line_start_le _ _) hlt, hx, hbol]
    · rw [lexer_chop_byte_content, lexer_chop_byte_cursor]
      omega

/-- Without an atlas `x` stays 0. -/
theorem advance_x_none (l : Lexer F) (k : Nat) (hat : l.atlas = none) (hx : l.x = 0) :
    (advance l k).x = 0 := by
  induction k generalizing l with
  | zero => exact hx
  | succ k ih =>
    rw [advance_succ, ih]
    · rw [lexer_chop_byte_atlas]
      exact hat
    · rw [lexer_chop_byte_x_none l _ hat]
      split
      · rfl
      · exact hx

/-- The token `lexer_next` returns carries the position of the lexer after the
trimming of whitespace. -/
theorem lexer_next_position (lex : Lexer F) (h : lex.cursor ≤ lex.content.length) :
    ∃ lex1 token lex', lexer_trim_left lex = .ok lex1 ∧ lexer_next lex = .ok (token, lex') ∧
      token.text = lex1.cursor ∧ token.position_x = lex1.x ∧
      token.position_line = lex1.line := by
  obtain ⟨w, _, _, _, htrim, hcase⟩ := lexer_next_spec lex h
  rcases hcase with ⟨_, hnext⟩ | ⟨_, hnext, n, kind, _, _, _, hr⟩
  · exact ⟨_, _, _, htrim, hnext, rfl, rfl, rfl⟩
  · rw [hr] at hnext
    exact ⟨_, _, _, htrim, hnext, rfl, rfl, rfl⟩

/-! ## Lexer: claims -/

/-- C1 (totality and progress of `lexer_next`): on every buffer and every state
with `cursor ≤ content_len` the call returns (no fault, no exhausted loop
budget) and leaves the cursor inside the buffer; when the kind is not `END` the
token has at least one byte and the cursor has grown by the number of trimmed
whitespace bytes plus the token length; hence scanning returns `END` within
`content_len - cursor + 1` calls, and from `lexer_new` within `content_len + 1`
calls, after at most `content_len` other tokens. -/
theorem lexer_next_total_progress (lex : Lexer F) (h : lex.cursor ≤ lex.content_len) :
    (∃ lex1 token lex',
      lexer_trim_left lex = .ok lex1 ∧ lexer_next lex = .ok (token, lex') ∧
      lex.cursor ≤ lex1.cursor ∧ token.text = lex1.cursor ∧
      lex'.content = lex.content ∧ lex'.cursor ≤ lex'.content_len ∧
      (token.kind ≠ Token_Kind.END →
        1 ≤ token.text_len ∧
        lex'.cursor = lex.cursor + (lex1.cursor - lex.cursor) + token.text_len ∧
        lex.cursor < lex'.cursor)) ∧
    (∃ tokens last lex',
      lexer_scan (lex.content_len - lex.cursor + 1) lex = .ok (tokens, last, lex') ∧
      last.kind = Token_Kind.END ∧ tokens.length ≤ lex.content_len - lex.cursor) ∧
    (∀ (atlas : Option (Free_Glyph_Atlas F)) (content : List Nat),
      ∃ tokens last lex',
        lexer_scan (content.length + 1) (lexer_new atlas content) = .ok (tokens, last, lex') ∧
        last.kind = Token_Kind.END ∧ tokens.length ≤ content.length) := by
  have h0 : lex.cursor ≤ lex.content.length := h
  refine ⟨?_, ?_, ?_⟩
  · obtain ⟨w, hw, _, _, htrim, hnext⟩ := lexer_next_spec lex h0
    rcases hnext with ⟨hend, hn⟩ | ⟨hlt, hn, n, kind, hn1, hfit, hk, hd⟩
    · refine ⟨_, _, _, htrim, hn, by simp, by simp [token_init], by simp, ?_, ?_⟩
      · simp [Lexer.content_len]; omega
      · intro hne; exact absurd rfl hne
    · simp only [advance_cursor, advance_content] at hfit
      refine ⟨_, _, _, htrim, hn.trans hd, by simp, by simp [token_init], by simp, ?_, ?_⟩
      · simp [Lexer.content_len]; omega
      · intro _
        simp only [advance_cursor]
        omega
  · obtain ⟨tokens, hs, htile, _⟩ := lexer_scan_spec (lex.content_len - lex.cursor + 1) lex h0
      (by simp [Lexer.content_len])
    exact ⟨tokens, _, _, hs, rfl, tiles_length _ _ _ htile⟩
  · intro atlas content
    obtain ⟨tokens, hs, htile, _⟩ := lexer_scan_spec (content.length + 1)
      (lexer_new atlas content : Lexer F) (by simp [lexer_new]) (by simp [lexer_new])
    exact ⟨tokens, _, _, hs, rfl, by simpa [lexer_new] using tiles_length _ _ _ htile⟩

/-- C1 at a concrete state: the cursor stands in front of ` x` in the buffer
`int x`. -/
theorem lexer_next_total_progress_witness :
    ∃ token lex',
      lexer_next ({ atlas := none, content := cstr "int x", cursor := 3, line := 0, bol := 0,
                    x := 0 } : Lexer Nat) = .ok (token, lex') ∧
      lex'.cursor ≤ lex'.content_len :=
  let ⟨_, token, lex', _, h2, _, _, _, h6, _⟩ :=
    (lexer_next_total_progress
      ({ atlas := none, content := cstr "int x", cursor := 3, line := 0, bol := 0, x := 0 } :
        Lexer Nat) (by decide)).1
  ⟨token, lex', h2, h6⟩

/-- C2 (span coverage): a call on a valid state returns a token that starts at
the cursor left by `lexer_trim_left`, whose length is the number of bytes
consumed after trimming, and the trimmed bytes are whitespace; scanning a
buffer from `lexer_new` until `END` yields tokens of at least one byte whose
spans lie inside the buffer, each starting at or after the end of the one
before (increasing, no overlap); every byte is whitespace or lies in a span, and
a byte that is not whitespace lies in the span of exactly one token. -/
theorem lexer_scan_span_coverage (atlas : Option (Free_Glyph_Atlas F)) (content : List Nat) :
    (∀ lex : Lexer F, lex.content = content → lex.cursor ≤ content.length →
      ∃ lex1 token lex',
        lexer_trim_left lex = .ok lex1 ∧ lexer_next lex = .ok (token, lex') ∧
        token.text = lex1.cursor ∧ lex'.cursor = lex1.cursor + token.text_len ∧
        token.text + token.text_len ≤ content.length ∧
        ∀ j, lex.cursor ≤ j → j < token.text → isspace (byte_at content j) = true) ∧
    ∃ tokens last lex',
      lexer_scan (content.length + 1) (lexer_new atlas content) = .ok (tokens, last, lex') ∧
      last.kind = Token_Kind.END ∧
      (∀ t ∈ tokens, 1 ≤ t.text_len ∧ t.text + t.text_len ≤ content.length) ∧
      tokens.Pairwise (fun a b => a.text < b.text ∧ a.text + a.text_len ≤ b.text) ∧
      (∀ j, j < content.length →
        isspace (byte_at content j) = true ∨ ∃ t ∈ tokens, in_span t j) ∧
      (∀ j, j < content.length → isspace (byte_at content j) = false →
        ∃ i, ∃ hi : i < tokens.length, in_span tokens[i] j ∧
          ∀ i' (hi' : i' < tokens.length), in_span tokens[i'] j → i' = i) := by
  constructor
  · rintro lex rfl h0
    obtain ⟨w, hw, hsp, _, htrim, hnext⟩ := lexer_next_spec lex h0
    have hgap : ∀ j, lex.cursor ≤ j → j < lex.cursor + w →
        isspace (byte_at lex.content j) = true := by
      intro j hj hlt
      have := hsp (j - lex.cursor) (by omega)
      rwa [show lex.cursor + (j - lex.cursor) = j by omega] at this
    rcases hnext with ⟨hend, hn⟩ | ⟨hlt, hn, n, kind, hn1, hfit, hk, hd⟩
    · exact ⟨_, _, _, htrim, hn, by simp [token_init], by simp [token_init],
        by simp [token_init]; omega, by simpa [token_init] using hgap⟩
    · simp only [advance_cursor, advance_content] at hfit
      exact ⟨_, _, _, htrim, hn.trans hd, by simp [token_init], by simp,
        by simp [token_init]; omega, by simpa [token_init] using hgap⟩
  · obtain ⟨tokens, hs, htile, _⟩ := lexer_scan_spec (content.length + 1)
      (lexer_new atlas content : Lexer F) (by simp [lexer_new]) (by simp [lexer_new])
    simp only [lexer_new] at htile
    have hmem := tiles_mem _ _ _ htile
    have hpw := tiles_pairwise _ _ _ htile
    have hpw' : tokens.Pairwise (fun a b => a.text < b.text ∧ a.text + a.text_len ≤ b.text) := by
      rw [List.pairwise_iff_getElem] at hpw ⊢
      intro i j hi hj hij
      have h1 := hpw i j hi hj hij
      have h2 := (hmem tokens[i] (List.getElem_mem _)).2.1
      exact ⟨by omega, h1⟩
    refine ⟨tokens, _, _, hs, rfl, fun t ht => (hmem t ht).2, hpw', ?_, ?_⟩
    · intro j hj
      exact tiles_cover _ _ _ htile j (Nat.zero_le _) hj
    · intro j hj hns
      rcases tiles_cover _ _ _ htile j (Nat.zero_le _) hj with h | ⟨t, ht, hin⟩
      · rw [h] at hns; exact absurd hns (by decide)
      · obtain ⟨i, hi, rfl⟩ := List.getElem_of_mem ht
        refine ⟨i, hi, hin, ?_⟩
        intro i' hi' hin'
        rw [List.pairwise_iff_getElem] at hpw
        rcases Nat.lt_trichotomy i' i with hlt | heq | hgt
        · have := hpw i' i hi' hi hlt
          unfold in_span at hin hin'
          omega
        · exact heq
        · have := hpw i i' hi hi' hgt
          unfold in_span at hin hin'
          omega

/-- C3 (keyword classification): when the cursor after trimming is at an ASCII
letter or `_`, `lexer_next` returns the token that starts there and spans the
maximal run of identifier bytes (every byte of the span is alphanumeric or `_`,
the byte after it, if any, is not); its kind is `KEYWORD` exactly when its text
is an entry of the keyword table and `SYMBOL` otherwise. The buffer `int`
yields `KEYWORD`, the buffer `int2` one `SYMBOL` of length 4. -/
theorem lexer_next_keyword_classification (lex lex1 : Lexer F)
    (htrim : lexer_trim_left lex = .ok lex1)
    (h : lex.cursor ≤ lex.content_len)
    (hin : lex1.cursor < lex1.content_len)
    (hstart : is_symbol_start (byte_at lex1.content lex1.cursor) = true) :
    (∃ token lex',
      lexer_next lex = .ok (token, lex') ∧
      token.text = lex1.cursor ∧ lex'.cursor = token.text + token.text_len ∧
      1 ≤ token.text_len ∧ token.text + token.text_len ≤ lex.content_len ∧
      (∀ j, in_span token j → is_symbol (byte_at lex.content j) = true) ∧
      (token.text + token.text_len < lex.content_len →
        is_symbol (byte_at lex.content (token.text + token.text_len)) = false) ∧
      (token.kind = Token_Kind.KEYWORD ↔ token_text lex.content token ∈ keywords) ∧
      (token.kind ≠ Token_Kind.KEYWORD → token.kind = Token_Kind.SYMBOL)) ∧
    (∀ atlas : Option (Free_Glyph_Atlas F),
      token_view (lexer_next (lexer_new atlas (cstr "int") : Lexer F)) =
        some (Token_Kind.KEYWORD, 0, 3, 3)) ∧
    (∀ atlas : Option (Free_Glyph_Atlas F),
      token_view (lexer_next (lexer_new atlas (cstr "int2") : Lexer F)) =
        some (Token_Kind.SYMBOL, 0, 4, 4)) := by
  refine ⟨?_, ?_, ?_⟩
  · obtain ⟨w, _, _, _, htrim', _⟩ := lexer_next_spec lex h
    rw [htrim] at htrim'
    have hl1 : lex1 = advance lex w := Except.ok.inj htrim'
    subst hl1
    simp only [advance_cursor, advance_content, advance_content_len] at hin hstart
    obtain ⟨n, h1, h2, h3, h4, h5⟩ := lexer_next_symbol_spec lex w htrim hin hstart
    refine ⟨_, _, h5, by simp [token_init], by simp [token_init]; omega, h1,
      by simpa [token_init] using h2, ?_, ?_, ?_, ?_⟩
    · rintro j ⟨hj1, hj2⟩
      simp only [token_init, advance_cursor] at hj1 hj2
      have := h3 (j - (lex.cursor + w)) (by omega)
      rwa [show lex.cursor + w + (j - (lex.cursor + w)) = j by omega] at this
    · simpa [token_init] using h4
    · simp only [token_text, token_init, advance_cursor]
      by_cases hk : (lex.content.drop (lex.cursor + w)).take n ∈ keywords
      · simp [hk]
      · simp [hk]
    · simp only [token_init]
      by_cases hk : (lex.content.drop (lex.cursor + w)).take n ∈ keywords
      · simp [hk]
      · simp [hk]
  · intro atlas
    have := lexer_next_identifier atlas (cstr "int") (by decide) (by decide) (by decide)
    rw [this]
    rw [if_pos (by decide)]
    rfl
  · intro atlas
    have := lexer_next_identifier atlas (cstr "int2") (by decide) (by decide) (by decide)
    rw [this]
    rw [if_neg (by decide)]
    rfl

/-- C3 at a concrete state: `lexer_new` over `  int2 x`, where trimming stops at
offset 2. -/
theorem lexer_next_keyword_classification_witness :
    ∃ token lex',
      lexer_next (lexer_new none (cstr "  int2 x") : Lexer Nat) = .ok (token, lex') ∧
      token.text = 2 ∧ lex'.cursor = token.text + token.text_len ∧
      (token.kind = Token_Kind.KEYWORD ↔ token_text (cstr "  int2 x") token ∈ keywords) :=
  let ⟨token, lex', h1, h2, h3, _, _, _, _, h8, _⟩ :=
    (lexer_next_keyword_classification (lexer_new none (cstr "  int2 x") : Lexer Nat)
      { atlas := none, content := cstr "  int2 x", cursor := 2, line := 0, bol := 0, x := 0 }
      (by rfl) (by decide) (by decide) (by decide)).1
  ⟨token, lex', h1, h2, h3, h8⟩

/-- C4 (idempotence at the end of input): when a call on a valid state returns
kind `END`, the token has length 0 and starts at the cursor, the cursor equals
`content_len`, and every later call returns the same token and the same lexer
state (cursor, line, bol, x and the rest). -/
theorem lexer_next_end_idempotent (lex lex' : Lexer F) (token : Token F)
    (h : lex.cursor ≤ lex.content_len)
    (hnext : lexer_next lex = .ok (token, lex'))
    (hend : token.kind = Token_Kind.END) :
    token.text_len = 0 ∧ lex'.cursor = lex'.content_len ∧ token.text = lex'.cursor ∧
    token.position_x = lex'.x ∧ token.position_line = lex'.line ∧
    lexer_next lex' = .ok (token, lex') ∧
    ∀ k, lexer_next_nth k lex' = .ok (token, lex') := by
  obtain ⟨w, hw, _, _, _, hn⟩ := lexer_next_spec lex h
  have hfix : ∀ l : Lexer F, l.cursor = l.content.length →
      lexer_next l = .ok (token_init l, l) := by
    intro l hl
    obtain ⟨w', hw', _, _, _, hn'⟩ := lexer_next_spec l (by omega)
    have : w' = 0 := by omega
    subst this
    rcases hn' with ⟨_, hn'⟩ | ⟨hlt, _⟩
    · simpa using hn'
    · omega
  rcases hn with ⟨hcur, hn⟩ | ⟨_, hn, n, kind, _, _, hk, hd⟩
  · rw [hn] at hnext
    obtain ⟨rfl, rfl⟩ := Prod.mk.inj (Except.ok.inj hnext)
    have hfix' := hfix (advance lex w) (by simpa using hcur)
    refine ⟨rfl, by simpa [Lexer.content_len] using hcur, rfl, rfl, rfl, hfix', ?_⟩
    intro k
    induction k with
    | zero => exact hfix'
    | succ k ih => rw [lexer_next_nth, hfix']; exact ih
  · rw [hn, hd] at hnext
    obtain ⟨rfl, _⟩ := Prod.mk.inj (Except.ok.inj hnext)
    exact absurd hend hk

/-- C4 at a concrete state: the cursor stands after `x` in the buffer `x` followed
by two spaces. -/
theorem lexer_next_end_idempotent_witness :
    lexer_next_nth 5
      ({ atlas := none, content := cstr "x  ", cursor := 3, line := 0, bol := 0, x := 0 } :
        Lexer Nat) =
    .ok ({ kind := Token_Kind.END, text := 3, text_len := 0, position_x := 0,
           position_line := 0 },
         { atlas := none, content := cstr "x  ", cursor := 3, line := 0, bol := 0, x := 0 }) :=
  (lexer_next_end_idempotent
    ({ atlas := none, content := cstr "x  ", cursor := 1, line := 0, bol := 0, x := 0 } :
      Lexer Nat)
    { atlas := none, content := cstr "x  ", cursor := 3, line := 0, bol := 0, x := 0 }
    { kind := Token_Kind.END, text := 3, text_len := 0, position_x := 0, position_line := 0 }
    (by decide) (by rfl) rfl).2.2.2.2.2.2 5

/-- C5 (line counting): a call of `lexer_chop_char` that returns (on any state),
and a call of `lexer_next` on a valid state, never decrease `line`: they increase it by the
number of newline bytes among the bytes consumed (from the old cursor to the new
one), and `bol` ends as the offset just after the last newline consumed (it is
unchanged when none was). After a scan from `lexer_new` until `END`, `line` is
the number of newline bytes of the buffer; it is 1 for the buffer of `// hi`,
a newline and `x`. -/
theorem lexer_line_counting (lex : Lexer F) (h : lex.cursor ≤ lex.content_len) :
    (∀ (l : Lexer F) (len : Nat) (l' : Lexer F), lexer_chop_char l len = .ok l' →
      l'.cursor = l.cursor + len ∧ l.line ≤ l'.line ∧
      l'.line = l.line + count_from l.content 10 l.cursor len ∧
      BolTracks l.content l.cursor len l.bol l'.bol) ∧
    (∃ token lex', lexer_next lex = .ok (token, lex') ∧
      lex.cursor ≤ lex'.cursor ∧ lex.line ≤ lex'.line ∧
      lex'.line = lex.line + count_from lex.content 10 lex.cursor (lex'.cursor - lex.cursor) ∧
      BolTracks lex.content lex.cursor (lex'.cursor - lex.cursor) lex.bol lex'.bol) ∧
    (∀ (atlas : Option (Free_Glyph_Atlas F)) (content : List Nat),
      ∃ tokens last lex',
        lexer_scan (content.length + 1) (lexer_new atlas content) = .ok (tokens, last, lex') ∧
        lex'.line = content.count 10) ∧
    (∀ atlas : Option (Free_Glyph_Atlas F),
      ∃ tokens last lex',
        lexer_scan 8 (lexer_new atlas (cstr "// hi\nx")) = .ok (tokens, last, lex') ∧
        lex'.line = 1) := by
  have hscan : ∀ (atlas : Option (Free_Glyph_Atlas F)) (content : List Nat),
      ∃ tokens last lex',
        lexer_scan (content.length + 1) (lexer_new atlas content) = .ok (tokens, last, lex') ∧
        lex'.line = content.count 10 := by
    intro atlas content
    obtain ⟨tokens, hs, _, _⟩ := lexer_scan_spec (content.length + 1)
      (lexer_new atlas content : Lexer F) (by simp [lexer_new]) (by simp [lexer_new])
    refine ⟨tokens, _, _, hs, ?_⟩
    rw [advance_line]
    simp [lexer_new, count_from]
  refine ⟨?_, ?_, hscan, ?_⟩
  · intro l len l' hc
    have := lexer_chop_char_eq_ok l l' len hc
    subst this
    exact ⟨by simp, by rw [advance_line]; omega, advance_line l len, advance_bol l len⟩
  · obtain ⟨token, k, hn, _⟩ := lexer_next_advance lex h
    refine ⟨token, _, hn, by simp, by rw [advance_line]; omega, ?_, ?_⟩
    · rw [advance_line]; simp
    · have := advance_bol lex k
      simpa using this
  · intro atlas
    obtain ⟨tokens, last, lex', h1, h2⟩ := hscan atlas (cstr "// hi\nx")
    exact ⟨tokens, last, lex', h1, by rw [h2]; decide⟩

/-- C5 at a concrete state: `lexer_chop_char` of three bytes over a buffer with
two newlines among them. -/
theorem lexer_line_counting_witness :
    ∃ lex' : Lexer Nat,
      lexer_chop_char (lexer_new none (cstr "a\n\nb")) 3 = .ok lex' ∧
      lex'.line = 2 ∧ lex'.bol = 3 :=
  have hc := lexer_chop_char_ok (lexer_new none (cstr "a\n\nb") : Lexer Nat) 3 (by decide)
  have hl := (lexer_line_counting (lexer_new none (cstr "a\n\nb") : Lexer Nat) (by decide)).1
    _ 3 _ hc
  ⟨_, hc, by rw [hl.2.2.1]; decide,
    hl.2.2.2.2 2 (by decide) (by decide) (by intro j' h1 h2; omega)⟩

/-- C9, amended (well-formed string literal): for every input made of a quote, a
body and a quote, where the body is a sequence of bytes other than the quote,
the backslash and the newline and of two-byte escapes (a backslash followed by
one of `n t \ " '`), the first `lexer_next` from `lexer_new` returns a `STRING`
token that spans the entire input and the next call returns `END`. The example
of the spec (a quote, `ab\"c`, a quote) has 7 bytes, and its `STRING` token spans
these 7 bytes. -/
theorem lexer_next_string_literal (atlas : Option (Free_Glyph_Atlas F))
    (pieces : List (List Nat)) (h : ∀ p ∈ pieces, is_string_piece p = true) :
    token_view (lexer_next (lexer_new atlas (34 :: (pieces.flatten ++ [34])) : Lexer F)) =
      some (Token_Kind.STRING, 0, pieces.flatten.length + 2, pieces.flatten.length + 2) ∧
    token_view (lexer_next_nth 1 (lexer_new atlas (34 :: (pieces.flatten ++ [34])) : Lexer F)) =
      some (Token_Kind.END, pieces.flatten.length + 2, 0, pieces.flatten.length + 2) ∧
    (pieces = [[97], [98], [92, 34], [99]] →
      34 :: (pieces.flatten ++ [34]) = spec_string_example ∧
      token_view (lexer_next (lexer_new atlas spec_string_example : Lexer F)) =
        some (Token_Kind.STRING, 0, 7, 7)) := by
  have hlen : (34 :: (pieces.flatten ++ [34])).length = pieces.flatten.length + 2 := by simp
  have hpos : (lexer_new atlas (34 :: (pieces.flatten ++ [34])) : Lexer F).cursor <
      (lexer_new atlas (34 :: (pieces.flatten ++ [34])) : Lexer F).content.length := by
    simp [lexer_new]
  have hq : byte_at (lexer_new atlas (34 :: (pieces.flatten ++ [34])) : Lexer F).content
      (lexer_new atlas (34 :: (pieces.flatten ++ [34])) : Lexer F).cursor = 34 := by
    simp [lexer_new, byte_at]
  have htrim := lexer_trim_left_none _ hpos (by rw [hq]; decide)
  have hspan : string_span (34 :: (pieces.flatten ++ [34])) 0 = pieces.flatten.length + 2 := by
    unfold string_span
    simp only [Nat.zero_add, List.drop_succ_cons, List.drop_zero]
    rw [string_run_pieces pieces [] h]
    have hb : byte_at (34 :: (pieces.flatten ++ [34])) (1 + pieces.flatten.length) = 34 := by
      rw [Nat.add_comm]
      simp [byte_at, List.getD_cons_succ]
    rw [if_pos ⟨by rw [hlen]; omega, hb⟩]
    omega
  obtain ⟨hs, _⟩ := scan_string_spec _ (token_init (lexer_new atlas
    (34 :: (pieces.flatten ++ [34])) : Lexer F)) rfl hpos
  have hnext : lexer_next (lexer_new atlas (34 :: (pieces.flatten ++ [34])) : Lexer F) =
      .ok ({ token_init (lexer_new atlas (34 :: (pieces.flatten ++ [34]))) with
              kind := Token_Kind.STRING, text_len := pieces.flatten.length + 2 },
        advance (lexer_new atlas (34 :: (pieces.flatten ++ [34]))) (pieces.flatten.length + 2)) := by
    unfold lexer_next
    rw [htrim]
    simp only []
    rw [if_neg (by simp [Lexer.content_len, lexer_new]), lexer_dispatch_string _ _ hpos hq, hs]
    simp only [lexer_new] at hspan ⊢
    rw [hspan]
  have hfirst : token_view (lexer_next (lexer_new atlas (34 :: (pieces.flatten ++ [34])) :
      Lexer F)) =
      some (Token_Kind.STRING, 0, pieces.flatten.length + 2, pieces.flatten.length + 2) := by
    rw [hnext]
    simp [token_view, token_init, lexer_new]
  refine ⟨hfirst, ?_, ?_⟩
  · rw [lexer_next_nth, hnext]
    simp only [lexer_next_nth]
    rw [lexer_next_at_end _ (by simp [lexer_new])]
    simp [token_view, token_init, lexer_new]
  · rintro rfl
    exact ⟨rfl, hfirst⟩

/-- C9 at a concrete input: the example of the spec. -/
theorem lexer_next_string_literal_witness :
    token_view (lexer_next (lexer_new none spec_string_example : Lexer Nat)) =
      some (Token_Kind.STRING, 0, 7, 7) ∧
    token_view (lexer_next_nth 1 (lexer_new none spec_string_example : Lexer Nat)) =
      some (Token_Kind.END, 7, 0, 7) :=
  have h := lexer_next_string_literal (none : Option (Free_Glyph_Atlas Nat))
    [[97], [98], [92, 34], [99]] (by decide)
  ⟨h.1, h.2.1⟩

/-- C9 as stated fails on the example of the spec: the input has 7 bytes, and
no call returns a `STRING` token of 8 bytes for it. -/
theorem lexer_next_string_example_not_8_bytes :
    spec_string_example.length = 7 ∧
    ¬ ∃ token lex', lexer_next (lexer_new none spec_string_example : Lexer Nat) =
        .ok (token, lex') ∧ token.kind = Token_Kind.STRING ∧ token.text_len = 8 := by
  refine ⟨rfl, ?_⟩
  rintro ⟨token, lex', h1, _, h3⟩
  have hv : token_view (lexer_next (lexer_new none spec_string_example : Lexer Nat)) =
      some (Token_Kind.STRING, 0, 7, 7) := by decide
  rw [h1] at hv
  simp only [token_view, Option.some.injEq, Prod.mk.injEq] at hv
  omega

/-- C10, what the code does on the failing input `#endif`, newline, `int x;`: the
`PREPROC` token has 11 bytes, it runs over the newline at offset 6 and over
`int` up to and including the space after it; `line` is 1 after the call. -/
theorem lexer_next_preproc_crosses_newline :
    token_view (lexer_next (lexer_new none (cstr "#endif\nint x;") : Lexer Nat)) =
      some (Token_Kind.PREPROC, 0, 11, 11) ∧
    byte_at (cstr "#endif\nint x;") 6 = 10 ∧
    (cstr "#endif\nint x;").drop 7 = cstr "int x;" := by
  decide

/-- C11 (line comment): when the buffer at the cursor left by trimming goes on
with the two bytes `//`, `lexer_next` returns a `COMMENT` token that starts at
the first `/`; no byte of the token before its last one is a newline, and the
token either ends with a newline (the first one after the `//`) or reaches the
end of the input without containing one. The buffer of `// hi`, a newline and
`x` scans as `COMMENT` (6 bytes), `SYMBOL` (`x`), `END`. -/
theorem lexer_next_line_comment (lex lex1 : Lexer F)
    (htrim : lexer_trim_left lex = .ok lex1)
    (h : lex.cursor ≤ lex.content_len)
    (hfit : lex1.cursor + 2 ≤ lex1.content_len)
    (h0 : byte_at lex1.content lex1.cursor = 47)
    (h1 : byte_at lex1.content (lex1.cursor + 1) = 47) :
    (∃ token lex',
      lexer_next lex = .ok (token, lex') ∧ token.kind = Token_Kind.COMMENT ∧
      token.text = lex1.cursor ∧ lex'.cursor = token.text + token.text_len ∧
      2 ≤ token.text_len ∧ token.text + token.text_len ≤ lex.content_len ∧
      (∀ j, token.text ≤ j → j + 1 < token.text + token.text_len →
        byte_at lex.content j ≠ 10) ∧
      (byte_at lex.content (token.text + token.text_len - 1) = 10 ∨
        (token.text + token.text_len = lex.content_len ∧
          byte_at lex.content (token.text + token.text_len - 1) ≠ 10))) ∧
    (∀ atlas : Option (Free_Glyph_Atlas F),
      scan_view (lexer_scan 8 (lexer_new atlas (cstr "// hi\nx"))) =
        some ([(Token_Kind.COMMENT, 0, 6), (Token_Kind.SYMBOL, 6, 1)],
          (Token_Kind.END, 7, 0))) := by
  refine ⟨?_, fun atlas => by rw [scan_view_any_atlas]; decide⟩
  obtain ⟨w, rfl, hw⟩ := lexer_trim_left_advance lex lex1 h htrim
  simp only [advance_cursor, advance_content, advance_content_len, Lexer.content_len] at *
  obtain ⟨k, hk1, hk2, hk3, hk4⟩ := scan_until_spec 10 Token_Kind.COMMENT (advance lex w)
    (token_init (advance lex w)) rfl (by simp; omega)
  simp only [advance_cursor, advance_content] at hk1 hk2 hk3 hk4
  have hk : 2 ≤ k := by
    rcases k with _ | _ | k
    · have := hk3 (by omega)
      simp only [Nat.add_zero] at this
      omega
    · have := hk3 (by omega)
      simp only [Nat.zero_add] at this
      omega
    · omega
  have hnext : lexer_next lex = _ :=
    (lexer_next_trimmed lex _ htrim (by simp; omega)).trans
      ((lexer_dispatch_comment _ _ (by simpa using hfit) (by simpa using h0)
        (by simpa using h1)).trans hk4)
  refine ⟨_, _, hnext, rfl, by simp [token_init], ?_, ?_, ?_, ?_, ?_⟩
  · simp only [token_init, advance_cursor, ← advance_add]
    omega
  · simp only []; split <;> omega
  · simp only [token_init, advance_cursor]; split <;> omega
  · intro j hj1 hj2
    simp only [token_init, advance_cursor] at hj1 hj2
    have := hk2 (j - (lex.cursor + w)) (by split at hj2 <;> omega)
    rwa [show lex.cursor + w + (j - (lex.cursor + w)) = j by omega] at this
  · simp only [token_init, advance_cursor]
    by_cases hlt : lex.cursor + w + k < lex.content.length
    · left
      rw [if_pos hlt, show lex.cursor + w + (k + 1) - 1 = lex.cursor + w + k by omega]
      exact hk3 hlt
    · right
      rw [if_neg hlt]
      refine ⟨by omega, ?_⟩
      have := hk2 (k - 1) (by omega)
      rwa [show lex.cursor + w + (k - 1) = lex.cursor + w + k - 1 by omega] at this

/-- C11 at a concrete state: `lexer_new` over a space, `// c`, a newline and `x`. -/
theorem lexer_next_line_comment_witness :
    ∃ token lex',
      lexer_next (lexer_new none (cstr " // c\nx") : Lexer Nat) = .ok (token, lex') ∧
      token.kind = Token_Kind.COMMENT ∧ token.text = 1 ∧
      lex'.cursor = token.text + token.text_len :=
  let ⟨token, lex', h1, h2, h3, h4, _⟩ :=
    (lexer_next_line_comment (lexer_new none (cstr " // c\nx") : Lexer Nat)
      { atlas := none, content := cstr " // c\nx", cursor := 1, line := 0, bol := 0, x := 0 }
      (by rfl) (by decide) (by decide) (by decide) (by decide)).1
  ⟨token, lex', h1, h2, h3, h4⟩

/-- C12 (number scanning): when the cursor left by trimming is at an ASCII digit,
`lexer_next` returns a `NUMBER` token that starts there and spans the maximal
run of digits: every byte of the token is a digit and the byte after it, if
any, is not. The buffer `42abc` scans as `NUMBER` (`42`), `SYMBOL` (`abc`),
`END`. -/
theorem lexer_next_number (lex lex1 : Lexer F)
    (htrim : lexer_trim_left lex = .ok lex1)
    (h : lex.cursor ≤ lex.content_len)
    (hin : lex1.cursor < lex1.content_len)
    (hdigit : isdigit (byte_at lex1.content lex1.cursor) = true) :
    (∃ token lex',
      lexer_next lex = .ok (token, lex') ∧ token.kind = Token_Kind.NUMBER ∧
      token.text = lex1.cursor ∧ lex'.cursor = token.text + token.text_len ∧
      1 ≤ token.text_len ∧ token.text + token.text_len ≤ lex.content_len ∧
      (∀ j, in_span token j → isdigit (byte_at lex.content j) = true) ∧
      (token.text + token.text_len < lex.content_len →
        isdigit (byte_at lex.content (token.text + token.text_len)) = false)) ∧
    (∀ atlas : Option (Free_Glyph_Atlas F),
      scan_view (lexer_scan 6 (lexer_new atlas (cstr "42abc"))) =
        some ([(Token_Kind.NUMBER, 0, 2), (Token_Kind.SYMBOL, 2, 3)],
          (Token_Kind.END, 5, 0))) := by
  refine ⟨?_, fun atlas => by rw [scan_view_any_atlas]; decide⟩
  obtain ⟨w, rfl, hw⟩ := lexer_trim_left_advance lex lex1 h htrim
  simp only [advance_cursor, advance_content, advance_content_len, Lexer.content_len] at *
  obtain ⟨n, hn1, hn2, hn3, hn4⟩ := scan_number_spec (advance lex w)
    (token_init (advance lex w)) rfl (by simp; omega)
  simp only [advance_cursor, advance_content] at hn1 hn2 hn3 hn4
  have hn : 1 ≤ n := by
    rcases n with _ | n
    · have := hn4 (by omega)
      simp only [Nat.add_zero] at this
      rw [hdigit] at this
      exact absurd this (by decide)
    · omega
  have hnext : lexer_next lex = _ :=
    (lexer_next_trimmed lex _ htrim (by simp; omega)).trans
      ((lexer_dispatch_number _ _ (by simp; omega) (by simpa using hdigit)).trans hn1)
  refine ⟨_, _, hnext, rfl, by simp [token_init], ?_, hn, by simpa [token_init] using hn2,
    ?_, by simpa [token_init] using hn4⟩
  · simp only [token_init, advance_cursor, ← advance_add]
    omega
  · rintro j ⟨hj1, hj2⟩
    simp only [token_init, advance_cursor] at hj1 hj2
    have := hn3 (j - (lex.cursor + w)) (by omega)
    rwa [show lex.cursor + w + (j - (lex.cursor + w)) = j by omega] at this

/-- C12 at a concrete state: `lexer_new` over two spaces and `42abc`. -/
theorem lexer_next_number_witness :
    ∃ token lex',
      lexer_next (lexer_new none (cstr "  42abc") : Lexer Nat) = .ok (token, lex') ∧
      token.kind = Token_Kind.NUMBER ∧ token.text = 2 ∧
      lex'.cursor = token.text + token.text_len :=
  let ⟨token, lex', h1, h2, h3, h4, _⟩ :=
    (lexer_next_number (lexer_new none (cstr "  42abc") : Lexer Nat)
      { atlas := none, content := cstr "  42abc", cursor := 2, line := 0, bol := 0, x := 0 }
      (by rfl) (by decide) (by decide) (by decide)).1
  ⟨token, lex', h1, h2, h3, h4⟩

/-- C13 (single-byte operators): `is_operator` holds of exactly the 19 bytes
`+ - * / % < > = ! & | ^ ~ [ ] , . : ?`; when the cursor left by trimming is at
one of them and the buffer does not go on there with `//`, `lexer_next` returns
an `OPERATOR` token of length 1 that starts there, and the cursor moves one
byte past it. So `==`, `->` and `<<` scan as two `OPERATOR` tokens each, and a
`.` is `OPERATOR` wherever it is met (`a.b` scans as `SYMBOL`, `OPERATOR`,
`SYMBOL`). -/
theorem lexer_next_operator (lex lex1 : Lexer F)
    (htrim : lexer_trim_left lex = .ok lex1)
    (h : lex.cursor ≤ lex.content_len)
    (hin : lex1.cursor < lex1.content_len)
    (hop : byte_at lex1.content lex1.cursor ∈ cstr "+-*/%<>=!&|^~[],.:?")
    (hnc : ¬ (lex1.cursor + 2 ≤ lex1.content_len ∧ byte_at lex1.content lex1.cursor = 47 ∧
      byte_at lex1.content (lex1.cursor + 1) = 47)) :
    (∃ token lex',
      lexer_next lex = .ok (token, lex') ∧ token.kind = Token_Kind.OPERATOR ∧
      token.text = lex1.cursor ∧ token.text_len = 1 ∧ lex'.cursor = lex1.cursor + 1) ∧
    (∀ c, is_operator c = true ↔ c ∈ cstr "+-*/%<>=!&|^~[],.:?") ∧
    (cstr "+-*/%<>=!&|^~[],.:?").length = 19 ∧
    (∀ atlas : Option (Free_Glyph_Atlas F),
      scan_view (lexer_scan 3 (lexer_new atlas (cstr "=="))) =
        some ([(Token_Kind.OPERATOR, 0, 1), (Token_Kind.OPERATOR, 1, 1)],
          (Token_Kind.END, 2, 0)) ∧
      scan_view (lexer_scan 3 (lexer_new atlas (cstr "->"))) =
        some ([(Token_Kind.OPERATOR, 0, 1), (Token_Kind.OPERATOR, 1, 1)],
          (Token_Kind.END, 2, 0)) ∧
      scan_view (lexer_scan 3 (lexer_new atlas (cstr "<<"))) =
        some ([(Token_Kind.OPERATOR, 0, 1), (Token_Kind.OPERATOR, 1, 1)],
          (Token_Kind.END, 2, 0)) ∧
      scan_view (lexer_scan 4 (lexer_new atlas (cstr "a.b"))) =
        some ([(Token_Kind.SYMBOL, 0, 1), (Token_Kind.OPERATOR, 1, 1),
          (Token_Kind.SYMBOL, 2, 1)], (Token_Kind.END, 3, 0))) := by
  have hops : cstr "+-*/%<>=!&|^~[],.:?" =
      [43, 45, 42, 47, 37, 60, 62, 61, 33, 38, 124, 94, 126, 91, 93, 44, 46, 58, 63] := by
    decide
  have hiff : ∀ c, is_operator c = true ↔ c ∈ cstr "+-*/%<>=!&|^~[],.:?" := by
    intro c
    rw [is_operator_iff, hops]
    simp
  refine ⟨?_, hiff, by rw [hops]; rfl, fun atlas => ?_⟩
  · obtain ⟨w, rfl, hw⟩ := lexer_trim_left_advance lex lex1 h htrim
    have hnext : lexer_next lex = _ :=
      (lexer_next_trimmed lex _ htrim (by simpa [Lexer.content_len] using hin)).trans
        (lexer_dispatch_operator _ _ (by simpa [Lexer.content_len] using hin)
          ((hiff _).mpr hop) (by simpa [Lexer.content_len] using hnc))
    exact ⟨_, _, hnext, rfl, by simp [token_init], rfl, by simp⟩
  · refine ⟨?_, ?_, ?_, ?_⟩ <;> (rw [scan_view_any_atlas]; decide)

/-- C13 at a concrete state: `lexer_new` over a space and `/=`. -/
theorem lexer_next_operator_witness :
    ∃ token lex',
      lexer_next (lexer_new none (cstr " /=") : Lexer Nat) = .ok (token, lex') ∧
      token.kind = Token_Kind.OPERATOR ∧ token.text = 1 ∧ token.text_len = 1 ∧
      lex'.cursor = 2 :=
  (lexer_next_operator (lexer_new none (cstr " /=") : Lexer Nat)
    { atlas := none, content := cstr " /=", cursor := 1, line := 0, bol := 0, x := 0 }
    (by rfl) (by decide) (by decide) (by decide) (by decide)).1

/-- C14 (dispatch scenario and literal table): the literal table is `(`, `)`,
`{`, `}`, `;` with the kinds `OPEN_PAREN`, `CLOSE_PAREN`, `OPEN_CURLY`,
`CLOSE_CURLY`, `SEMICOLON`; when the cursor left by trimming is at the byte of an
entry, `lexer_next` returns a token of the kind of the entry and of length 1
that starts there. The 9-byte buffer `if(x){y;}` scans as `KEYWORD` `if`,
`OPEN_PAREN`, `SYMBOL` `x`, `CLOSE_PAREN`, `OPEN_CURLY`, `SYMBOL` `y`,
`SEMICOLON`, `CLOSE_CURLY` and then `END`. -/
theorem lexer_next_literal_tokens (lex lex1 : Lexer F) (kind : Token_Kind)
    (htrim : lexer_trim_left lex = .ok lex1)
    (h : lex.cursor ≤ lex.content_len)
    (hin : lex1.cursor < lex1.content_len)
    (hmem : (kind, [byte_at lex1.content lex1.cursor]) ∈ literal_tokens) :
    (∃ token lex',
      lexer_next lex = .ok (token, lex') ∧ token.kind = kind ∧
      token.text = lex1.cursor ∧ token.text_len = 1 ∧ lex'.cursor = lex1.cursor + 1) ∧
    literal_tokens =
      [(Token_Kind.OPEN_PAREN, [40]), (Token_Kind.CLOSE_PAREN, [41]),
       (Token_Kind.OPEN_CURLY, [123]), (Token_Kind.CLOSE_CURLY, [125]),
       (Token_Kind.SEMICOLON, [59])] ∧
    cstr "()\x7b\x7d;" = [40, 41, 123, 125, 59] ∧
    (cstr "if(x)\x7by;\x7d").length = 9 ∧
    (∀ atlas : Option (Free_Glyph_Atlas F),
      scan_view (lexer_scan 10 (lexer_new atlas (cstr "if(x)\x7by;\x7d"))) =
        some ([(Token_Kind.KEYWORD, 0, 2), (Token_Kind.OPEN_PAREN, 2, 1),
          (Token_Kind.SYMBOL, 3, 1), (Token_Kind.CLOSE_PAREN, 4, 1),
          (Token_Kind.OPEN_CURLY, 5, 1), (Token_Kind.SYMBOL, 6, 1),
          (Token_Kind.SEMICOLON, 7, 1), (Token_Kind.CLOSE_CURLY, 8, 1)],
          (Token_Kind.END, 9, 0))) := by
  refine ⟨?_, literal_tokens_eq, by decide, by decide,
    fun atlas => by rw [scan_view_any_atlas]; decide⟩
  obtain ⟨w, rfl, hw⟩ := lexer_trim_left_advance lex lex1 h htrim
  have hnext : lexer_next lex = _ :=
    (lexer_next_trimmed lex _ htrim (by simpa [Lexer.content_len] using hin)).trans
      (lexer_dispatch_literal _ _ kind (by simpa [Lexer.content_len] using hin) hmem)
  exact ⟨_, _, hnext, rfl, by simp [token_init], rfl, by simp⟩

/-- C14 at a concrete state: `lexer_new` over a space and `{x`. -/
theorem lexer_next_literal_tokens_witness :
    ∃ token lex',
      lexer_next (lexer_new none (cstr " \x7bx") : Lexer Nat) = .ok (token, lex') ∧
      token.kind = Token_Kind.OPEN_CURLY ∧ token.text = 1 ∧ token.text_len = 1 ∧
      lex'.cursor = 2 :=
  (lexer_next_literal_tokens (lexer_new none (cstr " \x7bx") : Lexer Nat)
    { atlas := none, content := cstr " \x7bx", cursor := 1, line := 0, bol := 0, x := 0 }
    Token_Kind.OPEN_CURLY (by rfl) (by decide) (by decide) (by decide)).1

/-- C16 (unterminated string tolerance): when the cursor left by trimming is at a
quote, `lexer_next` returns (no fault) a token of kind `STRING` that starts
there. The token ends at the end of the input, or immediately before a newline
(which is not consumed), or with a closing quote; when the string loop stops at
the end of the input or at a newline, the span ends at that very offset; in
particular, when no quote stands between the opening quote and the next newline
(or the end of the input), the span ends immediately before that newline (at the
end of the input). No byte of the token is a newline and the call leaves `line`
and `bol` as trimming left them. And whatever valid state a `STRING` token is
returned from, it contains no newline and `line` after the call is the line of
the token start. -/
theorem lexer_next_unterminated_string (lex lex1 : Lexer F)
    (htrim : lexer_trim_left lex = .ok lex1)
    (h : lex.cursor ≤ lex.content_len)
    (hin : lex1.cursor < lex1.content_len)
    (hquote : byte_at lex1.content lex1.cursor = 34) :
    (∃ token lex',
      lexer_next lex = .ok (token, lex') ∧ token.kind = Token_Kind.STRING ∧
      token.text = lex1.cursor ∧ lex'.cursor = token.text + token.text_len ∧
      1 ≤ token.text_len ∧ token.text + token.text_len ≤ lex.content_len ∧
      (∀ j, in_span token j → byte_at lex.content j ≠ 10) ∧
      lex'.line = lex1.line ∧ lex'.bol = lex1.bol ∧
      (token.text + token.text_len = lex.content_len ∨
        byte_at lex.content (token.text + token.text_len) = 10 ∨
        (2 ≤ token.text_len ∧ byte_at lex.content (token.text + token.text_len - 1) = 34)) ∧
      ((token.text + 1 + string_run (lex.content.drop (token.text + 1)) = lex.content_len ∨
          byte_at lex.content
            (token.text + 1 + string_run (lex.content.drop (token.text + 1))) = 10) →
        token.text_len = 1 + string_run (lex.content.drop (token.text + 1))) ∧
      (∀ m, token.text < m → m ≤ lex.content_len →
        (∀ j, token.text < j → j < m →
          byte_at lex.content j ≠ 34 ∧ byte_at lex.content j ≠ 10) →
        (m = lex.content_len ∨ byte_at lex.content m = 10) →
        token.text + token.text_len = m)) ∧
    (∀ (l l' : Lexer F) (token : Token F), l.cursor ≤ l.content_len →
      lexer_next l = .ok (token, l') → token.kind = Token_Kind.STRING →
      (∀ j, in_span token j → byte_at l.content j ≠ 10) ∧ l'.line = token.position_line) := by
  constructor
  · obtain ⟨w, rfl, hw⟩ := lexer_trim_left_advance lex lex1 h htrim
    simp only [advance_cursor, advance_content, advance_content_len, Lexer.content_len] at *
    obtain ⟨s1, s2, _, s4, s5⟩ := string_span_spec lex.content (lex.cursor + w) hin
    obtain ⟨n1, n2, n3⟩ := string_token_no_newline lex w hin hquote
    refine ⟨_, _, lexer_next_string_spec lex w htrim hin hquote, rfl, by simp [token_init],
      by simp [token_init]; omega, s1, by simpa [token_init] using s2, ?_, n2, n3,
      by simpa [token_init] using s4, by simpa [token_init] using s5, ?_⟩
    · rintro j ⟨hj1, hj2⟩
      simp only [token_init, advance_cursor] at hj1 hj2
      exact n1 j hj1 hj2
    · intro m hm1 hm2 hfree hend
      simp only [token_init, advance_cursor] at hm1 hfree ⊢
      have hrun := string_run_unterminated (lex.content.drop (lex.cursor + w + 1))
        (m - (lex.cursor + w + 1)) (by simp only [List.length_drop]; omega)
        (by
          intro j hj
          rw [byte_at_drop]
          exact hfree _ (by omega) (by omega))
        (by
          rcases hend with hend | hend
          · left; simp only [List.length_drop]; omega
          · right
            rw [byte_at_drop, show lex.cursor + w + 1 + (m - (lex.cursor + w + 1)) = m by omega]
            exact hend)
      have := s5 (by
        rw [hrun, show lex.cursor + w + 1 + (m - (lex.cursor + w + 1)) = m by omega]
        exact hend)
      rw [this, hrun]
      omega
  · intro l l' token hl hn hk
    obtain ⟨w, hlt, hq, rfl, rfl⟩ := lexer_next_string_inv l l' token hl hn hk
    obtain ⟨n1, n2, _⟩ := string_token_no_newline l w hlt hq
    refine ⟨?_, by simpa [token_init] using n2⟩
    rintro j ⟨hj1, hj2⟩
    simp only [token_init, advance_cursor] at hj1 hj2
    exact n1 j hj1 hj2

/-- C16 at a concrete state: `lexer_new` over a space, a quote, `ab` and a
newline: the token is the quote and `ab`, the newline stays. -/
theorem lexer_next_unterminated_string_witness :
    ∃ token lex',
      lexer_next (lexer_new none [32, 34, 97, 98, 10] : Lexer Nat) = .ok (token, lex') ∧
      token.kind = Token_Kind.STRING ∧ token.text = 1 ∧ token.text + token.text_len = 4 ∧
      lex'.line = 0 :=
  let ⟨token, lex', h1, h2, h3, _, _, _, _, h8, _, _, _, h12⟩ :=
    (lexer_next_unterminated_string (lexer_new none [32, 34, 97, 98, 10] : Lexer Nat)
      { atlas := none, content := [32, 34, 97, 98, 10], cursor := 1, line := 0, bol := 0,
        x := 0 }
      (by rfl) (by decide) (by decide) (by decide)).1
  have h3' : token.text = 1 := h3
  ⟨token, lex', h1, h2, h3',
    h12 4 (by rw [h3']; decide) (by decide)
      (by
        intro j hj1 hj2
        rw [h3'] at hj1
        have : j = 2 ∨ j = 3 := by omega
        rcases this with rfl | rfl <;> decide)
      (Or.inr (by decide)),
    h8⟩

/-- C17 (bounds safety of the lexer): in the embedding a failed assertion of
`lexer_chop_char` and a read of `content` at an index that is not below
`content_len` make the call return a fault. For every buffer and every state
reachable from `lexer_new` by calls of `lexer_next`: the state is over the same
buffer with `cursor ≤ content_len`, `lexer_trim_left` and `lexer_next` return
without any fault, and the state after the call again has `cursor ≤
content_len`. So does call number `k + 1` from `lexer_new`, for every `k`. -/
theorem lexer_bounds_safety (atlas : Option (Free_Glyph_Atlas F)) (content : List Nat)
    (l : Lexer F) (hr : LexerReachable atlas content l) :
    l.content = content ∧ l.cursor ≤ l.content_len ∧
    (∃ l1, lexer_trim_left l = .ok l1 ∧ l1.cursor ≤ l1.content_len) ∧
    (∃ token l', lexer_next l = .ok (token, l') ∧ l'.content = content ∧
      l'.cursor ≤ l'.content_len ∧ token.text + token.text_len ≤ l'.content_len) ∧
    (∀ e, lexer_next l ≠ .error e) ∧
    (∀ k, ∃ token l', lexer_next_nth k (lexer_new atlas content) = .ok (token, l') ∧
      l'.content = content ∧ l'.cursor ≤ l'.content_len) := by
  obtain ⟨hc, _, hv⟩ := lexer_reachable_valid atlas content l hr
  obtain ⟨w, hw, _, _, htrim, hnext⟩ := lexer_next_spec l hv
  have hnext' : ∃ token l', lexer_next l = .ok (token, l') ∧ l'.content = content ∧
      l'.cursor ≤ l'.content_len ∧ token.text + token.text_len ≤ l'.content_len := by
    rcases hnext with ⟨_, hn⟩ | ⟨_, hn, n, kind, _, hfit, _, hd⟩
    · exact ⟨_, _, hn, by simpa using hc, by simpa [Lexer.content_len] using hw,
        by simpa [Lexer.content_len, token_init] using hw⟩
    · simp only [advance_cursor, advance_content] at hfit
      exact ⟨_, _, hn.trans hd, by simpa using hc, by simpa [Lexer.content_len] using hfit,
        by simpa [Lexer.content_len, token_init] using hfit⟩
  refine ⟨hc, hv, ⟨_, htrim, by simpa [Lexer.content_len] using hw⟩, hnext', ?_, ?_⟩
  · intro e he
    obtain ⟨token, l', hn, _⟩ := hnext'
    rw [hn] at he
    cases he
  · intro k
    obtain ⟨token, l', h1, h2, h3⟩ := lexer_next_nth_ok k (lexer_new atlas content : Lexer F)
      (Nat.zero_le _)
    exact ⟨token, l', h1, h2, h3⟩

/-- C17 at a concrete state: the state left by the first call over `ab cd`. -/
theorem lexer_bounds_safety_witness :
    ∃ token l',
      lexer_next ({ atlas := none, content := cstr "ab cd", cursor := 2, line := 0, bol := 0,
                    x := 0 } : Lexer Nat) = .ok (token, l') ∧
      l'.cursor ≤ l'.content_len :=
  let ⟨token, l', h1, _, h3, _⟩ :=
    (lexer_bounds_safety none (cstr "ab cd")
      ({ atlas := none, content := cstr "ab cd", cursor := 2, line := 0, bol := 0, x := 0 } :
        Lexer Nat)
      (LexerReachable.next (lexer_new none (cstr "ab cd")) _
        { kind := Token_Kind.SYMBOL, text := 0, text_len := 2, position_x := 0,
          position_line := 0 }
        LexerReachable.new (by rfl))).2.2.2.1
  ⟨token, l', h1, h3⟩

/-- C22: token start position. The token `lexer_next` returns carries the `x`
and the line the lexer has after the trimming of whitespace, before the body of
the token is consumed. For every buffer scanned from `lexer_new`, the
`position.x` of every token returned, `END` included, is the left-to-right
accumulation, starting from 0, of the advance widths of the bytes from the
start of the line of the token (offset 0, or just after the most recent newline
before the token) to the start of the token, where a byte whose value is
outside the metrics table has the width of `?`; without an atlas it is 0; and
the line `position.y` is computed from is the number of newlines before the
start of the token. -/
theorem lexer_token_position (atlas : Option (Free_Glyph_Atlas F)) (content : List Nat) :
    (∀ lex : Lexer F, lex.cursor ≤ lex.content_len →
      ∃ lex1 token lex', lexer_trim_left lex = .ok lex1 ∧
        lexer_next lex = .ok (token, lex') ∧ token.text = lex1.cursor ∧
        token.position_x = lex1.x ∧ token.position_line = lex1.line) ∧
    (∃ tokens last lex',
      lexer_scan (content.length + 1) (lexer_new atlas content) = .ok (tokens, last, lex') ∧
      last.kind = Token_Kind.END ∧
      ∀ t ∈ tokens ++ [last],
        (∀ a, atlas = some a →
          t.position_x = accumulated_x a content (line_start content t.text) t.text) ∧
        (atlas = none → t.position_x = 0) ∧
        t.position_line = count_from content 10 0 t.text) ∧
    (∀ (a : Free_Glyph_Atlas F) (c : Nat), c < 256 → a.capacity ≤ c →
      advance_width a c = a.metrics 63) ∧
    (∀ (a : Free_Glyph_Atlas F) (c : Nat), c < 128 → c < a.capacity →
      advance_width a c = a.metrics c) ∧
    (∀ (a : Free_Glyph_Atlas F) (c : Nat), 128 ≤ c → c < 256 → a.capacity ≤ 2 ^ 64 - 128 →
      advance_width a c = a.metrics 63) ∧
    position_view (lexer_scan 8
        (lexer_new (some ({ capacity := 128, metrics := fun i => i } : Free_Glyph_Atlas Nat))
          [97, 32, 200, 98, 10, 32, 99])) =
      some [(0, 0, 0), (2, 129, 0), (3, 192, 0), (6, 32, 1), (7, 131, 1)] := by
  refine ⟨fun lex h => lexer_next_position lex h, ?_, ?_, ?_, ?_, ?_⟩
  · obtain ⟨tokens, hscan, htiles, hpos⟩ :=
      lexer_scan_spec (content.length + 1) (lexer_new atlas content) (Nat.zero_le _)
        (by simp [lexer_new])
    have hall : ∀ k, k ≤ content.length →
        (∀ a, atlas = some a → (advance (lexer_new atlas content) k).x =
          accumulated_x a content (line_start content k) k) ∧
        (atlas = none → (advance (lexer_new atlas content) k).x = 0) ∧
        (advance (lexer_new atlas content) k).line = count_from content 10 0 k := by
      intro k hk
      refine ⟨?_, ?_, ?_⟩
      · intro a ha
        have := advance_x (lexer_new atlas content) a k ha rfl
          (accumulated_x_self a content 0).symm (by simpa [lexer_new] using hk)
        simpa [lexer_new] using this
      · intro ha
        exact advance_x_none (lexer_new atlas content) k ha rfl
      · have := advance_line (lexer_new atlas content) k
        simpa [lexer_new] using this
    refine ⟨tokens, _, _, hscan, rfl, ?_⟩
    intro t ht
    rcases List.mem_append.mp ht with ht | ht
    · obtain ⟨_, hx, hl⟩ := hpos t ht
      have hle : t.text ≤ content.length := by
        have := tiles_mem _ tokens _ htiles t ht
        simp only [lexer_new] at this
        omega
      have h := hall t.text hle
      simp only [lexer_new, Nat.sub_zero] at hx hl
      simp only [lexer_new] at h
      rw [hx, hl]
      exact h
    · simp only [List.mem_singleton] at ht
      subst ht
      have h := hall content.length (Nat.le_refl _)
      simp only [lexer_new, Nat.sub_zero] at h ⊢
      simpa [token_init] using h
  · intro a c hc hcap
    have hle : c ≤ char_to_size_t c := by
      unfold char_to_size_t
      split <;> omega
    unfold advance_width
    rw [if_neg (by omega)]
  · intro a c hc hcap
    have hc' : char_to_size_t c = c := by
      unfold char_to_size_t
      rw [if_pos hc]
    unfold advance_width
    rw [hc', if_pos hcap]
  · intro a c h1 h2 hcap
    have hc : char_to_size_t c = 2 ^ 64 - 256 + c := by
      unfold char_to_size_t
      rw [if_neg (by omega)]
    unfold advance_width
    rw [hc, if_neg (by omega)]
  · decide

/-! ## Arena: lemmas -/

theorem size_units_lt (size_bytes : Nat) : size_units size_bytes < 2 ^ 61 := by
  unfold size_units SIZE_MOD
  omega

theorem region_capacity_eq_max (size : Nat) :
    region_capacity size = max REGION_DEFAULT_CAPACITY size := by
  unfold region_capacity
  split <;> omega

theorem region_capacity_ge (size : Nat) : size ≤ region_capacity size := by
  rw [region_capacity_eq_max]; omega

/-- The loop of `arena_alloc` stops at the first region from `end` on that
passes the test, or at the last region of the chain. -/
theorem arena_alloc_walk_spec (regions : List Region) (size fuel e : Nat)
    (he : e < regions.length) (hfuel : regions.length - e ≤ fuel) :
    ∃ j, arena_alloc_walk regions size fuel e = .ok j ∧ e ≤ j ∧ j < regions.length ∧
      (∀ k, e ≤ k → k < j → ¬ has_room_mod regions size k) ∧
      (has_room_mod regions size j ∨ j + 1 = regions.length) := by
  induction fuel generalizing e with
  | zero => omega
  | succ fuel ih =>
    rw [arena_alloc_walk, List.getElem?_eq_getElem he]
    simp only []
    by_cases hc : (regions[e].count + size) % SIZE_MOD > regions[e].capacity ∧
        e + 1 < regions.length
    · rw [if_pos hc]
      obtain ⟨j, h1, h2, h3, h4, h5⟩ := ih (e + 1) hc.2 (by omega)
      refine ⟨j, h1, by omega, h3, ?_, h5⟩
      intro k hk1 hk2
      rcases Nat.eq_or_lt_of_le hk1 with rfl | hlt
      · rintro ⟨r, hr, hfit⟩
        rw [List.getElem?_eq_getElem he] at hr
        cases hr
        omega
      · exact h4 k (by omega) hk2
    · rw [if_neg hc]
      refine ⟨e, rfl, Nat.le_refl _, he, by intro k h1 h2; omega, ?_⟩
      by_cases hfit : (regions[e].count + size) % SIZE_MOD ≤ regions[e].capacity
      · exact Or.inl ⟨regions[e], List.getElem?_eq_getElem he, hfit⟩
      · right
        have : ¬ e + 1 < regions.length := fun h => hc ⟨by omega, h⟩
        omega

/-- What `new_region` returns: the failed assertion when `malloc` returns
`NULL`, the write outside of the block when the block has fewer than the 24
bytes of the header, and otherwise the region set up in the block. -/
theorem new_region_cases (malloc : Nat → Option (Nat → Nat)) (capacity : Nat) :
    (malloc ((24 + 8 * capacity) % SIZE_MOD) = none ∧
      new_region malloc capacity = .error Fault.assert_failed) ∨
    (∃ content, malloc ((24 + 8 * capacity) % SIZE_MOD) = some content ∧
      (24 + 8 * capacity) % SIZE_MOD < 24 ∧
      new_region malloc capacity = .error Fault.out_of_bounds) ∨
    (∃ content, malloc ((24 + 8 * capacity) % SIZE_MOD) = some content ∧
      24 ≤ (24 + 8 * capacity) % SIZE_MOD ∧
      new_region malloc capacity = .ok (region_init content capacity)) := by
  cases hm : malloc ((24 + 8 * capacity) % SIZE_MOD) with
  | none => exact Or.inl ⟨rfl, by simp only [new_region, hm]⟩
  | some content =>
    right
    by_cases h : (24 + 8 * capacity) % SIZE_MOD < 24
    · exact Or.inl ⟨content, rfl, h, by simp only [new_region, hm, if_pos h]⟩
    · exact Or.inr ⟨content, rfl, by omega, by simp only [new_region, hm, if_neg h]⟩

/-- `new_region` returns the region set up in the block when `malloc` returns a
block and the byte size does not wrap around. -/
theorem new_region_ok (malloc : Nat → Option (Nat → Nat)) (capacity : Nat)
    (content : Nat → Nat) (hm : malloc (24 + 8 * capacity) = some content)
    (hsz : 24 + 8 * capacity < SIZE_MOD) :
    new_region malloc capacity = .ok (region_init content capacity) := by
  have hge : ¬ 24 + 8 * capacity < 24 := by omega
  simp only [new_region, Nat.mod_eq_of_lt hsz, hm, if_neg hge]

/-- A region `new_region` returned, for a capacity below `2 ^ 61` units, lies in
a block of `24 + 8 * capacity` bytes that `malloc` returned, and this size did
not wrap around. -/
theorem new_region_inv (malloc : Nat → Option (Nat → Nat)) (capacity : Nat) (r : Region)
    (hcap : capacity < 2 ^ 61) (h : new_region malloc capacity = .ok r) :
    ∃ content, malloc (24 + 8 * capacity) = some content ∧ 24 + 8 * capacity < SIZE_MOD ∧
      r = region_init content capacity := by
  rcases new_region_cases malloc capacity with ⟨_, h1⟩ | ⟨_, _, _, h1⟩ | ⟨content, hm, hge, h1⟩
  · rw [h1] at h; cases h
  · rw [h1] at h; cases h
  · rw [h1] at h
    have hlt : 24 + 8 * capacity < SIZE_MOD := by
      unfold SIZE_MOD at hge ⊢
      omega
    rw [Nat.mod_eq_of_lt hlt] at hm
    exact ⟨content, hm, hlt, (Except.ok.inj h).symm⟩

/-- `arena_alloc` on a chain with `end` at index `e`: the region `j` the loop
stops at has room and is bumped, or it is the last one and has no room; then
the call fails as `new_region` fails, or the region `new_region` returns is
appended and bumped. -/
theorem arena_alloc_from (malloc : Nat → Option (Nat → Nat)) (a : Arena) (size_bytes e : Nat)
    (hend : a.end_ = some e) (he : e < a.regions.length) :
    ∃ j, e ≤ j ∧ j < a.regions.length ∧
      (∀ k, e ≤ k → k < j → ¬ has_room_mod a.regions (size_units size_bytes) k) ∧
      ((∃ r, a.regions[j]? = some r ∧
          (r.count + size_units size_bytes) % SIZE_MOD ≤ r.capacity ∧
          arena_alloc malloc a size_bytes =
            .ok ({ region := j, offset := 8 * r.count },
              { regions := a.regions.set j
                  { r with count := (r.count + size_units size_bytes) % SIZE_MOD },
                end_ := some j })) ∨
       (¬ has_room_mod a.regions (size_units size_bytes) j ∧ j + 1 = a.regions.length ∧
          (∀ f, new_region malloc (region_capacity (size_units size_bytes)) = .error f →
            arena_alloc malloc a size_bytes = .error f) ∧
          (∀ content, new_region malloc (region_capacity (size_units size_bytes)) =
              .ok (region_init content (region_capacity (size_units size_bytes))) →
            arena_alloc malloc a size_bytes =
              .ok ({ region := a.regions.length, offset := 0 },
                { regions := a.regions ++
                    [{ region_init content (region_capacity (size_units size_bytes)) with
                        count := size_units size_bytes }],
                  end_ := some a.regions.length })))) := by
  obtain ⟨j, h1, h2, h3, h4, h5⟩ :=
    arena_alloc_walk_spec a.regions (size_units size_bytes) a.regions.length e he (by omega)
  refine ⟨j, h2, h3, h4, ?_⟩
  have hj := List.getElem?_eq_getElem h3
  unfold arena_alloc arena_alloc_begin
  simp only [hend]
  rw [h1]
  simp only []
  unfold arena_alloc_grow
  rw [hj]
  simp only []
  by_cases hfit : (a.regions[j].count + size_units size_bytes) % SIZE_MOD ≤ a.regions[j].capacity
  · left
    refine ⟨a.regions[j], rfl, hfit, ?_⟩
    rw [if_neg (by omega)]
    simp only [arena_alloc_bump, hj]
  · right
    have hnr : ¬ has_room_mod a.regions (size_units size_bytes) j := by
      rintro ⟨r, hr, hr'⟩
      rw [hj] at hr
      cases hr
      exact hfit hr'
    have hlast : j + 1 = a.regions.length := by
      rcases h5 with h | h
      · exact absurd h hnr
      · exact h
    refine ⟨hnr, hlast, ?_, ?_⟩
    · intro f hf
      rw [if_pos (by omega), if_neg (by omega), hf]
    · intro content hc
      rw [if_pos (by omega), if_neg (by omega), hc]
      simp only [arena_alloc_bump, hlast]
      have hu := size_units_lt size_bytes
      have hmod : size_units size_bytes % SIZE_MOD = size_units size_bytes := by
        unfold SIZE_MOD; omega
      simp [region_init, hmod]

/-- `arena_alloc` on the empty arena fails as `new_region` fails, or it bumps the
region `new_region` returns, which is the chain. -/
theorem arena_alloc_empty (malloc : Nat → Option (Nat → Nat)) (a : Arena) (size_bytes : Nat)
    (hend : a.end_ = none) (hreg : a.regions = []) :
    (∀ f, new_region malloc (region_capacity (size_units size_bytes)) = .error f →
      arena_alloc malloc a size_bytes = .error f) ∧
    (∀ content, new_region malloc (region_capacity (size_units size_bytes)) =
        .ok (region_init content (region_capacity (size_units size_bytes))) →
      arena_alloc malloc a size_bytes =
        .ok ({ region := 0, offset := 0 },
          { regions := [{ region_init content (region_capacity (size_units size_bytes)) with
                            count := size_units size_bytes }],
            end_ := some 0 })) := by
  have hu := size_units_lt size_bytes
  have hcap := region_capacity_ge (size_units size_bytes)
  have hmod : (0 + size_units size_bytes) % SIZE_MOD = size_units size_bytes := by
    unfold SIZE_MOD; omega
  have hmod' : size_units size_bytes % SIZE_MOD = size_units size_bytes := by
    unfold SIZE_MOD; omega
  unfold arena_alloc arena_alloc_begin
  simp only [hend, hreg, List.isEmpty_nil, if_true]
  constructor
  · intro f hf
    rw [hf]
  · intro content hc
    rw [hc]
    simp [arena_alloc_walk, arena_alloc_grow, arena_alloc_bump, region_init, hmod',
      Nat.not_lt.mpr hcap]

theorem has_room_mod_iff (regions : List Region) (u k : Nat)
    (hwrap : ∀ r ∈ regions, r.count + u < SIZE_MOD) :
    has_room_mod regions u k ↔ has_room regions u k := by
  constructor
  · rintro ⟨r, hr, h⟩
    have := hwrap r (List.getElem?_mem hr)
    rw [Nat.mod_eq_of_lt this] at h
    exact ⟨r, hr, h⟩
  · rintro ⟨r, hr, h⟩
    have := hwrap r (List.getElem?_mem hr)
    exact ⟨r, hr, by rw [Nat.mod_eq_of_lt this]; exact h⟩

/-- The region `arena_alloc` allocates from when some region from `end` on has
room: the first such region. -/
theorem arena_alloc_reuse (malloc : Nat → Option (Nat → Nat)) (a : Arena) (size_bytes e j : Nat) (r : Region)
    (hwrap : ∀ r ∈ a.regions, r.count + size_units size_bytes < SIZE_MOD)
    (hend : a.end_ = some e) (hej : e ≤ j) (hr : a.regions[j]? = some r)
    (hroom : r.count + size_units size_bytes ≤ r.capacity)
    (hfirst : ∀ k, e ≤ k → k < j → ¬ has_room a.regions (size_units size_bytes) k) :
    arena_alloc malloc a size_bytes =
      .ok ({ region := j, offset := 8 * r.count },
        { regions := a.regions.set j { r with count := r.count + size_units size_bytes },
          end_ := some j }) := by
  have hjlt : j < a.regions.length := (List.getElem?_eq_some.mp hr).1
  obtain ⟨j', h1, h2, h3, h4⟩ := arena_alloc_from malloc a size_bytes e hend (by omega)
  have hroomj : has_room a.regions (size_units size_bytes) j := ⟨r, hr, hroom⟩
  have hjj : j' = j := by
    rcases Nat.lt_trichotomy j' j with hlt | heq | hgt
    · rcases h4 with ⟨r', hr', hfit, _⟩ | ⟨_, hlast, _⟩
      · exact absurd ((has_room_mod_iff _ _ _ hwrap).mp ⟨r', hr', hfit⟩) (hfirst j' h1 hlt)
      · omega
    · exact heq
    · exact absurd ((has_room_mod_iff _ _ _ hwrap).mpr hroomj) (h3 j hej hgt)
  subst hjj
  rcases h4 with ⟨r', hr', _, halloc⟩ | ⟨hno, _, _⟩
  · rw [hr] at hr'
    cases hr'
    rw [halloc, Nat.mod_eq_of_lt (hwrap r (List.getElem?_mem hr))]
  · exact absurd ((has_room_mod_iff _ _ _ hwrap).mpr hroomj) hno

/-- What `arena_alloc` does when no region from `end` on has room: it fails as
`new_region` fails, or it appends the region `new_region` returns. -/
theorem arena_alloc_append (malloc : Nat → Option (Nat → Nat)) (a : Arena)
    (size_bytes e : Nat)
    (hwrap : ∀ r ∈ a.regions, r.count + size_units size_bytes < SIZE_MOD)
    (hend : a.end_ = some e) (he : e < a.regions.length)
    (hnone : ∀ k, e ≤ k → ¬ has_room a.regions (size_units size_bytes) k) :
    (∀ f, new_region malloc (region_capacity (size_units size_bytes)) = .error f →
      arena_alloc malloc a size_bytes = .error f) ∧
    (∀ content, new_region malloc (region_capacity (size_units size_bytes)) =
        .ok (region_init content (region_capacity (size_units size_bytes))) →
      arena_alloc malloc a size_bytes =
        .ok ({ region := a.regions.length, offset := 0 },
          { regions := a.regions ++
              [{ region_init content (region_capacity (size_units size_bytes)) with
                  count := size_units size_bytes }],
            end_ := some a.regions.length })) := by
  obtain ⟨j, h1, _, _, h4⟩ := arena_alloc_from malloc a size_bytes e hend he
  rcases h4 with ⟨r', hr', hfit, _⟩ | ⟨_, _, hfail, halloc⟩
  · exact absurd ((has_room_mod_iff _ _ _ hwrap).mp ⟨r', hr', hfit⟩) (hnone j h1)
  · exact ⟨hfail, halloc⟩

/-- The copy loop of `arena_realloc` between two ranges inside their regions,
the source not reaching into the destination: it never faults and copies. -/
theorem copy_bytes_spec (regions : List Region) (q p : Ptr) (rn ro : Region) (N : Nat)
    (hq : regions[q.region]? = some rn) (hp : regions[p.region]? = some ro)
    (hqb : 24 + q.offset + N ≤ rn.size_bytes) (hpb : 24 + p.offset + N ≤ ro.size_bytes)
    (hdis : q.region ≠ p.region ∨ p.offset + N ≤ q.offset) :
    ∀ n i regs, i + n = N → Copied regions q p rn ro i regs →
      ∃ regs', copy_bytes q p n i regs = .ok regs' ∧ Copied regions q p rn ro N regs' := by
  intro n
  induction n with
  | zero =>
    intro i regs hi hc
    have : i = N := by omega
    subst this
    exact ⟨regs, rfl, hc⟩
  | succ n ih =>
    intro i regs hi hc
    obtain ⟨hlen, hother, rn', hrn', h1, h2, h3, h4, h5⟩ := hc
    have hread : read_byte regs p i = .ok (ro.data (p.offset + i)) := by
      unfold read_byte
      by_cases hreg : p.region = q.region
      · have hro : ro = rn := by
          rw [hreg, hq] at hp
          exact (Option.some.inj hp).symm
        rw [hreg, hrn']
        simp only []
        rw [if_pos (by rw [h3, ← hro]; omega), h4 _ (Or.inl (by
          rcases hdis with h | h
          · exact absurd hreg.symm h
          · omega)), hro]
      · rw [hother _ hreg, hp]
        simp only []
        rw [if_pos (by omega)]
    have hqlt : q.region < regs.length := (List.getElem?_eq_some.mp hrn').1
    rw [copy_bytes, hread]
    simp only []
    unfold write_byte
    rw [hrn']
    simp only []
    rw [if_pos (by rw [h3]; omega)]
    simp only []
    apply ih (i + 1) _ (by omega)
    refine ⟨by simp [hlen], ?_, _, List.getElem?_set_self hqlt, h1, h2, h3, ?_, ?_⟩
    · intro k hk
      rw [List.getElem?_set_ne (Ne.symm hk)]
      exact hother k hk
    · intro x hx
      simp only []
      rw [Function.update_noteq (by omega)]
      exact h4 x (by omega)
    · intro t ht
      simp only []
      rcases Nat.lt_succ_iff_lt_or_eq.mp ht with hlt | rfl
      · rw [Function.update_noteq (by omega)]
        exact h5 t hlt
      · rw [Function.update_same]

theorem size_units_bounds (size_bytes : Nat) (hsz : size_bytes + 7 < SIZE_MOD) :
    size_bytes ≤ 8 * size_units size_bytes ∧ 8 * size_units size_bytes ≤ size_bytes + 7 := by
  unfold size_units
  unfold SIZE_MOD at *
  rw [Nat.mod_eq_of_lt (by omega)]
  omega

/-- The byte size of the region `arena_alloc` creates does not wrap around when
the request is at most `2 ^ 64 - 32` bytes. -/
theorem region_capacity_no_wrap (size_bytes : Nat) (hsz : size_bytes + 31 < SIZE_MOD) :
    24 + 8 * region_capacity (size_units size_bytes) < SIZE_MOD := by
  have hb := size_units_bounds size_bytes (by omega)
  rw [region_capacity_eq_max]
  unfold REGION_DEFAULT_CAPACITY
  unfold SIZE_MOD at *
  omega

/-- The region `arena_alloc` creates is sound when its byte size does not wrap
around. -/
theorem region_init_sound (content : Nat → Nat) (u : Nat)
    (hlt : 24 + 8 * region_capacity u < SIZE_MOD) :
    Region.sound { region_init content (region_capacity u) with count := u } := by
  refine ⟨region_capacity_ge _, ?_, ?_⟩
  · simp only [region_init]
    exact Nat.mod_eq_of_lt hlt
  · simp only [region_init]
    exact Nat.mod_lt _ (by unfold SIZE_MOD; omega)

theorem sound_no_wrap (r : Region) (hs : r.sound) (size_bytes : Nat) :
    r.count + size_units size_bytes < SIZE_MOD := by
  obtain ⟨h1, h2, h3⟩ := hs
  have := size_units_lt size_bytes
  unfold SIZE_MOD at *
  omega

theorem linked_none (a : Arena) (hlinked : a.linked) (hend : a.end_ = none) :
    a.regions = [] := by
  unfold Arena.linked at hlinked
  rw [hend] at hlinked
  exact hlinked

theorem linked_some (a : Arena) (e : Nat) (hlinked : a.linked) (hend : a.end_ = some e) :
    e < a.regions.length := by
  unfold Arena.linked at hlinked
  rw [hend] at hlinked
  exact hlinked

/-- A call of `arena_alloc` that returned either bumped a region of the chain
that passed the test, or appended and bumped a region in a block `malloc`
returned, whose byte size did not wrap around, behind a last region that did
not pass the test. -/
theorem arena_alloc_ok_cases (malloc : Nat → Option (Nat → Nat)) (a a' : Arena)
    (size_bytes : Nat) (p : Ptr) (hlinked : a.linked)
    (ha : arena_alloc malloc a size_bytes = .ok (p, a')) :
    (∃ j r, a.regions[j]? = some r ∧
      (r.count + size_units size_bytes) % SIZE_MOD ≤ r.capacity ∧
      p = { region := j, offset := 8 * r.count } ∧
      a' = { regions := a.regions.set j
               { r with count := (r.count + size_units size_bytes) % SIZE_MOD },
             end_ := some j }) ∨
    (∃ content, malloc (24 + 8 * region_capacity (size_units size_bytes)) = some content ∧
      24 + 8 * region_capacity (size_units size_bytes) < SIZE_MOD ∧
      (∀ r, a.regions[a.regions.length - 1]? = some r →
        r.capacity < (r.count + size_units size_bytes) % SIZE_MOD) ∧
      p = { region := a.regions.length, offset := 0 } ∧
      a' = { regions := a.regions ++
               [{ region_init content (region_capacity (size_units size_bytes)) with
                   count := size_units size_bytes }],
             end_ := some a.regions.length }) := by
  have hu := size_units_lt size_bytes
  have hcap : region_capacity (size_units size_bytes) < 2 ^ 61 := by
    rw [region_capacity_eq_max]; unfold REGION_DEFAULT_CAPACITY; omega
  have hnew : ∀ (P : Prop),
      (∀ f, new_region malloc (region_capacity (size_units size_bytes)) = .error f →
        arena_alloc malloc a size_bytes = .error f) →
      (∀ content, malloc (24 + 8 * region_capacity (size_units size_bytes)) = some content →
        24 + 8 * region_capacity (size_units size_bytes) < SIZE_MOD →
        new_region malloc (region_capacity (size_units size_bytes)) =
          .ok (region_init content (region_capacity (size_units size_bytes))) → P) → P := by
    intro P hfail hok
    cases hn : new_region malloc (region_capacity (size_units size_bytes)) with
    | error f =>
      rw [hfail f hn] at ha
      cases ha
    | ok r =>
      obtain ⟨content, hm, hlt, rfl⟩ := new_region_inv malloc _ r hcap hn
      exact hok content hm hlt hn
  cases hend : a.end_ with
  | none =>
    have hreg := linked_none a hlinked hend
    obtain ⟨hfail, hok⟩ := arena_alloc_empty malloc a size_bytes hend hreg
    apply hnew _ hfail
    intro content hm hlt hn
    rw [hok content hn] at ha
    obtain ⟨rfl, rfl⟩ := Prod.mk.inj (Except.ok.inj ha)
    right
    refine ⟨content, hm, hlt, ?_, by rw [hreg]; rfl, by rw [hreg]; rfl⟩
    intro r hr
    rw [hreg] at hr
    simp at hr
  | some e =>
    have he := linked_some a e hlinked hend
    obtain ⟨j, _, hj, _, h4⟩ := arena_alloc_from malloc a size_bytes e hend he
    rcases h4 with ⟨r, hr, hfit, halloc⟩ | ⟨hnot, hlast, hfail, hok⟩
    · rw [halloc] at ha
      obtain ⟨rfl, rfl⟩ := Prod.mk.inj (Except.ok.inj ha)
      exact Or.inl ⟨j, r, hr, hfit, rfl, rfl⟩
    · apply hnew _ hfail
      intro content hm hlt hn
      rw [hok content hn] at ha
      obtain ⟨rfl, rfl⟩ := Prod.mk.inj (Except.ok.inj ha)
      right
      refine ⟨content, hm, hlt, ?_, rfl, rfl⟩
      intro r hr
      have hjl : a.regions.length - 1 = j := by omega
      rw [hjl] at hr
      by_contra hcon
      exact hnot ⟨r, hr, by omega⟩

/-- A call of `arena_alloc` on an arena whose `end` agrees with the chain fails
only as `new_region` fails: neither assertion of `arena_alloc` itself fails. -/
theorem arena_alloc_error (malloc : Nat → Option (Nat → Nat)) (a : Arena) (size_bytes : Nat)
    (f : Fault) (hlinked : a.linked) (ha : arena_alloc malloc a size_bytes = .error f) :
    new_region malloc (region_capacity (size_units size_bytes)) = .error f := by
  have hnew : (∀ f, new_region malloc (region_capacity (size_units size_bytes)) = .error f →
        arena_alloc malloc a size_bytes = .error f) →
      (∀ content, new_region malloc (region_capacity (size_units size_bytes)) =
          .ok (region_init content (region_capacity (size_units size_bytes))) →
        ∃ r, arena_alloc malloc a size_bytes = .ok r) →
      new_region malloc (region_capacity (size_units size_bytes)) = .error f := by
    intro hfail hok
    rcases new_region_cases malloc (region_capacity (size_units size_bytes)) with
      ⟨_, h1⟩ | ⟨_, _, _, h1⟩ | ⟨content, _, _, h1⟩
    · rw [hfail _ h1] at ha
      rw [h1, Except.error.inj ha]
    · rw [hfail _ h1] at ha
      rw [h1, Except.error.inj ha]
    · obtain ⟨r, hr⟩ := hok content h1
      rw [hr] at ha
      cases ha
  cases hend : a.end_ with
  | none =>
    obtain ⟨hfail, hok⟩ :=
      arena_alloc_empty malloc a size_bytes hend (linked_none a hlinked hend)
    exact hnew hfail (fun content hc => ⟨_, hok content hc⟩)
  | some e =>
    obtain ⟨j, _, _, _, h4⟩ :=
      arena_alloc_from malloc a size_bytes e hend (linked_some a e hlinked hend)
    rcases h4 with ⟨r, _, _, halloc⟩ | ⟨_, _, hfail, hok⟩
    · rw [halloc] at ha
      cases ha
    · exact hnew hfail (fun content hc => ⟨_, hok content hc⟩)

/-- A call of `arena_alloc` returns when `malloc` returns a block for the region
the request may need and the byte size of that region does not wrap around. -/
theorem arena_alloc_returns (malloc : Nat → Option (Nat → Nat)) (a : Arena)
    (size_bytes : Nat) (content : Nat → Nat) (hlinked : a.linked)
    (hm : malloc (24 + 8 * region_capacity (size_units size_bytes)) = some content)
    (hlt : 24 + 8 * region_capacity (size_units size_bytes) < SIZE_MOD) :
    ∃ p a', arena_alloc malloc a size_bytes = .ok (p, a') := by
  cases h : arena_alloc malloc a size_bytes with
  | ok r => exact ⟨r.1, r.2, rfl⟩
  | error f =>
    have := arena_alloc_error malloc a size_bytes f hlinked h
    rw [new_region_ok malloc _ content hm hlt] at this
    cases this

/-- What a call of `arena_alloc` for at most `2 ^ 64 - 32` bytes that returned
did to a sound arena: the pointer `q` is at the old count `c` of a region that
has the new count `c + u` within its capacity, the other regions are untouched,
and the arena stays sound. -/
theorem arena_alloc_facts (malloc : Nat → Option (Nat → Nat)) (a a1 : Arena)
    (size_bytes : Nat) (q : Ptr)
    (hlinked : a.linked) (hsound : ∀ r ∈ a.regions, r.sound)
    (ha : arena_alloc malloc a size_bytes = .ok (q, a1)) :
    ∃ rn c, a1.regions[q.region]? = some rn ∧ q.offset = 8 * c ∧
      rn.count = c + size_units size_bytes ∧ rn.sound ∧ a1.end_ = some q.region ∧
      a.regions.length ≤ a1.regions.length ∧
      (∀ k : Nat, k ≠ q.region → a1.regions[k]? = a.regions[k]?) ∧
      (∀ r, a.regions[q.region]? = some r →
        r.count = c ∧ r.capacity = rn.capacity ∧ r.size_bytes = rn.size_bytes ∧
        r.data = rn.data) ∧
      (a.regions[q.region]? = none → c = 0 ∧ q.region = a.regions.length) := by
  rcases arena_alloc_ok_cases malloc a a1 size_bytes q hlinked ha with
    ⟨j, r, hr, hfit, rfl, rfl⟩ | ⟨content, _, hlt, _, rfl, rfl⟩
  · have hj : j < a.regions.length := (List.getElem?_eq_some.mp hr).1
    have hrs := hsound r (List.getElem?_mem hr)
    have hmod := Nat.mod_eq_of_lt (sound_no_wrap r hrs size_bytes)
    rw [hmod] at hfit
    refine ⟨{ r with count := r.count + size_units size_bytes }, r.count, ?_, rfl, rfl,
      ⟨hfit, hrs.2.1, hrs.2.2⟩, rfl, by simp, ?_, ?_, ?_⟩
    · simp only [hmod]
      exact List.getElem?_set_self hj
    · intro k hk
      exact List.getElem?_set_ne (Ne.symm hk)
    · intro r' hr'
      simp only [] at hr'
      rw [hr] at hr'
      cases hr'
      exact ⟨rfl, rfl, rfl, rfl⟩
    · intro hnone
      simp only [] at hnone
      rw [hr] at hnone
      cases hnone
  · refine ⟨_, 0, ?_, rfl, (Nat.zero_add _).symm, region_init_sound content _ hlt, rfl,
      by simp, ?_, ?_, ?_⟩
    · simp
    · intro k hk
      simp only [] at hk
      rcases Nat.lt_or_gt_of_ne hk with h | h
      · exact List.getElem?_append_left h
      · rw [List.getElem?_eq_none (by simp; omega), List.getElem?_eq_none (by omega)]
    · intro r hr
      simp only [] at hr
      rw [List.getElem?_eq_none (Nat.le_refl _)] at hr
      cases hr
    · intro _
      exact ⟨rfl, rfl⟩

/-- What a call of `arena_alloc` that returned did to an arena whose `end`
agrees with the chain and whose regions are bounded: the pointer is at the old
count `c` of a region that then holds `c + u` units within its capacity, and
the other regions are untouched. -/
theorem arena_alloc_step (malloc : Nat → Option (Nat → Nat)) (a a' : Arena)
    (size_bytes : Nat) (p : Ptr) (hlinked : a.linked) (hb : a.bounded)
    (ha : arena_alloc malloc a size_bytes = .ok (p, a')) :
    ∃ rn c, p.offset = 8 * c ∧
      a'.regions[p.region]? = some rn ∧ rn.count = c + size_units size_bytes ∧
      rn.count ≤ rn.capacity ∧ rn.capacity < 2 ^ 61 ∧ a'.end_ = some p.region ∧
      (∀ k : Nat, k ≠ p.region → a'.regions[k]? = a.regions[k]?) ∧
      (∀ r, a.regions[p.region]? = some r → r.count = c ∧ r.capacity = rn.capacity) ∧
      (a.regions[p.region]? = none → c = 0 ∧ p.region = a.regions.length) := by
  have hu := size_units_lt size_bytes
  have hcap := region_capacity_eq_max (size_units size_bytes)
  have hnewcap : region_capacity (size_units size_bytes) < 2 ^ 61 := by
    rw [hcap]; unfold REGION_DEFAULT_CAPACITY; omega
  rcases arena_alloc_ok_cases malloc a a' size_bytes p hlinked ha with
    ⟨j, r, hr, hfit, rfl, rfl⟩ | ⟨content, _, _, _, rfl, rfl⟩
  · have hj : j < a.regions.length := (List.getElem?_eq_some.mp hr).1
    have hrb := hb r (List.getElem?_mem hr)
    have hmod : (r.count + size_units size_bytes) % SIZE_MOD =
        r.count + size_units size_bytes := by
      apply Nat.mod_eq_of_lt
      unfold SIZE_MOD
      omega
    rw [hmod] at hfit
    refine ⟨{ r with count := r.count + size_units size_bytes }, r.count, rfl, ?_, rfl, hfit,
      hrb.2, rfl, ?_, ?_, ?_⟩
    · simp only [hmod]
      exact List.getElem?_set_self hj
    · intro k hk
      exact List.getElem?_set_ne (Ne.symm hk)
    · intro r' hr'
      simp only [] at hr'
      rw [hr] at hr'
      cases hr'
      exact ⟨rfl, rfl⟩
    · intro hnone
      simp only [] at hnone
      rw [hr] at hnone
      cases hnone
  · refine ⟨{ region_init content (region_capacity (size_units size_bytes)) with
        count := size_units size_bytes }, 0, rfl, by simp, (Nat.zero_add _).symm,
      region_capacity_ge _, hnewcap, rfl, ?_, ?_, ?_⟩
    · intro k hk
      simp only [] at hk
      rcases Nat.lt_or_gt_of_ne hk with h | h
      · exact List.getElem?_append_left h
      · rw [List.getElem?_eq_none (by simp; omega), List.getElem?_eq_none (by omega)]
    · intro r hr
      simp only [] at hr
      rw [List.getElem?_eq_none (Nat.le_refl _)] at hr
      cases hr
    · intro _
      exact ⟨rfl, rfl⟩

theorem write_byte_shape (regs regs' : List Region) (p : Ptr) (i v : Nat)
    (h : write_byte regs p i v = .ok regs') :
    regs'.map (fun r : Region => (r.count, r.capacity)) =
      regs.map (fun r : Region => (r.count, r.capacity)) := by
  unfold write_byte at h
  cases hr : regs[p.region]? with
  | none => rw [hr] at h; cases h
  | some r =>
    rw [hr] at h
    simp only [] at h
    split at h
    · cases h
      apply List.ext_getElem?
      intro k
      simp only [List.getElem?_map]
      by_cases hk : k = p.region
      · subst hk
        rw [List.getElem?_set_self (List.getElem?_eq_some.mp hr).1, hr]
        rfl
      · rw [List.getElem?_set_ne (Ne.symm hk)]
    · cases h

/-- The copy loop of `arena_realloc` changes no count and no capacity. -/
theorem copy_bytes_shape (q p : Ptr) (n i : Nat) (regs regs' : List Region)
    (h : copy_bytes q p n i regs = .ok regs') :
    regs'.map (fun r : Region => (r.count, r.capacity)) =
      regs.map (fun r : Region => (r.count, r.capacity)) := by
  induction n generalizing i regs with
  | zero =>
    simp only [copy_bytes, Except.ok.injEq] at h
    rw [h]
  | succ n ih =>
    rw [copy_bytes] at h
    cases hr : read_byte regs p i with
    | error e => rw [hr] at h; cases h
    | ok v =>
      rw [hr] at h
      simp only [] at h
      cases hw : write_byte regs q i v with
      | error e => rw [hw] at h; cases h
      | ok regs1 =>
        rw [hw] at h
        simp only [] at h
        rw [ih (i + 1) regs1 h, write_byte_shape regs regs1 q i v hw]

/-- A growing `arena_realloc` that returns is the `arena_alloc` of the new size,
up to the content of the storage. -/
theorem arena_realloc_grow (malloc : Nat → Option (Nat → Nat)) (a a' : Arena) (p q : Ptr) (oldsz newsz : Nat)
    (hgrow : oldsz < newsz) (h : arena_realloc malloc a p oldsz newsz = .ok (q, a')) :
    ∃ a1, arena_alloc malloc a newsz = .ok (q, a1) ∧ a'.end_ = a1.end_ ∧
      arena_shape a' = arena_shape a1 := by
  unfold arena_realloc at h
  rw [if_neg (by omega)] at h
  cases ha : arena_alloc malloc a newsz with
  | error e => rw [ha] at h; cases h
  | ok r =>
    obtain ⟨q1, a1⟩ := r
    rw [ha] at h
    simp only [] at h
    cases hc : copy_bytes q1 p oldsz 0 a1.regions with
    | error e => rw [hc] at h; cases h
    | ok regs =>
      rw [hc] at h
      simp only [Except.ok.injEq, Prod.mk.injEq] at h
      obtain ⟨rfl, rfl⟩ := h
      exact ⟨a1, rfl, rfl, copy_bytes_shape q1 p oldsz 0 a1.regions regs hc⟩

theorem mem_arena_shape (a : Arena) (r : Region) (h : r ∈ a.regions) :
    (r.count, r.capacity) ∈ arena_shape a :=
  List.mem_map.mpr ⟨r, h, rfl⟩

/-- Whether `end` agrees with the chain and the regions are bounded depends on
`end` and on the counts and capacities alone. -/
theorem arena_inv_of_shape (a a' : Arena) (hs : arena_shape a' = arena_shape a)
    (he : a'.end_ = a.end_) (h : a.linked ∧ a.bounded) : a'.linked ∧ a'.bounded := by
  have hlen : a'.regions.length = a.regions.length := by
    have := congrArg List.length hs
    simpa [arena_shape] using this
  constructor
  · have h1 := h.1
    unfold Arena.linked at h1 ⊢
    rw [he]
    cases hend : a.end_ with
    | none =>
      rw [hend] at h1
      simp only [] at h1 ⊢
      rw [h1] at hlen
      exact List.length_eq_zero.mp hlen
    | some e =>
      rw [hend] at h1
      simp only [] at h1 ⊢
      omega
  · intro r hr
    have := mem_arena_shape a' r hr
    rw [hs] at this
    obtain ⟨r0, hr0, heq⟩ := List.mem_map.mp this
    have := h.2 r0 hr0
    simp only [Prod.mk.injEq] at heq
    omega

/-- `arena_alloc` keeps `end` in agreement with the chain and the regions
bounded. -/
theorem arena_alloc_inv (malloc : Nat → Option (Nat → Nat)) (a a' : Arena) (size_bytes : Nat)
    (p : Ptr) (h : a.linked ∧ a.bounded) (ha : arena_alloc malloc a size_bytes = .ok (p, a')) :
    a'.linked ∧ a'.bounded := by
  obtain ⟨rn, c, _, h3, _, h5, h6, h7, h8, _, _⟩ :=
    arena_alloc_step malloc a a' size_bytes p h.1 h.2 ha
  constructor
  · unfold Arena.linked
    rw [h7]
    exact (List.getElem?_eq_some.mp h3).1
  · intro r hr
    obtain ⟨k, hk, rfl⟩ := List.getElem_of_mem hr
    by_cases hkp : k = p.region
    · subst hkp
      rw [List.getElem?_eq_getElem hk] at h3
      cases h3
      exact ⟨h5, h6⟩
    · have := h8 k hkp
      rw [List.getElem?_eq_getElem hk] at this
      exact h.2 _ (List.getElem?_mem this.symm)

theorem arena_reset_inv (a : Arena) (h : a.linked ∧ a.bounded) :
    (arena_reset a).linked ∧ (arena_reset a).bounded := by
  constructor
  · unfold Arena.linked arena_reset
    cases hreg : a.regions with
    | nil => simp
    | cons r rs => simp
  · intro r hr
    simp only [arena_reset, List.mem_map] at hr
    obtain ⟨r0, hr0, rfl⟩ := hr
    exact ⟨Nat.zero_le _, (h.2 r0 hr0).2⟩

/-- In every reachable arena `end` agrees with the chain and the regions are
bounded. -/
theorem arena_reachable_inv (a : Arena) (hr : ArenaReachable a) : a.linked ∧ a.bounded := by
  induction hr with
  | empty =>
    exact ⟨rfl, fun r hr => absurd hr (List.not_mem_nil r)⟩
  | alloc malloc a a' size_bytes p _ ha ih => exact arena_alloc_inv malloc a a' size_bytes p ih ha
  | realloc malloc a a' oldptr newptr oldsz newsz _ ha ih =>
    by_cases hle : newsz ≤ oldsz
    · unfold arena_realloc at ha
      rw [if_pos hle] at ha
      obtain ⟨_, rfl⟩ := Prod.mk.inj (Except.ok.inj ha)
      exact ih
    · obtain ⟨a1, h1, h2, h3⟩ := arena_realloc_grow malloc a a' oldptr newptr oldsz newsz
        (by omega) ha
      exact arena_inv_of_shape a1 a' h3 h2 (arena_alloc_inv malloc a a1 newsz newptr ih h1)
  | reset a _ ih => exact arena_reset_inv a ih
  | free a _ _ =>
    exact ⟨rfl, fun r hr => absurd hr (List.not_mem_nil r)⟩

/-- A call of `arena_alloc` that returned either kept the length of the chain or
appended one region, in a block `malloc` returned, behind a last region the
request did not fit in. -/
theorem arena_alloc_link (malloc : Nat → Option (Nat → Nat)) (a a' : Arena)
    (size_bytes : Nat) (p : Ptr) (hlinked : a.linked) (hb : a.bounded)
    (ha : arena_alloc malloc a size_bytes = .ok (p, a')) :
    a'.regions.length = a.regions.length ∨
      (∃ content,
        malloc (24 + 8 * region_capacity (size_units size_bytes)) = some content ∧
        a'.regions = a.regions ++
          [{ region_init content (region_capacity (size_units size_bytes)) with
              count := size_units size_bytes }] ∧
        p = { region := a.regions.length, offset := 0 } ∧
        ∀ r, a.regions[a.regions.length - 1]? = some r →
          r.capacity < r.count + size_units size_bytes) := by
  have hu := size_units_lt size_bytes
  rcases arena_alloc_ok_cases malloc a a' size_bytes p hlinked ha with
    ⟨j, r, hr, hfit, rfl, rfl⟩ | ⟨content, hm, _, hlast, rfl, rfl⟩
  · left
    simp
  · right
    refine ⟨content, hm, rfl, rfl, ?_⟩
    intro r hr
    have hrb := hb r (List.getElem?_mem hr)
    have := hlast r hr
    rw [Nat.mod_eq_of_lt (by unfold SIZE_MOD; omega)] at this
    exact this

theorem arena_shape_getElem? (a : Arena) (k : Nat) :
    (arena_shape a)[k]? = (a.regions[k]?).map (fun r => (r.count, r.capacity)) := by
  unfold arena_shape
  exact List.getElem?_map _ _ _

/-- One more `arena_alloc` keeps the ranges returned so far inside the occupied
part of their regions and puts the new range behind them. -/
theorem arena_alloc_ranges (malloc : Nat → Option (Nat → Nat)) (a a1 : Arena) (size_bytes : Nat) (p : Ptr)
    (hlinked : a.linked) (hb : a.bounded)
    (ha : arena_alloc malloc a size_bytes = .ok (p, a1)) (rs : List (Ptr × Nat))
    (hin : ∀ x ∈ rs, ∃ c cnt cap, x.1.offset = 8 * c ∧
      (arena_shape a)[x.1.region]? = some (cnt, cap) ∧ c + x.2 ≤ cnt ∧ cnt ≤ cap)
    (hp : rs.Pairwise ranges_disjoint) :
    (∀ x ∈ rs ++ [(p, size_units size_bytes)], ∃ c cnt cap, x.1.offset = 8 * c ∧
      (arena_shape a1)[x.1.region]? = some (cnt, cap) ∧ c + x.2 ≤ cnt ∧ cnt ≤ cap) ∧
    (rs ++ [(p, size_units size_bytes)]).Pairwise ranges_disjoint := by
  obtain ⟨rn, c, hoff, hrn, hcnt, hle, _, _, hother, hsame, _⟩ :=
    arena_alloc_step malloc a a1 size_bytes p hlinked hb ha
  have hnew : (arena_shape a1)[p.region]? = some (rn.count, rn.capacity) := by
    rw [arena_shape_getElem?, hrn]
    rfl
  have hold : ∀ x ∈ rs, (∃ c cnt cap, x.1.offset = 8 * c ∧
      (arena_shape a1)[x.1.region]? = some (cnt, cap) ∧ c + x.2 ≤ cnt ∧ cnt ≤ cap) ∧
      ranges_disjoint x (p, size_units size_bytes) := by
    intro x hx
    obtain ⟨c0, cnt, cap, hx1, hx2, hx3, hx4⟩ := hin x hx
    by_cases hk : x.1.region = p.region
    · rw [arena_shape_getElem?, hk] at hx2
      cases hr0 : a.regions[p.region]? with
      | none => rw [hr0] at hx2; cases hx2
      | some r0 =>
        rw [hr0] at hx2
        simp only [Option.map_some', Option.some.injEq, Prod.mk.injEq] at hx2
        obtain ⟨h5, h6⟩ := hsame r0 hr0
        refine ⟨⟨c0, rn.count, rn.capacity, hx1, ?_, by omega, hle⟩, ?_⟩
        · rw [hk]
          exact hnew
        · right
          left
          show x.1.offset + 8 * x.2 ≤ p.offset
          omega
    · refine ⟨⟨c0, cnt, cap, hx1, ?_, hx3, hx4⟩, Or.inl hk⟩
      rw [arena_shape_getElem?, hother _ hk, ← arena_shape_getElem?]
      exact hx2
  constructor
  · intro x hx
    rcases List.mem_append.mp hx with hx | hx
    · exact (hold x hx).1
    · simp only [List.mem_singleton] at hx
      subst hx
      exact ⟨c, rn.count, rn.capacity, hoff, hnew, by simp only []; omega, hle⟩
  · rw [List.pairwise_append]
    refine ⟨hp, List.pairwise_singleton _ _, ?_⟩
    intro x hx y hy
    simp only [List.mem_singleton] at hy
    subst hy
    exact (hold x hx).2

/-- Along a sequence of allocations the arena stays well formed, every range
returned lies in the occupied part of its region, and the ranges are pairwise
disjoint. -/
theorem alloc_trace_inv (a0 a : Arena) (rs : List (Ptr × Nat))
    (h0 : a0.linked ∧ a0.bounded) (ht : AllocTrace a0 rs a) :
    (a.linked ∧ a.bounded) ∧
    (∀ x ∈ rs, ∃ c cnt cap, x.1.offset = 8 * c ∧
      (arena_shape a)[x.1.region]? = some (cnt, cap) ∧ c + x.2 ≤ cnt ∧ cnt ≤ cap) ∧
    rs.Pairwise ranges_disjoint := by
  induction ht with
  | nil =>
    exact ⟨h0, fun x hx => absurd hx (List.not_mem_nil x), List.Pairwise.nil⟩
  | alloc malloc rs a a' size_bytes p _ ha ih =>
    obtain ⟨hinv, hin, hp⟩ := ih
    exact ⟨arena_alloc_inv malloc a a' size_bytes p hinv ha,
      arena_alloc_ranges malloc a a' size_bytes p hinv.1 hinv.2 ha rs hin hp⟩
  | realloc malloc rs a a' oldptr newptr oldsz newsz _ hgrow ha ih =>
    obtain ⟨hinv, hin, hp⟩ := ih
    obtain ⟨a1, h1, h2, h3⟩ := arena_realloc_grow malloc a a' oldptr newptr oldsz newsz hgrow ha
    have hr := arena_alloc_ranges malloc a a1 newsz newptr hinv.1 hinv.2 h1 rs hin hp
    rw [← h3] at hr
    exact ⟨arena_inv_of_shape a1 a' h3 h2 (arena_alloc_inv malloc a a1 newsz newptr hinv h1), hr⟩

/-- Two ranges of at least one unit each that are disjoint start at different
pointers. -/
theorem ranges_disjoint_ne (x y : Ptr × Nat) (h : ranges_disjoint x y) (hx : 1 ≤ x.2)
    (hy : 1 ≤ y.2) : x.1 ≠ y.1 := by
  intro heq
  unfold ranges_disjoint at h
  rw [heq] at h
  rcases h with h | h | h
  · exact h rfl
  · omega
  · omega

theorem write_byte_layout (regs regs' : List Region) (p : Ptr) (i v : Nat)
    (h : write_byte regs p i v = .ok regs') :
    regs'.map (fun r : Region => (r.count, r.capacity, r.size_bytes)) =
      regs.map (fun r : Region => (r.count, r.capacity, r.size_bytes)) := by
  unfold write_byte at h
  cases hr : regs[p.region]? with
  | none => rw [hr] at h; cases h
  | some r =>
    rw [hr] at h
    simp only [] at h
    split at h
    · cases h
      apply List.ext_getElem?
      intro k
      simp only [List.getElem?_map]
      by_cases hk : k = p.region
      · subst hk
        rw [List.getElem?_set_self (List.getElem?_eq_some.mp hr).1, hr]
        rfl
      · rw [List.getElem?_set_ne (Ne.symm hk)]
    · cases h

/-- The copy loop of `arena_realloc` changes no count, no capacity and no block
size. -/
theorem copy_bytes_layout (q p : Ptr) (n i : Nat) (regs regs' : List Region)
    (h : copy_bytes q p n i regs = .ok regs') :
    regs'.map (fun r : Region => (r.count, r.capacity, r.size_bytes)) =
      regs.map (fun r : Region => (r.count, r.capacity, r.size_bytes)) := by
  induction n generalizing i regs with
  | zero =>
    simp only [copy_bytes, Except.ok.injEq] at h
    rw [h]
  | succ n ih =>
    rw [copy_bytes] at h
    cases hr : read_byte regs p i with
    | error e => rw [hr] at h; cases h
    | ok v =>
      rw [hr] at h
      simp only [] at h
      cases hw : write_byte regs q i v with
      | error e => rw [hw] at h; cases h
      | ok regs1 =>
        rw [hw] at h
        simp only [] at h
        rw [ih (i + 1) regs1 h, write_byte_layout regs regs1 q i v hw]

/-- Soundness of the regions depends on counts, capacities and block sizes
alone. -/
theorem sound_of_layout (regs regs' : List Region)
    (hl : regs'.map (fun r : Region => (r.count, r.capacity, r.size_bytes)) =
      regs.map (fun r : Region => (r.count, r.capacity, r.size_bytes)))
    (h : ∀ r ∈ regs, r.sound) : ∀ r ∈ regs', r.sound := by
  intro r hr
  have hmem : (r.count, r.capacity, r.size_bytes) ∈
      regs'.map (fun r : Region => (r.count, r.capacity, r.size_bytes)) :=
    List.mem_map.mpr ⟨r, hr, rfl⟩
  rw [hl] at hmem
  obtain ⟨r0, hr0, heq⟩ := List.mem_map.mp hmem
  have hs := h r0 hr0
  simp only [Prod.mk.injEq] at heq
  obtain ⟨h1, h2, h3⟩ := heq
  unfold Region.sound at hs ⊢
  rw [← h1, ← h2, ← h3]
  exact hs

/-- `arena_alloc` keeps the regions sound. -/
theorem arena_alloc_sound (malloc : Nat → Option (Nat → Nat)) (a a' : Arena)
    (size_bytes : Nat) (p : Ptr) (hlinked : a.linked) (hsound : ∀ r ∈ a.regions, r.sound)
    (ha : arena_alloc malloc a size_bytes = .ok (p, a')) : ∀ r ∈ a'.regions, r.sound := by
  obtain ⟨rn, c, hrn, _, _, hs, _, _, hother, _, _⟩ :=
    arena_alloc_facts malloc a a' size_bytes p hlinked hsound ha
  intro r hr
  obtain ⟨k, hk, rfl⟩ := List.getElem_of_mem hr
  by_cases hkp : k = p.region
  · subst hkp
    rw [List.getElem?_eq_getElem hk] at hrn
    cases hrn
    exact hs
  · have := hother k hkp
    rw [List.getElem?_eq_getElem hk] at this
    exact hsound _ (List.getElem?_mem this.symm)

/-- In every reachable arena every region is sound: it holds at most its
capacity, and its block has the `24 + 8 * capacity` bytes asked for, a size that
did not wrap around. -/
theorem arena_reachable_sound (a : Arena) (hr : ArenaReachable a) :
    ∀ r ∈ a.regions, r.sound := by
  induction hr with
  | empty => exact fun r hr => absurd hr (List.not_mem_nil r)
  | alloc malloc a a' size_bytes p hprev ha ih =>
    exact arena_alloc_sound malloc a a' size_bytes p (arena_reachable_inv a hprev).1 ih ha
  | realloc malloc a a' oldptr newptr oldsz newsz hprev ha ih =>
    unfold arena_realloc at ha
    by_cases hle : newsz ≤ oldsz
    · rw [if_pos hle] at ha
      obtain ⟨_, rfl⟩ := Prod.mk.inj (Except.ok.inj ha)
      exact ih
    · rw [if_neg hle] at ha
      cases h1 : arena_alloc malloc a newsz with
      | error e => rw [h1] at ha; cases ha
      | ok r =>
        obtain ⟨q1, a1⟩ := r
        rw [h1] at ha
        simp only [] at ha
        cases hc : copy_bytes q1 oldptr oldsz 0 a1.regions with
        | error e => rw [hc] at ha; cases ha
        | ok regs =>
          rw [hc] at ha
          simp only [Except.ok.injEq, Prod.mk.injEq] at ha
          obtain ⟨_, rfl⟩ := ha
          exact sound_of_layout a1.regions regs (copy_bytes_layout q1 oldptr oldsz 0 _ _ hc)
            (arena_alloc_sound malloc a a1 newsz q1 (arena_reachable_inv a hprev).1 ih h1)
  | reset a _ ih =>
    intro r hr
    simp only [arena_reset, List.mem_map] at hr
    obtain ⟨r0, hr0, rfl⟩ := hr
    obtain ⟨_, h2, h3⟩ := ih r0 hr0
    exact ⟨Nat.zero_le _, h2, h3⟩
  | free a _ _ => exact fun r hr => absurd hr (List.not_mem_nil r)

/-- A request of 800 bytes on the empty arena, `malloc` returning a block: one
region of 8192 units holding 100 units. -/
theorem arena_alloc_first (malloc : Nat → Option (Nat → Nat)) (fresh : Nat → Nat)
    (hm : malloc 65560 = some fresh) :
    arena_alloc malloc arena_empty 800 =
      .ok ({ region := 0, offset := 0 },
        { regions := [{ region_init fresh 8192 with count := 100 }], end_ := some 0 }) := by
  have hu1 : size_units 800 = 100 := by norm_num [size_units, SIZE_MOD]
  have hc1 : region_capacity 100 = 8192 := by decide
  have h1 := (arena_alloc_empty malloc arena_empty 800 rfl rfl).2 fresh
    (new_region_ok _ _ fresh (by rw [hu1, hc1]; exact hm) (by rw [hu1, hc1]; decide))
  rw [hu1, hc1] at h1
  exact h1

/-- A request of 72000 bytes after the one of 800 bytes: it does not fit into the
8092 units left, and a second region of 9000 units is appended; the first region
holds 100 of 8192 units and has a successor. -/
theorem arena_alloc_second (malloc : Nat → Option (Nat → Nat)) (fresh fresh2 : Nat → Nat)
    (hm : malloc 72024 = some fresh2) :
    arena_alloc malloc
        { regions := [{ region_init fresh 8192 with count := 100 }], end_ := some 0 } 72000 =
      .ok ({ region := 1, offset := 0 },
        { regions := [{ region_init fresh 8192 with count := 100 },
                      { region_init fresh2 9000 with count := 9000 }],
          end_ := some 1 }) := by
  have hu2 : size_units 72000 = 9000 := by norm_num [size_units, SIZE_MOD]
  have hc2 : region_capacity 9000 = 9000 := by decide
  have h2 := (arena_alloc_append malloc
    { regions := [{ region_init fresh 8192 with count := 100 }], end_ := some 0 }
    72000 0
    (by
      intro r hr
      simp only [List.mem_singleton] at hr
      subst hr
      rw [hu2]
      simp [SIZE_MOD])
    rfl (by simp)
    (by
      rintro k _ ⟨r, hr, h⟩
      rcases k with _ | k
      · simp only [List.getElem?_cons_zero, Option.some.injEq] at hr
        subst hr
        rw [hu2] at h
        simp [region_init] at h
      · simp at hr)).2 fresh2
    (new_region_ok _ _ fresh2 (by rw [hu2, hc2]; exact hm) (by rw [hu2, hc2]; decide))
  rw [hu2, hc2] at h2
  exact h2

/-- A request that rounds to `u` units and fits behind the `c` units in use of
the one region of 8192 units: it is served from that region, at the old count,
and `malloc` is not called. -/
theorem arena_alloc_in_first (malloc : Nat → Option (Nat → Nat)) (fresh : Nat → Nat)
    (c size_bytes u : Nat) (hu : size_units size_bytes = u) (hfit : c + u ≤ 8192) :
    arena_alloc malloc
        { regions := [{ region_init fresh 8192 with count := c }], end_ := some 0 }
        size_bytes =
      .ok ({ region := 0, offset := 8 * c },
        { regions := [{ region_init fresh 8192 with count := c + u }], end_ := some 0 }) := by
  have h2 := arena_alloc_reuse malloc
    { regions := [{ region_init fresh 8192 with count := c }], end_ := some 0 }
    size_bytes 0 0 { region_init fresh 8192 with count := c }
    (by
      intro r hr
      simp only [List.mem_singleton] at hr
      subst hr
      rw [hu]
      simp only [SIZE_MOD]
      omega)
    rfl (Nat.le_refl 0) rfl
    (by
      rw [hu]
      simp only [region_init]
      omega)
    (by
      intro k h1 h2
      omega)
  rw [hu] at h2
  exact h2

/-- A request of 16 bytes after the one of 800 bytes: it is served from the
same region, behind the 100 units in use. -/
theorem arena_alloc_second_small (malloc : Nat → Option (Nat → Nat)) (fresh : Nat → Nat) :
    arena_alloc malloc
        { regions := [{ region_init fresh 8192 with count := 100 }], end_ := some 0 } 16 =
      .ok ({ region := 0, offset := 800 },
        { regions := [{ region_init fresh 8192 with count := 102 }], end_ := some 0 }) :=
  arena_alloc_in_first malloc fresh 100 16 2 (by norm_num [size_units, SIZE_MOD]) (by decide)

/-- Two requests of `2 ^ 64 - 1` bytes on the empty arena: each rounds to zero
units, and both return the start of the first region. -/
theorem arena_alloc_max_twice (fresh : Nat → Nat) :
    arena_alloc (fun _ => some fresh) arena_empty (2 ^ 64 - 1) =
      .ok ({ region := 0, offset := 0 },
        { regions := [{ region_init fresh 8192 with count := 0 }], end_ := some 0 }) ∧
    arena_alloc (fun _ => some fresh)
        { regions := [{ region_init fresh 8192 with count := 0 }], end_ := some 0 }
        (2 ^ 64 - 1) =
      .ok ({ region := 0, offset := 0 },
        { regions := [{ region_init fresh 8192 with count := 0 }], end_ := some 0 }) := by
  have hu : size_units (2 ^ 64 - 1) = 0 := by norm_num [size_units, SIZE_MOD]
  have hc : region_capacity 0 = 8192 := by decide
  have h1 := (arena_alloc_empty (fun _ => some fresh) arena_empty (2 ^ 64 - 1) rfl rfl).2 fresh
    (new_region_ok _ _ fresh rfl (by rw [hu, hc]; decide))
  rw [hu, hc] at h1
  exact ⟨h1, arena_alloc_in_first _ fresh 0 (2 ^ 64 - 1) 0 hu (by decide)⟩

/-- A request of `2 ^ 64 - 8` bytes needs a region of `2 ^ 61 - 1` units, whose
byte size wraps around to 16: `new_region` writes the header outside of the
block. -/
theorem new_region_wraps (malloc : Nat → Option (Nat → Nat)) (content : Nat → Nat)
    (hm : malloc 16 = some content) :
    new_region malloc (region_capacity (size_units (2 ^ 64 - 8))) =
      .error Fault.out_of_bounds := by
  have hu : size_units (2 ^ 64 - 8) = 2 ^ 61 - 1 := by norm_num [size_units, SIZE_MOD]
  have hc : region_capacity (2 ^ 61 - 1) = 2 ^ 61 - 1 := by decide
  have hb : (24 + 8 * (2 ^ 61 - 1)) % SIZE_MOD = 16 := by norm_num [SIZE_MOD]
  rw [hu, hc]
  simp only [new_region, hb, hm]
  rfl

/-- When `malloc` returns `NULL`, `new_region` fails on its assertion. -/
theorem new_region_null (capacity : Nat) :
    new_region (fun _ => none) capacity = .error Fault.assert_failed := rfl

/-! ## Arena: claims -/

/-- C6, counterexample: the growth rule fails for sizes near `SIZE_MAX`. A
request of `2 ^ 64 - 1` bytes is `2 ^ 61` units when rounded up, which do not
fit in a full region of 8192 units; `arena_alloc` counts it as 0 units, creates
no region and returns the end of the full region. A request of `2 ^ 64 - 8`
bytes on the empty arena needs a region whose byte size wraps around to 16, and
the header is written outside of that block. -/
theorem arena_alloc_growth_wraps :
    (2 ^ 64 - 1 + 7) / 8 = 2 ^ 61 ∧ ¬ (8192 + 2 ^ 61 ≤ 8192) ∧
    arena_alloc (fun _ => some (fun _ => 0))
        { regions := [{ region_init (fun _ => 0) 8192 with count := 8192 }], end_ := some 0 }
        (2 ^ 64 - 1) =
      .ok ({ region := 0, offset := 65536 },
        { regions := [{ region_init (fun _ => 0) 8192 with count := 8192 }],
          end_ := some 0 }) ∧
    arena_alloc (fun _ => some (fun _ => 0)) arena_empty (2 ^ 64 - 8) =
      .error Fault.out_of_bounds :=
  ⟨by decide, by decide,
    arena_alloc_in_first _ (fun _ => 0) 8192 (2 ^ 64 - 1) 0
      (by norm_num [size_units, SIZE_MOD]) (by decide),
    (arena_alloc_empty _ arena_empty (2 ^ 64 - 8) rfl rfl).1 _
      (new_region_wraps _ (fun _ => 0) rfl)⟩

/-- C6, amended (region growth rule of `arena_alloc`): for a request of at most
`2 ^ 64 - 32` bytes, `u` units when rounded up, on an arena whose `end` agrees
with its chain and whose counts do not wrap around when `u` is added. When some
region from `end` on has `count + u ≤ capacity`, no region is created, the first
such region becomes `end`, its count grows by `u` and the pointer is at its old
count. When none has, or the arena is empty, `malloc` is asked for a region of
capacity `max(8192, u)`: when it returns a block, that one region is appended
to the chain, becomes `end` and holds `u` units (on the empty arena it is the
only region); when it returns `NULL` the call fails on `ARENA_ASSERT(reg)`.
With `malloc` returning blocks, 100 units and then 9000 units on the empty
arena leave exactly two regions: capacity 8192 with 100 units and capacity 9000
with 9000 units. -/
theorem arena_alloc_region_growth (malloc : Nat → Option (Nat → Nat)) (a : Arena)
    (size_bytes : Nat)
    (hlinked : a.linked)
    (hwrap : ∀ r ∈ a.regions, r.count + size_units size_bytes < SIZE_MOD)
    (hsz : size_bytes + 31 < SIZE_MOD) :
    (size_bytes ≤ 8 * size_units size_bytes ∧ 8 * size_units size_bytes < size_bytes + 8) ∧
    (∀ e j r, a.end_ = some e → e ≤ j → a.regions[j]? = some r →
      r.count + size_units size_bytes ≤ r.capacity →
      (∀ k, e ≤ k → k < j → ¬ has_room a.regions (size_units size_bytes) k) →
      arena_alloc malloc a size_bytes =
        .ok ({ region := j, offset := 8 * r.count },
          { regions := a.regions.set j { r with count := r.count + size_units size_bytes },
            end_ := some j })) ∧
    (∀ e, a.end_ = some e →
      (∀ k, e ≤ k → ¬ has_room a.regions (size_units size_bytes) k) →
      (∀ content,
        malloc (24 + 8 * max REGION_DEFAULT_CAPACITY (size_units size_bytes)) = some content →
        arena_alloc malloc a size_bytes =
          .ok ({ region := a.regions.length, offset := 0 },
            { regions := a.regions ++
                [{ region_init content
                      (max REGION_DEFAULT_CAPACITY (size_units size_bytes)) with
                    count := size_units size_bytes }],
              end_ := some a.regions.length })) ∧
      (malloc (24 + 8 * max REGION_DEFAULT_CAPACITY (size_units size_bytes)) = none →
        arena_alloc malloc a size_bytes = .error Fault.assert_failed)) ∧
    (a.end_ = none →
      (∀ content,
        malloc (24 + 8 * max REGION_DEFAULT_CAPACITY (size_units size_bytes)) = some content →
        arena_alloc malloc a size_bytes =
          .ok ({ region := 0, offset := 0 },
            { regions :=
                [{ region_init content
                      (max REGION_DEFAULT_CAPACITY (size_units size_bytes)) with
                    count := size_units size_bytes }],
              end_ := some 0 })) ∧
      (malloc (24 + 8 * max REGION_DEFAULT_CAPACITY (size_units size_bytes)) = none →
        arena_alloc malloc a size_bytes = .error Fault.assert_failed)) ∧
    (∀ c1 c2, malloc 65560 = some c1 → malloc 72024 = some c2 →
      ∃ p1 a1 p2 a2,
        arena_alloc malloc arena_empty (8 * 100) = .ok (p1, a1) ∧
        arena_alloc malloc a1 (8 * 9000) = .ok (p2, a2) ∧
        arena_shape a1 = [(100, 8192)] ∧ arena_shape a2 = [(100, 8192), (9000, 9000)] ∧
        p1 = { region := 0, offset := 0 } ∧ p2 = { region := 1, offset := 0 }) := by
  have hb := size_units_bounds size_bytes (by omega)
  have hlt := region_capacity_no_wrap size_bytes hsz
  have hnull : malloc (24 + 8 * region_capacity (size_units size_bytes)) = none →
      new_region malloc (region_capacity (size_units size_bytes)) =
        .error Fault.assert_failed := by
    intro hm
    rcases new_region_cases malloc (region_capacity (size_units size_bytes)) with
      ⟨_, h1⟩ | ⟨_, hm', _, _⟩ | ⟨_, hm', _, _⟩
    · exact h1
    · rw [Nat.mod_eq_of_lt hlt, hm] at hm'
      cases hm'
    · rw [Nat.mod_eq_of_lt hlt, hm] at hm'
      cases hm'
  refine ⟨⟨hb.1, by omega⟩, ?_, ?_, ?_, ?_⟩
  · intro e j r hend hej hr hroom hfirst
    exact arena_alloc_reuse malloc a size_bytes e j r hwrap hend hej hr hroom hfirst
  · intro e hend hnone
    have he := linked_some a e hlinked hend
    rw [← region_capacity_eq_max]
    obtain ⟨hfail, hok⟩ := arena_alloc_append malloc a size_bytes e hwrap hend he hnone
    exact ⟨fun content hm => hok content (new_region_ok malloc _ content hm hlt),
      fun hm => hfail _ (hnull hm)⟩
  · intro hend
    have hreg := linked_none a hlinked hend
    rw [← region_capacity_eq_max]
    obtain ⟨hfail, hok⟩ := arena_alloc_empty malloc a size_bytes hend hreg
    exact ⟨fun content hm => hok content (new_region_ok malloc _ content hm hlt),
      fun hm => hfail _ (hnull hm)⟩
  · intro c1 c2 hm1 hm2
    exact ⟨_, _, _, _, arena_alloc_first malloc c1 hm1, arena_alloc_second malloc c1 c2 hm2,
      by simp [arena_shape, region_init], by simp [arena_shape, region_init], rfl, rfl⟩

/-- C6 at a concrete arena: two regions of capacity 8192 with 8000 and 100 units,
`end` at the first; a request of 500 units (4000 bytes) skips the first region
and is served from the second. -/
theorem arena_alloc_region_growth_witness :
    arena_alloc (fun _ => some (fun _ => 0))
      { regions := [{ count := 8000, capacity := 8192, size_bytes := 65560, data := fun _ => 0 },
                    { count := 100, capacity := 8192, size_bytes := 65560, data := fun _ => 0 }],
        end_ := some 0 } 4000 =
    .ok ({ region := 1, offset := 800 },
      { regions := [{ count := 8000, capacity := 8192, size_bytes := 65560, data := fun _ => 0 },
                    { count := 600, capacity := 8192, size_bytes := 65560, data := fun _ => 0 }],
        end_ := some 1 }) :=
  (arena_alloc_region_growth (fun _ => some (fun _ => 0))
    { regions := [{ count := 8000, capacity := 8192, size_bytes := 65560, data := fun _ => 0 },
                  { count := 100, capacity := 8192, size_bytes := 65560, data := fun _ => 0 }],
      end_ := some 0 } 4000
    (by simp [Arena.linked])
    (by
      have hu : size_units 4000 = 500 := by norm_num [size_units, SIZE_MOD]
      intro r hr
      rw [hu]
      simp at hr
      rcases hr with rfl | rfl <;> simp [SIZE_MOD])
    (by decide)).2.1
    0 1 { count := 100, capacity := 8192, size_bytes := 65560, data := fun _ => 0 }
    rfl (by decide) rfl (by decide)
    (by
      intro k h1 h2
      have : k = 0 := by omega
      subst this
      rintro ⟨r, hr, h⟩
      cases hr
      revert h
      decide)

/-- C7 (reuse after reset): on an arena with at least one region `arena_reset`
keeps the regions, their order, capacities and storage, sets every count to 0
and sets `end` to the first region; when region `j` is the first of the chain
whose capacity is at least the `u` units requested, the next `arena_alloc`
creates no region and returns offset 0 of region `j`, which becomes `end` and
holds `u` units. -/
theorem arena_reset_reuse (malloc : Nat → Option (Nat → Nat)) (a : Arena) (size_bytes j : Nat) (r : Region)
    (hr : a.regions[j]? = some r)
    (hcap : size_units size_bytes ≤ r.capacity)
    (hfirst : ∀ k r', k < j → a.regions[k]? = some r' → r'.capacity < size_units size_bytes) :
    (arena_reset a).regions.length = a.regions.length ∧
    (arena_reset a).regions.map Region.capacity = a.regions.map Region.capacity ∧
    (arena_reset a).regions.map Region.data = a.regions.map Region.data ∧
    (∀ r' ∈ (arena_reset a).regions, r'.count = 0) ∧
    (arena_reset a).end_ = some 0 ∧
    arena_alloc malloc (arena_reset a) size_bytes =
      .ok ({ region := j, offset := 0 },
        { regions := (arena_reset a).regions.set j { r with count := size_units size_bytes },
          end_ := some j }) ∧
    ((arena_reset a).regions.set j { r with count := size_units size_bytes }).length =
      a.regions.length := by
  have hne : a.regions ≠ [] := by
    intro h
    rw [h] at hr
    simp at hr
  have hend : (arena_reset a).end_ = some 0 := by
    unfold arena_reset
    simp [hne]
  have hget : ∀ k : Nat, (arena_reset a).regions[k]? =
      (a.regions[k]?).map (fun r : Region => { r with count := 0 }) := by
    intro k
    simp [arena_reset]
  have hu := size_units_lt size_bytes
  refine ⟨by simp [arena_reset], ?_, ?_, ?_, hend, ?_, by simp [arena_reset]⟩
  · simp [arena_reset, List.map_map, Function.comp_def]
  · simp [arena_reset, List.map_map, Function.comp_def]
  · intro r' hr'
    simp only [arena_reset, List.mem_map] at hr'
    obtain ⟨r'', _, rfl⟩ := hr'
    rfl
  · have := arena_alloc_reuse malloc (arena_reset a) size_bytes 0 j { r with count := 0 }
      (by
        intro r' hr'
        simp only [arena_reset, List.mem_map] at hr'
        obtain ⟨r'', _, rfl⟩ := hr'
        simp only [SIZE_MOD]
        omega)
      hend (Nat.zero_le _) (by rw [hget, hr]; rfl) (by simpa using hcap)
      (by
        rintro k _ hk ⟨r', hr', hroom⟩
        rw [hget] at hr'
        cases hk' : a.regions[k]? with
        | none => rw [hk'] at hr'; simp at hr'
        | some r'' =>
          rw [hk'] at hr'
          simp only [Option.map_some', Option.some.injEq] at hr'
          subst hr'
          have := hfirst k r'' hk hk'
          simp only [] at hroom
          omega)
    simpa using this

/-- C7 at a concrete arena: regions of capacity 8192 and 9000, both in use; after
the reset a request of 9000 units is served from offset 0 of the second. -/
theorem arena_reset_reuse_witness :
    arena_alloc (fun _ => some (fun _ => 0))
      (arena_reset
        { regions := [{ count := 100, capacity := 8192, size_bytes := 65560, data := fun _ => 0 },
                      { count := 9000, capacity := 9000, size_bytes := 72024, data := fun _ => 0 }],
          end_ := some 1 }) 72000 =
    .ok ({ region := 1, offset := 0 },
      { regions := [{ count := 0, capacity := 8192, size_bytes := 65560, data := fun _ => 0 },
                    { count := 9000, capacity := 9000, size_bytes := 72024, data := fun _ => 0 }],
        end_ := some 1 }) :=
  have hu : size_units 72000 = 9000 := by norm_num [size_units, SIZE_MOD]
  have h := (arena_reset_reuse (fun _ => some (fun _ => 0))
    { regions := [{ count := 100, capacity := 8192, size_bytes := 65560, data := fun _ => 0 },
                  { count := 9000, capacity := 9000, size_bytes := 72024, data := fun _ => 0 }],
      end_ := some 1 } 72000 1
    { count := 9000, capacity := 9000, size_bytes := 72024, data := fun _ => 0 }
    rfl (by rw [hu])
    (by
      intro k r' hk hr'
      have : k = 0 := by omega
      subst this
      cases hr'
      rw [hu]
      decide)).2.2.2.2.2.1
  by rw [hu] at h; exact h

/-- C8, amended (no-shrink realloc). For every arena, pointer and sizes with
`newsz ≤ oldsz`, `arena_realloc` returns the pointer itself and leaves the arena
as it is. For `oldsz < newsz ≤ 2 ^ 64 - 32`, on a sound arena in which the `oldsz`
bytes at `p` lie in the occupied part of a region: `arena_realloc` returns the
pointer `q` that `arena_alloc(arena, newsz)` returns, with the accounting (`end`,
counts, capacities) that call leaves; `q` differs from `p` when `p` points below
the count of its region (an allocation of at least one unit); the first `oldsz`
bytes at `q` are the first `oldsz` bytes at `p`; and the bytes at `p` are
unchanged and still accounted for (the count of their region did not decrease).
With `oldsz = 0` nothing is read through the pointer, and for every pointer
(one outside the arena included) the call is `arena_alloc(arena, newsz)`.
`arena_alloc` returns a pointer when `malloc` returns a block for the region the
request may need; when `arena_alloc` fails, `arena_realloc` fails the same
way. -/
theorem arena_realloc_no_shrink (malloc : Nat → Option (Nat → Nat)) (a : Arena) (p : Ptr)
    (oldsz newsz : Nat) (ro : Region)
    (hgrow : oldsz < newsz) (hsz : newsz + 31 < SIZE_MOD)
    (hlinked : a.linked) (hsound : ∀ r ∈ a.regions, r.sound)
    (hp : a.regions[p.region]? = some ro) (hlive : p.offset + oldsz ≤ 8 * ro.count) :
    (∀ (a' : Arena) (p' : Ptr) (o n : Nat), n ≤ o →
      arena_realloc malloc a' p' o n = .ok (p', a')) ∧
    (∀ (a' : Arena) (p' : Ptr) (n : Nat), 0 < n →
      arena_realloc malloc a' p' 0 n = arena_alloc malloc a' n) ∧
    (∀ content, malloc (24 + 8 * region_capacity (size_units newsz)) = some content →
      ∃ q a1 a2,
        arena_alloc malloc a newsz = .ok (q, a1) ∧
        arena_realloc malloc a p oldsz newsz = .ok (q, a2) ∧
        a2.end_ = a1.end_ ∧ arena_shape a2 = arena_shape a1 ∧
        (p.offset < 8 * ro.count → q ≠ p) ∧
        (∀ i, i < oldsz → read_byte a.regions p i = .ok (ro.data (p.offset + i))) ∧
        (∀ i, i < oldsz → read_byte a2.regions q i = .ok (ro.data (p.offset + i))) ∧
        (∀ i, i < oldsz → read_byte a2.regions p i = .ok (ro.data (p.offset + i))) ∧
        (∃ ro', a2.regions[p.region]? = some ro' ∧ ro.count ≤ ro'.count ∧
          ro'.capacity = ro.capacity)) ∧
    (∀ q a1, arena_alloc malloc a newsz = .ok (q, a1) →
      ∃ a2, arena_realloc malloc a p oldsz newsz = .ok (q, a2) ∧
        a2.end_ = a1.end_ ∧ arena_shape a2 = arena_shape a1 ∧
        (p.offset < 8 * ro.count → q ≠ p) ∧
        (∀ i, i < oldsz → read_byte a.regions p i = .ok (ro.data (p.offset + i))) ∧
        (∀ i, i < oldsz → read_byte a2.regions q i = .ok (ro.data (p.offset + i))) ∧
        (∀ i, i < oldsz → read_byte a2.regions p i = .ok (ro.data (p.offset + i))) ∧
        (∃ ro', a2.regions[p.region]? = some ro' ∧ ro.count ≤ ro'.count ∧
          ro'.capacity = ro.capacity)) ∧
    (∀ f, arena_alloc malloc a newsz = .error f →
      arena_realloc malloc a p oldsz newsz = .error f) := by
  have hrel : ∀ q a1, arena_alloc malloc a newsz = .ok (q, a1) →
      ∃ a2, arena_realloc malloc a p oldsz newsz = .ok (q, a2) ∧
        a2.end_ = a1.end_ ∧ arena_shape a2 = arena_shape a1 ∧
        (p.offset < 8 * ro.count → q ≠ p) ∧
        (∀ i, i < oldsz → read_byte a.regions p i = .ok (ro.data (p.offset + i))) ∧
        (∀ i, i < oldsz → read_byte a2.regions q i = .ok (ro.data (p.offset + i))) ∧
        (∀ i, i < oldsz → read_byte a2.regions p i = .ok (ro.data (p.offset + i))) ∧
        (∃ ro', a2.regions[p.region]? = some ro' ∧ ro.count ≤ ro'.count ∧
          ro'.capacity = ro.capacity) := by
    intro q a1 halloc
    obtain ⟨rn, c, hrn, hoff, hcount, hrns, hend1, _, hother, hsame, _⟩ :=
      arena_alloc_facts malloc a a1 newsz q hlinked hsound halloc
    have hros := hsound ro (List.getElem?_mem hp)
    have hub := size_units_bounds newsz (by omega)
    -- the region of `p` after the allocation
    have hp1 : ∃ ro1, a1.regions[p.region]? = some ro1 ∧ ro1.data = ro.data ∧
        ro1.size_bytes = ro.size_bytes ∧ ro.count ≤ ro1.count ∧ ro1.capacity = ro.capacity ∧
        (p.region = q.region → ro.count = c) := by
      by_cases hreg : p.region = q.region
      · rw [hreg] at hp
        obtain ⟨h1, h2, h3, h4⟩ := hsame ro hp
        exact ⟨rn, by rw [hreg]; exact hrn, h4.symm, h3.symm, by omega, h2.symm, fun _ => h1⟩
      · exact ⟨ro, by rw [hother _ hreg]; exact hp, rfl, rfl, Nat.le_refl _, rfl,
          fun h => absurd h hreg⟩
    obtain ⟨ro1, hro1, hdata1, hsize1, hcount1, hcap1, hsamec⟩ := hp1
    have hqb : 24 + q.offset + oldsz ≤ rn.size_bytes := by
      obtain ⟨h1, h2, _⟩ := hrns
      omega
    have hpb : 24 + p.offset + oldsz ≤ ro1.size_bytes := by
      obtain ⟨h1, h2, _⟩ := hros
      omega
    have hdis : q.region ≠ p.region ∨ p.offset + oldsz ≤ q.offset := by
      by_cases hreg : p.region = q.region
      · right
        have := hsamec hreg
        omega
      · exact Or.inl (Ne.symm hreg)
    obtain ⟨regs, hcopy, hlen, hoth, rn', hrn', h1, h2, h3, h4, h5⟩ :=
      copy_bytes_spec a1.regions q p rn ro1 oldsz hrn hro1 hqb hpb hdis oldsz 0 a1.regions
        (by omega)
        ⟨rfl, fun _ _ => rfl, rn, hrn, rfl, rfl, rfl, fun _ _ => rfl,
          fun t ht => absurd ht (Nat.not_lt_zero t)⟩
    have hreadp : ∀ i, i < oldsz → read_byte regs p i = .ok (ro.data (p.offset + i)) := by
      intro i hi
      unfold read_byte
      by_cases hreg : p.region = q.region
      · have hrr : ro1 = rn := by
          rw [hreg, hrn] at hro1
          exact (Option.some.inj hro1).symm
        rw [hreg, hrn']
        simp only []
        have := hsamec hreg
        rw [if_pos (by rw [h3, ← hrr]; omega), h4 _ (Or.inl (by omega)), ← hrr, hdata1]
      · rw [hoth _ hreg, hro1]
        simp only []
        rw [if_pos (by omega), hdata1]
    refine ⟨{ a1 with regions := regs }, ?_, rfl, ?_, ?_, ?_, ?_, hreadp, ?_⟩
    · unfold arena_realloc
      rw [if_neg (by omega), halloc]
      simp only []
      rw [hcopy]
    · unfold arena_shape
      apply List.ext_getElem?
      intro k
      simp only [List.getElem?_map]
      by_cases hk : k = q.region
      · rw [hk, hrn', hrn]
        simp [h1, h2]
      · rw [hoth k hk]
    · intro hlt heq
      have hreg : p.region = q.region := by rw [heq]
      have := hsamec hreg
      have hoffeq : q.offset = p.offset := by rw [heq]
      omega
    · intro i hi
      unfold read_byte
      rw [hp]
      simp only []
      obtain ⟨_, h2', _⟩ := hros
      rw [if_pos (by omega)]
    · intro i hi
      unfold read_byte
      simp only []
      rw [hrn']
      simp only []
      rw [if_pos (by rw [h3]; omega), h5 i hi, hdata1]
    · by_cases hreg : p.region = q.region
      · have hrr : ro1 = rn := by
          rw [hreg, hrn] at hro1
          exact (Option.some.inj hro1).symm
        refine ⟨rn', by rw [hreg]; exact hrn', ?_, ?_⟩
        · rw [h1, ← hrr]; exact hcount1
        · rw [h2, ← hrr]; exact hcap1
      · exact ⟨ro1, by simp only []; rw [hoth _ hreg]; exact hro1, hcount1, hcap1⟩
  refine ⟨?_, ?_, ?_, hrel, ?_⟩
  · intro a' p' o n hle
    unfold arena_realloc
    rw [if_pos hle]
  · intro a' p' n hn
    unfold arena_realloc
    rw [if_neg (by omega)]
    cases arena_alloc malloc a' n with
    | error e => rfl
    | ok r => rfl
  · intro content hm
    obtain ⟨q, a1, halloc⟩ := arena_alloc_returns malloc a newsz content hlinked hm
      (region_capacity_no_wrap newsz hsz)
    obtain ⟨a2, h⟩ := hrel q a1 halloc
    exact ⟨q, a1, a2, halloc, h⟩
  · intro f hf
    unfold arena_realloc
    rw [if_neg (by omega), hf]

/-- C8 at a concrete arena, the example of the spec: one region in which `p`, at
offset 0, holds 10 bytes (2 units). `realloc(p, 10, 5)` is `p` and changes
nothing; `realloc(p, 5, 10)` is another pointer, whose first 5 bytes are the
first 5 bytes at `p`. -/
theorem arena_realloc_no_shrink_witness :
    arena_realloc (fun _ => some (fun _ => 0))
      { regions := [{ count := 2, capacity := 8192, size_bytes := 65560,
                      data := fun i => i + 1 }],
        end_ := some 0 } { region := 0, offset := 0 } 10 5 =
      .ok ({ region := 0, offset := 0 },
        { regions := [{ count := 2, capacity := 8192, size_bytes := 65560,
                        data := fun i => i + 1 }],
          end_ := some 0 }) ∧
    ∃ q a2,
      arena_realloc (fun _ => some (fun _ => 0))
        { regions := [{ count := 2, capacity := 8192, size_bytes := 65560,
                        data := fun i => i + 1 }],
          end_ := some 0 } { region := 0, offset := 0 } 5 10 = .ok (q, a2) ∧
      q ≠ { region := 0, offset := 0 } ∧
      ∀ i, i < 5 → read_byte a2.regions q i = .ok (i + 1) :=
  have h := arena_realloc_no_shrink (fun _ => some (fun _ => 0))
    { regions := [{ count := 2, capacity := 8192, size_bytes := 65560,
                    data := fun i => i + 1 }],
      end_ := some 0 } { region := 0, offset := 0 } 5 10
    { count := 2, capacity := 8192, size_bytes := 65560, data := fun i => i + 1 }
    (by decide) (by simp [SIZE_MOD]) (by simp [Arena.linked])
    (by
      intro r hr
      simp only [List.mem_singleton] at hr
      subst hr
      simp [Region.sound, SIZE_MOD])
    rfl (by decide)
  ⟨h.1 _ _ 10 5 (by decide),
    let ⟨q, _, a2, _, h2, _, _, h5, _, h7, _⟩ := h.2.2.1 (fun _ => 0) rfl
    ⟨q, a2, h2, h5 (by decide), fun i hi => by simpa using h7 i hi⟩⟩

/-- C8 as stated fails in two ways. A pointer returned by `arena_alloc` for 0
bytes is an allocation of the arena, and `arena_realloc` of it from 0 to 8 bytes
returns the same pointer. And for `newsz = 2 ^ 64 - 1` the rounding wraps to 0
units: on a full region `arena_realloc(p, 8, newsz)` writes past the end of the
region. -/
theorem arena_realloc_same_pointer :
    (∃ p a1 q a2,
      arena_alloc (fun _ => some (fun _ => 0)) arena_empty 0 = .ok (p, a1) ∧
      arena_realloc (fun _ => some (fun _ => 0)) a1 p 0 8 = .ok (q, a2) ∧ q = p) ∧
    arena_realloc (fun _ => some (fun _ => 0))
      { regions := [{ count := 8192, capacity := 8192, size_bytes := 65560,
                      data := fun _ => 0 }],
        end_ := some 0 } { region := 0, offset := 0 } 8 (2 ^ 64 - 1) =
      .error Fault.out_of_bounds :=
  ⟨⟨_, _, _, _, rfl, rfl, rfl⟩, rfl⟩

/-- C15, counterexample: after `arena_free`, a request of `2 ^ 64 - 8` bytes is
`2 ^ 61 - 1` units; the byte size of a region of that capacity wraps around to
16, and the header of the region is written outside of the block, so no region
of capacity `max(8192, u)` is created. And when `malloc` returns `NULL` the call
fails on `ARENA_ASSERT(reg)`. -/
theorem arena_free_alloc_wraps :
    (2 ^ 64 - 8 + 7) / 8 = 2 ^ 61 - 1 ∧ (24 + 8 * (2 ^ 61 - 1)) % SIZE_MOD = 16 ∧
    arena_alloc (fun _ => some (fun _ => 0))
        (arena_free
          { regions := [{ region_init (fun _ => 0) 8192 with count := 100 }],
            end_ := some 0 })
        (2 ^ 64 - 8) = .error Fault.out_of_bounds ∧
    arena_alloc (fun _ => none)
        (arena_free
          { regions := [{ region_init (fun _ => 0) 8192 with count := 100 }],
            end_ := some 0 })
        800 = .error Fault.assert_failed :=
  ⟨by decide, by decide,
    (arena_alloc_empty _ _ (2 ^ 64 - 8) rfl rfl).1 _ (new_region_wraps _ (fun _ => 0) rfl),
    (arena_alloc_empty _ _ 800 rfl rfl).1 _ (new_region_null _)⟩

/-- C15, amended: `arena_free` empties the arena. For every arena state, the
arena after `arena_free` is the zero-initialised arena (no region, `end` null),
and a following `arena_alloc` does what it does on the zero-initialised arena,
for every `malloc` and size. For a request of at most `2 ^ 64 - 32` bytes for
which `malloc` returns a block, it creates one region of capacity `max 8192 u`,
`u` the request rounded up to units, which holds the `u` units, and returns the
pointer to offset 0 of that region. -/
theorem arena_free_empties (malloc : Nat → Option (Nat → Nat)) (a : Arena) (size_bytes : Nat)
    (content : Nat → Nat)
    (hsz : size_bytes + 31 < SIZE_MOD)
    (hm : malloc (24 + 8 * max REGION_DEFAULT_CAPACITY (size_units size_bytes)) =
      some content) :
    arena_free a = arena_empty ∧
    (arena_free a).regions = [] ∧ (arena_free a).end_ = none ∧
    (∀ (m : Nat → Option (Nat → Nat)) (n : Nat),
      arena_alloc m (arena_free a) n = arena_alloc m arena_empty n) ∧
    arena_alloc malloc (arena_free a) size_bytes =
      .ok ({ region := 0, offset := 0 },
        { regions :=
            [{ region_init content (max REGION_DEFAULT_CAPACITY (size_units size_bytes)) with
                count := size_units size_bytes }],
          end_ := some 0 }) ∧
    (region_init content (max REGION_DEFAULT_CAPACITY (size_units size_bytes))).capacity =
      max 8192 (size_units size_bytes) ∧
    (size_bytes ≤ 8 * size_units size_bytes ∧
      8 * size_units size_bytes < size_bytes + 8) := by
  have hb := size_units_bounds size_bytes (by omega)
  refine ⟨rfl, rfl, rfl, fun _ _ => rfl, ?_, rfl, hb.1, by omega⟩
  rw [← region_capacity_eq_max] at hm ⊢
  exact (arena_alloc_empty malloc (arena_free a) size_bytes rfl rfl).2 content
    (new_region_ok malloc _ content hm (region_capacity_no_wrap size_bytes hsz))

/-- C15, amended, at a concrete arena: after `arena_free` of an arena with one
region in use, a request of 800 bytes creates one region of 8192 units that
holds 100 units, and returns its offset 0. -/
theorem arena_free_empties_witness :
    800 + 31 < SIZE_MOD ∧
    arena_alloc (fun _ => some (fun _ => 0))
        (arena_free
          { regions := [{ region_init (fun _ => 0) 8192 with count := 100 }],
            end_ := some 0 })
        800 =
      .ok ({ region := 0, offset := 0 },
        { regions := [{ region_init (fun _ => 0) 8192 with count := 100 }],
          end_ := some 0 }) :=
  have hu : size_units 800 = 100 := by norm_num [size_units, SIZE_MOD]
  have h := (arena_free_empties (fun _ => some (fun _ => 0))
    { regions := [{ region_init (fun _ => 0) 8192 with count := 100 }], end_ := some 0 }
    800 (fun _ => 0) (by decide) rfl).2.2.2.2.1
  ⟨by decide, by rw [hu] at h; exact h⟩

/-- C18: arena well-formedness. In every arena state reachable from the empty
arena by calls of `arena_alloc`, `arena_realloc`, `arena_reset` and `arena_free`,
every region of the chain has `count ≤ capacity`, the chain is empty (`begin`
null) exactly when `end` is null, and `end` is a region of the chain. Hence the
conditions of the two assertions of `arena_alloc` hold: the chain is empty when
`end` is null, and the region the loop stops at without room is the last one. A
call of `arena_alloc` therefore fails only inside `new_region`, when `malloc`
returns `NULL` (`ARENA_ASSERT(reg)`) or the byte size of the region wraps
around below the size of the header; otherwise it returns a pointer. -/
theorem arena_well_formed (a : Arena) (hr : ArenaReachable a) :
    (∀ r ∈ a.regions, r.count ≤ r.capacity) ∧
    (a.regions = [] ↔ a.end_ = none) ∧
    (∀ e, a.end_ = some e → e < a.regions.length) ∧
    (a.end_ = none → a.regions.isEmpty = true) ∧
    (∀ size e j r, a.end_ = some e →
      arena_alloc_walk a.regions size a.regions.length e = .ok j →
      a.regions[j]? = some r → (r.count + size) % SIZE_MOD > r.capacity →
      ¬ (j + 1 < a.regions.length)) ∧
    (∀ malloc size_bytes f, arena_alloc malloc a size_bytes = .error f →
      (f = Fault.assert_failed ∧
        malloc ((24 + 8 * region_capacity (size_units size_bytes)) % SIZE_MOD) = none) ∨
      (f = Fault.out_of_bounds ∧
        (24 + 8 * region_capacity (size_units size_bytes)) % SIZE_MOD < 24)) ∧
    (∀ malloc size_bytes content,
      malloc (24 + 8 * region_capacity (size_units size_bytes)) = some content →
      24 + 8 * region_capacity (size_units size_bytes) < SIZE_MOD →
      ∃ p a', arena_alloc malloc a size_bytes = .ok (p, a')) := by
  obtain ⟨hl, hb⟩ := arena_reachable_inv a hr
  refine ⟨fun r hr => (hb r hr).1, ?_, fun e hend => linked_some a e hl hend, ?_, ?_, ?_, ?_⟩
  · constructor
    · intro hreg
      cases hend : a.end_ with
      | none => rfl
      | some e =>
        have := linked_some a e hl hend
        rw [hreg] at this
        exact absurd this (Nat.not_lt_zero e)
    · exact linked_none a hl
  · intro hend
    rw [linked_none a hl hend]
    rfl
  · intro size e j r hend hwalk hj hno
    obtain ⟨j', h1, _, _, _, h5⟩ :=
      arena_alloc_walk_spec a.regions size a.regions.length e (linked_some a e hl hend)
        (by omega)
    rw [hwalk] at h1
    cases h1
    rcases h5 with ⟨r', hr', hfit⟩ | hlast
    · rw [hj] at hr'
      cases hr'
      omega
    · omega
  · intro malloc size_bytes f hf
    have hn := arena_alloc_error malloc a size_bytes f hl hf
    rcases new_region_cases malloc (region_capacity (size_units size_bytes)) with
      ⟨hm, h1⟩ | ⟨_, _, hlt, h1⟩ | ⟨_, _, _, h1⟩
    · rw [h1] at hn
      exact Or.inl ⟨(Except.error.inj hn).symm, hm⟩
    · rw [h1] at hn
      exact Or.inr ⟨(Except.error.inj hn).symm, hlt⟩
    · rw [h1] at hn
      cases hn
  · intro malloc size_bytes content hm hlt
    exact arena_alloc_returns malloc a size_bytes content hl hm hlt

/-- C18 at a concrete state: after a request of 800 bytes on the empty arena the
one region holds 100 of 8192 units, `end` is that region, and a further request
returns. -/
theorem arena_well_formed_witness :
    ArenaReachable
      { regions := [{ region_init (fun _ => 0) 8192 with count := 100 }], end_ := some 0 } ∧
    (∃ p a', arena_alloc (fun _ => some (fun _ => 0))
      { regions := [{ region_init (fun _ => 0) 8192 with count := 100 }], end_ := some 0 }
      16 = .ok (p, a')) :=
  have hr : ArenaReachable
      { regions := [{ region_init (fun _ => 0) 8192 with count := 100 }], end_ := some 0 } :=
    ArenaReachable.alloc (fun _ => some (fun _ => 0)) arena_empty _ 800 _ ArenaReachable.empty
      (arena_alloc_first _ (fun _ => 0) rfl)
  ⟨hr, (arena_well_formed _ hr).2.2.2.2.2.2 (fun _ => some (fun _ => 0)) 16 (fun _ => 0) rfl
    (by decide)⟩

/-- C19, counterexample: a region with a successor need not be full. After a
request of 800 bytes and one of 72000 bytes on the empty arena the first region
holds 100 of its 8192 units and has the second region as its successor; after
`arena_reset` both regions hold 0 units and the link is still there. -/
theorem arena_successor_not_full :
    ¬ (∀ a : Arena, ArenaReachable a → ∀ k r, a.regions[k]? = some r →
        k + 1 < a.regions.length → r.count = r.capacity) := by
  intro h
  have hr : ArenaReachable
      { regions := [{ region_init (fun _ => 0) 8192 with count := 100 },
                    { region_init (fun _ => 0) 9000 with count := 9000 }],
        end_ := some 1 } :=
    ArenaReachable.alloc (fun _ => some (fun _ => 0)) _ _ 72000 _
      (ArenaReachable.alloc (fun _ => some (fun _ => 0)) arena_empty _ 800 _
        ArenaReachable.empty (arena_alloc_first _ (fun _ => 0) rfl))
      (arena_alloc_second _ (fun _ => 0) (fun _ => 0) rfl)
  have := h _ hr 0 { region_init (fun _ => 0) 8192 with count := 100 } rfl (by decide)
  revert this
  decide

/-- C19, amended: what holds of the links. In every reachable arena a region
with a successor has `count ≤ capacity`. A call of `arena_alloc` that returns
either keeps the chain as long as it was or appends exactly one region, in a
block `malloc` returned, of capacity `max 8192 u` and holding the `u` units
requested, behind the last region, and it does so only when the request did not
fit in that last region (`count + u > capacity`); the region it links from need
not be full. `arena_reset` keeps every link and sets every count to 0. -/
theorem arena_successor_link (malloc : Nat → Option (Nat → Nat)) (a a' : Arena)
    (size_bytes : Nat) (p : Ptr)
    (hr : ArenaReachable a) (ha : arena_alloc malloc a size_bytes = .ok (p, a')) :
    (∀ k r, a'.regions[k]? = some r → k + 1 < a'.regions.length → r.count ≤ r.capacity) ∧
    (a'.regions.length = a.regions.length ∨
      (∃ content,
        malloc (24 + 8 * max REGION_DEFAULT_CAPACITY (size_units size_bytes)) =
          some content ∧
        a'.regions = a.regions ++
          [{ region_init content (max REGION_DEFAULT_CAPACITY (size_units size_bytes)) with
              count := size_units size_bytes }] ∧
        p = { region := a.regions.length, offset := 0 } ∧
        ∀ r, a.regions[a.regions.length - 1]? = some r →
          r.capacity < r.count + size_units size_bytes)) ∧
    (arena_reset a').regions.length = a'.regions.length ∧
    (∀ r ∈ (arena_reset a').regions, r.count = 0) := by
  have hinv := arena_reachable_inv a hr
  have hinv' := arena_alloc_inv malloc a a' size_bytes p hinv ha
  refine ⟨?_, ?_, ?_, ?_⟩
  · intro k r hk _
    exact (hinv'.2 r (List.getElem?_mem hk)).1
  · rw [← region_capacity_eq_max]
    exact arena_alloc_link malloc a a' size_bytes p hinv.1 hinv.2 ha
  · simp [arena_reset]
  · intro r hr
    simp only [arena_reset, List.mem_map] at hr
    obtain ⟨r0, _, rfl⟩ := hr
    rfl

/-- C19, amended, at a concrete state: the request of 72000 bytes after one of
800 bytes links a second region behind the first one, which holds 100 of 8192
units: `8192 < 100 + 9000`. -/
theorem arena_successor_link_witness :
    ArenaReachable
      { regions := [{ region_init (fun _ => 0) 8192 with count := 100 }], end_ := some 0 } ∧
    arena_alloc (fun _ => some (fun _ => 0))
        { regions := [{ region_init (fun _ => 0) 8192 with count := 100 }], end_ := some 0 }
        72000 =
      .ok ({ region := 1, offset := 0 },
        { regions := [{ region_init (fun _ => 0) 8192 with count := 100 },
                      { region_init (fun _ => 0) 9000 with count := 9000 }],
          end_ := some 1 }) ∧
    (∀ k r,
      [{ region_init (fun _ => 0) 8192 with count := 100 },
       { region_init (fun _ => 0) 9000 with count := 9000 }][k]? = some r →
      k + 1 < 2 → r.count ≤ r.capacity) :=
  have hr : ArenaReachable
      { regions := [{ region_init (fun _ => 0) 8192 with count := 100 }], end_ := some 0 } :=
    ArenaReachable.alloc (fun _ => some (fun _ => 0)) arena_empty _ 800 _ ArenaReachable.empty
      (arena_alloc_first _ (fun _ => 0) rfl)
  ⟨hr, arena_alloc_second _ (fun _ => 0) (fun _ => 0) rfl,
    (arena_successor_link (fun _ => some (fun _ => 0)) _ _ 72000 _ hr
      (arena_alloc_second _ (fun _ => 0) (fun _ => 0) rfl)).1⟩

/-- C20, counterexample: two calls with non-zero sizes can return the same
pointer. A request of `2 ^ 64 - 1` bytes rounds to 0 units in `size_t`
arithmetic, so two such requests on the empty arena both return the start of
the first region. -/
theorem arena_alloc_same_pointer :
    ∃ p a1 a2, 2 ^ 64 - 1 ≠ 0 ∧ 2 ^ 64 - 1 < SIZE_MOD ∧
      arena_alloc (fun _ => some (fun _ => 0)) arena_empty (2 ^ 64 - 1) = .ok (p, a1) ∧
      arena_alloc (fun _ => some (fun _ => 0)) a1 (2 ^ 64 - 1) = .ok (p, a2) :=
  ⟨_, _, _, by decide, by decide, (arena_alloc_max_twice (fun _ => 0)).1,
    (arena_alloc_max_twice (fun _ => 0)).2⟩

/-- C20, amended: allocations do not overlap. In any sequence of calls of
`arena_alloc` and of growing `arena_realloc` on a reachable arena, with no
`arena_reset` or `arena_free` in between, every range returned (pointer and
units reserved) lies in the occupied part of its region, so within the capacity;
the ranges of any two calls are disjoint; two calls that reserve at least one
unit each return different pointers; and a request of `1` to `2 ^ 64 - 8` bytes
reserves at least one unit. -/
theorem arena_alloc_no_overlap (a0 a : Arena) (ranges : List (Ptr × Nat))
    (hr : ArenaReachable a0) (ht : AllocTrace a0 ranges a) :
    (∀ x ∈ ranges, ∃ c r, x.1.offset = 8 * c ∧ a.regions[x.1.region]? = some r ∧
      c + x.2 ≤ r.count ∧ r.count ≤ r.capacity) ∧
    ranges.Pairwise ranges_disjoint ∧
    ranges.Pairwise (fun x y => 1 ≤ x.2 → 1 ≤ y.2 → x.1 ≠ y.1) ∧
    (∀ n, 1 ≤ n → n + 7 < SIZE_MOD → 1 ≤ size_units n) := by
  obtain ⟨_, hin, hp⟩ := alloc_trace_inv a0 a ranges (arena_reachable_inv a0 hr) ht
  refine ⟨?_, hp, hp.imp (fun h hx hy => ranges_disjoint_ne _ _ h hx hy), ?_⟩
  · intro x hx
    obtain ⟨c, cnt, cap, h1, h2, h3, h4⟩ := hin x hx
    rw [arena_shape_getElem?] at h2
    cases hreg : a.regions[x.1.region]? with
    | none => rw [hreg] at h2; cases h2
    | some r =>
      rw [hreg] at h2
      simp only [Option.map_some', Option.some.injEq, Prod.mk.injEq] at h2
      exact ⟨c, r, h1, rfl, by omega, by omega⟩
  · intro n h1 h2
    unfold size_units
    unfold SIZE_MOD at h2 ⊢
    omega

/-- C20, amended, at a concrete run: requests of 800 and of 16 bytes on the empty
arena return offsets 0 and 800 of the same region, 100 and 2 units long; the
ranges are disjoint and the pointers differ. -/
theorem arena_alloc_no_overlap_witness :
    AllocTrace arena_empty
      [(({ region := 0, offset := 0 } : Ptr), 100), (({ region := 0, offset := 800 } : Ptr), 2)]
      { regions := [{ region_init (fun _ => 0) 8192 with count := 102 }], end_ := some 0 } ∧
    ranges_disjoint (({ region := 0, offset := 0 } : Ptr), 100)
      (({ region := 0, offset := 800 } : Ptr), 2) ∧
    ({ region := 0, offset := 0 } : Ptr) ≠ { region := 0, offset := 800 } :=
  have hu1 : size_units 800 = 100 := by norm_num [size_units, SIZE_MOD]
  have hu2 : size_units 16 = 2 := by norm_num [size_units, SIZE_MOD]
  have ht : AllocTrace arena_empty
      [(({ region := 0, offset := 0 } : Ptr), 100), (({ region := 0, offset := 800 } : Ptr), 2)]
      { regions := [{ region_init (fun _ => 0) 8192 with count := 102 }], end_ := some 0 } :=
    hu2 ▸ hu1 ▸ AllocTrace.alloc (fun _ => some (fun _ => 0)) _ _ _ 16 _
      (AllocTrace.alloc (fun _ => some (fun _ => 0)) [] arena_empty _ 800 _ AllocTrace.nil
        (arena_alloc_first _ (fun _ => 0) rfl))
      (arena_alloc_second_small _ (fun _ => 0))
  have h := arena_alloc_no_overlap arena_empty _ _ ArenaReachable.empty ht
  ⟨ht, List.rel_of_pairwise_cons h.2.1 (List.mem_singleton.mpr rfl),
    List.rel_of_pairwise_cons h.2.2.1 (List.mem_singleton.mpr rfl) (by decide) (by decide)⟩

/-- C21, counterexample: for a size within 7 of `SIZE_MAX` the rounding wraps
around. A request of `2 ^ 64 - 1` bytes is counted as 0 units, not as the
`2 ^ 61` units that hold it: in a region with 100 units in use it returns the
pointer at offset 800 and leaves the count at 100. And a request of
`2 ^ 64 - 8` bytes, `2 ^ 61 - 1` units, needs a new region whose byte size wraps
around to 16: the header is written outside of the block. -/
theorem arena_alloc_rounding_wraps :
    2 ^ 64 - 1 < SIZE_MOD ∧ size_units (2 ^ 64 - 1) = 0 ∧ (2 ^ 64 - 1 + 7) / 8 = 2 ^ 61 ∧
    ¬ (2 ^ 64 - 1 ≤ 8 * size_units (2 ^ 64 - 1)) ∧
    arena_alloc (fun _ => some (fun _ => 0))
        { regions := [{ region_init (fun _ => 0) 8192 with count := 100 }], end_ := some 0 }
        (2 ^ 64 - 1) =
      .ok ({ region := 0, offset := 800 },
        { regions := [{ region_init (fun _ => 0) 8192 with count := 100 }],
          end_ := some 0 }) ∧
    arena_alloc (fun _ => some (fun _ => 0))
        { regions := [{ region_init (fun _ => 0) 8192 with count := 100 }], end_ := some 0 }
        (2 ^ 64 - 8) =
      .error Fault.out_of_bounds := by
  have hu : size_units (2 ^ 64 - 1) = 0 := by norm_num [size_units, SIZE_MOD]
  have hu8 : size_units (2 ^ 64 - 8) = 2 ^ 61 - 1 := by norm_num [size_units, SIZE_MOD]
  refine ⟨by decide, hu, by decide, ?_, ?_, ?_⟩
  · rw [hu]
    decide
  · exact arena_alloc_in_first _ (fun _ => 0) 100 (2 ^ 64 - 1) 0 hu (by decide)
  · refine (arena_alloc_append (fun _ => some (fun _ => 0))
      { regions := [{ region_init (fun _ => 0) 8192 with count := 100 }], end_ := some 0 }
      (2 ^ 64 - 8) 0 ?_ rfl (by simp) ?_).1 _ (new_region_wraps _ (fun _ => 0) rfl)
    · intro r hr
      simp only [List.mem_singleton] at hr
      subst hr
      rw [hu8]
      simp [SIZE_MOD]
    · rintro k _ ⟨r, hr, h⟩
      rcases k with _ | k
      · simp only [List.getElem?_cons_zero, Option.some.injEq] at hr
        subst hr
        rw [hu8] at h
        simp [region_init] at h
      · simp at hr

/-- C21, amended: rounding of the requested size. For every size of at most
`2 ^ 64 - 32` bytes and every reachable arena, the request is counted as
`u = ⌈size_bytes / 8⌉` units, the least number of units that hold `size_bytes`
bytes. `arena_alloc` returns when `malloc` returns a block for the region the
request may need, and it fails only when `malloc` returns `NULL`. When it
returns, the pointer is at the offset of the count `c` the region it allocates
from had before (0 for a region it creates), that region is left with count
`c + u`, within its capacity, and the `size_bytes` bytes at the pointer lie
inside the block of the region. -/
theorem arena_alloc_rounding (malloc : Nat → Option (Nat → Nat)) (a : Arena)
    (size_bytes : Nat)
    (hr : ArenaReachable a) (hsz : size_bytes + 31 < SIZE_MOD) :
    (size_bytes ≤ 8 * size_units size_bytes ∧ 8 * size_units size_bytes < size_bytes + 8) ∧
    (∀ v, size_bytes ≤ 8 * v → size_units size_bytes ≤ v) ∧
    (∀ content, malloc (24 + 8 * region_capacity (size_units size_bytes)) = some content →
      ∃ p a', arena_alloc malloc a size_bytes = .ok (p, a')) ∧
    (∀ p a', arena_alloc malloc a size_bytes = .ok (p, a') →
      ∃ c rn, a'.regions[p.region]? = some rn ∧ p.offset = 8 * c ∧
        rn.count = c + size_units size_bytes ∧ rn.count ≤ rn.capacity ∧
        p.offset + size_bytes ≤ 8 * rn.count ∧
        (∀ r, a.regions[p.region]? = some r → r.count = c) ∧
        (a.regions[p.region]? = none → c = 0) ∧
        (∀ i, i < size_bytes → 24 + p.offset + i < rn.size_bytes)) ∧
    (∀ f, arena_alloc malloc a size_bytes = .error f →
      f = Fault.assert_failed ∧
        malloc (24 + 8 * region_capacity (size_units size_bytes)) = none) := by
  have hb := size_units_bounds size_bytes (by omega)
  have hlt := region_capacity_no_wrap size_bytes hsz
  obtain ⟨hl, _⟩ := arena_reachable_inv a hr
  have hsound := arena_reachable_sound a hr
  refine ⟨⟨hb.1, by omega⟩, fun v hv => by omega, ?_, ?_, ?_⟩
  · intro content hm
    exact arena_alloc_returns malloc a size_bytes content hl hm hlt
  · intro p a' ha
    obtain ⟨rn, c, hrn, hoff, hcnt, hs, _, _, _, hsame, hnone⟩ :=
      arena_alloc_facts malloc a a' size_bytes p hl hsound ha
    obtain ⟨hs1, hs2, _⟩ := hs
    refine ⟨c, rn, hrn, hoff, hcnt, hs1, by omega, fun r hr => (hsame r hr).1,
      fun h => (hnone h).1, ?_⟩
    intro i hi
    omega
  · intro f hf
    have hn := arena_alloc_error malloc a size_bytes f hl hf
    rcases new_region_cases malloc (region_capacity (size_units size_bytes)) with
      ⟨hm, h1⟩ | ⟨_, _, hlt', h1⟩ | ⟨_, _, _, h1⟩
    · rw [h1] at hn
      rw [Nat.mod_eq_of_lt hlt] at hm
      exact ⟨(Except.error.inj hn).symm, hm⟩
    · rw [Nat.mod_eq_of_lt hlt] at hlt'
      omega
    · rw [h1] at hn
      cases hn

/-- C21, amended, at a concrete state: a request of 13 bytes in the region with
100 units in use is counted as 2 units; the pointer is at offset 800 and the
count becomes 102. -/
theorem arena_alloc_rounding_witness :
    ArenaReachable
      { regions := [{ region_init (fun _ => 0) 8192 with count := 100 }], end_ := some 0 } ∧
    13 + 31 < SIZE_MOD ∧ size_units 13 = 2 ∧
    (13 ≤ 8 * size_units 13 ∧ 8 * size_units 13 < 13 + 8) ∧
    arena_alloc (fun _ => some (fun _ => 0))
        { regions := [{ region_init (fun _ => 0) 8192 with count := 100 }], end_ := some 0 }
        13 =
      .ok ({ region := 0, offset := 800 },
        { regions := [{ region_init (fun _ => 0) 8192 with count := 102 }],
          end_ := some 0 }) :=
  have hr : ArenaReachable
      { regions := [{ region_init (fun _ => 0) 8192 with count := 100 }], end_ := some 0 } :=
    ArenaReachable.alloc (fun _ => some (fun _ => 0)) arena_empty _ 800 _ ArenaReachable.empty
      (arena_alloc_first _ (fun _ => 0) rfl)
  have hu : size_units 13 = 2 := by norm_num [size_units, SIZE_MOD]
  ⟨hr, by decide, hu,
    (arena_alloc_rounding (fun _ => some (fun _ => 0)) _ 13 hr (by decide)).1,
    arena_alloc_in_first _ (fun _ => 0) 100 13 2 hu (by decide)⟩

end Ded
